import Mathlib

/-!
# vub: single-pass prefix sum (chained scan with decoupled look-back)

A shallow embedding of the host-side helpers of the repository
(`src/example/helper.h`, `src/example/gpu-device.h`, `src/example/gpu-device.cc`,
`src/include/prefix-sum.h`) together with a model of the scan kernel's
descriptor protocol, and theorems about them.

Conventions.
* C `int` values are integers reduced into `[-2^31, 2^31)` after every
  arithmetic operation (`wrapInt`, two's complement wrap-around).
* `uint32` / `ELEMT` values are naturals reduced modulo `2^32`, `uint64`
  values are naturals reduced modulo `2^64`.
* `/` on C `int` is truncating division (`Int.tdiv`).
-/

namespace Vub

/-! ## Machine integers -/

/-- Largest value of a C `int` (32 bit). -/
def INT_MAX : Int := 2147483647

/-- Smallest value of a C `int` (32 bit). -/
def INT_MIN : Int := -2147483648

/-- Two's complement reduction of an integer into the range of a C `int`. -/
def wrapInt (x : Int) : Int := (x + 2147483648) % 4294967296 - 2147483648

/-- Reduction of a natural number into the range of `uint32`. -/
def wrapU32 (x : Nat) : Nat := x % 4294967296

/-- Reduction of a natural number into the range of `uint64`. -/
def wrapU64 (x : Nat) : Nat := x % 18446744073709551616

/-! ## `src/include/prefix-sum.h` -/

/-- The macro `#define WARP_SIZE 32`. -/
def WARP_SIZE : Int := 32

/-- The macro `#define NUM_VALUES_PER_THREAD 16`. -/
def NUM_VALUES_PER_THREAD : Int := 16

/-- The macro `#define NUM_THREADS_PER_BLOCK 128`. -/
def NUM_THREADS_PER_BLOCK : Int := 128

/-- The record `struct ProcessorDescriptor`: `int status; ELEMT blockAggregate;
ELEMT blockInclusivePrefix; ELEMT pad;` with `ELEMT = unsigned int`. -/
structure ProcessorDescriptor where
  status : Int
  blockAggregate : Nat
  blockInclusivePrefix : Nat
  pad : Nat
deriving DecidableEq, Repr

/-- The scalar types used by the members of `ProcessorDescriptor`:
`int` and `ELEMT` (`unsigned int` on the host, `uint` in the kernel). -/
inductive ScalarType where
  | int
  | ELEMT
deriving DecidableEq, Repr

/-- The member names of `ProcessorDescriptor`. -/
inductive Member where
  | status
  | blockAggregate
  | blockInclusivePrefix
  | pad
deriving DecidableEq, Repr

/-- The member declarations of `struct ProcessorDescriptor`, in declaration
order. -/
def ProcessorDescriptor.members : List (Member × ScalarType) :=
  [(Member.status, ScalarType.int),
   (Member.blockAggregate, ScalarType.ELEMT),
   (Member.blockInclusivePrefix, ScalarType.ELEMT),
   (Member.pad, ScalarType.ELEMT)]

/-! ## `src/example/main.cc` -/

/-- The macro `#define NUM_INPUTS (2048*2048)`, an `int` constant expression. -/
def NUM_INPUTS : Int := wrapInt (2048 * 2048)

/-! ## `src/example/helper.h` -/

/-- The function `inline int divideRoundUp(int a, int b) { return (a + b-1) / b; }`:
the expression parses as `((a + b) - 1) / b`, every operation in `int`. -/
def divideRoundUp (a b : Int) : Int :=
  wrapInt (Int.tdiv (wrapInt (wrapInt (a + b) - 1)) b)

/-- The function `template <typename T> inline T roundUp(T input, T boundary)
{ return boundary * ((input + (boundary - 1)) / boundary); }`.
The type parameter is represented by the reduction `T` into its range
(`wrapInt` for `T = int`). -/
def roundUp (T : Int → Int) (input boundary : Int) : Int :=
  T (boundary * T (Int.tdiv (T (input + T (boundary - 1))) boundary))

/-! ## Layout of `ProcessorDescriptor` -/

/-- Size in bytes of a scalar: `int`, `unsigned int` and the kernel's `uint`
are all 32 bit wide. -/
def ScalarType.sizeOf : ScalarType → Int
  | ScalarType.int => 4
  | ScalarType.ELEMT => 4

/-- Scalars are aligned to their own size. -/
def ScalarType.alignOf (t : ScalarType) : Int := t.sizeOf

/-- Lay the members out one after the other starting at byte `cursor`, each
at the next multiple of its alignment; returns the member offsets and the
first byte after the last member. -/
def layoutFrom : Int → List (Member × ScalarType) → List (Member × Int) × Int
  | cursor, [] => ([], cursor)
  | cursor, (m, t) :: rest =>
    let off := roundUp wrapInt cursor t.alignOf
    let r := layoutFrom (off + t.sizeOf) rest
    ((m, off) :: r.1, r.2)

/-- Byte offsets of the members of `ProcessorDescriptor`. -/
def ProcessorDescriptor.offsets : List (Member × Int) :=
  (layoutFrom 0 ProcessorDescriptor.members).1

/-- Total size in bytes of `ProcessorDescriptor` (`sizeof`). -/
def ProcessorDescriptor.byteSize : Int :=
  (layoutFrom 0 ProcessorDescriptor.members).2

/-- Bytes taken by the three payload members `status`, `blockAggregate` and
`blockInclusivePrefix`, that is everything before the explicit `pad`. -/
def ProcessorDescriptor.payloadSize : Int :=
  (layoutFrom 0 (ProcessorDescriptor.members.take 3)).2


/-! ## `src/example/gpu-device.h`: descriptor set layouts -/

/-- Vulkan header constant `VK_SUCCESS`. -/
def VK_SUCCESS : Int := 0

/-- Vulkan header constant `VK_SHADER_STAGE_ALL`. -/
def VK_SHADER_STAGE_ALL : Nat := 0x7FFFFFFF

/-- The record `struct BindingDesc { VkDescriptorType descriptorType;
uint32 descriptorCount; }`. -/
structure BindingDesc where
  descriptorType : Int
  descriptorCount : Nat
deriving DecidableEq, Repr

/-- The Vulkan record `VkDescriptorSetLayoutBinding`; the pointer
`pImmutableSamplers` is `none` for `nullptr`. -/
structure VkDescriptorSetLayoutBinding where
  binding : Nat
  descriptorType : Int
  descriptorCount : Nat
  stageFlags : Nat
  pImmutableSamplers : Option Nat
deriving DecidableEq, Repr

/-- The record `VkDescriptorSetLayoutCreateInfo` as filled in by
`makeDescriptorSetLayoutImpl`: `bindingCount` and the array `pBindings` points
to. -/
structure VkDescriptorSetLayoutCreateInfo where
  bindingCount : Nat
  pBindings : List VkDescriptorSetLayoutBinding
deriving DecidableEq, Repr

/-- The lambda `makeDescriptorBindingInfo` of `makeDescriptorSetLayout`. -/
def makeDescriptorBindingInfo (desc : BindingDesc) (id : Nat) :
    VkDescriptorSetLayoutBinding :=
  { binding := id
    descriptorType := desc.descriptorType
    descriptorCount := desc.descriptorCount
    stageFlags := VK_SHADER_STAGE_ALL
    pImmutableSamplers := none }

/-- The pack expansion `{ makeDescriptorBindingInfo(bindingsIn, id++)... }`:
the initialisers of a braced list are evaluated left to right, each one reading
the `uint32` counter `id` and then incrementing it. -/
def expandBindings : Nat → List BindingDesc → List VkDescriptorSetLayoutBinding
  | _, [] => []
  | id, desc :: rest => makeDescriptorBindingInfo desc id :: expandBindings (wrapU32 (id + 1)) rest

/-- The function `GPUDevice::makeDescriptorSetLayoutImpl(bindings, numBindings)`
(`gpu-device.cc`): the create info handed to `vkCreateDescriptorSetLayout`. -/
def makeDescriptorSetLayoutImpl (bindings : List VkDescriptorSetLayoutBinding)
    (numBindings : Nat) : VkDescriptorSetLayoutCreateInfo :=
  { bindingCount := numBindings, pBindings := bindings }

/-- The function `GPUDevice::makeDescriptorSetLayout(BindingT ...bindingsIn)`:
`id` starts at 0 and `sizeof...(BindingT)` is converted to `uint32`. -/
def makeDescriptorSetLayout (bindingsIn : List BindingDesc) : VkDescriptorSetLayoutCreateInfo :=
  makeDescriptorSetLayoutImpl (expandBindings 0 bindingsIn) (wrapU32 bindingsIn.length)

/-! ## `src/example/gpu-device.cc`: buffers -/

/-- Vulkan header constant `VK_BUFFER_USAGE_TRANSFER_SRC_BIT`. -/
def VK_BUFFER_USAGE_TRANSFER_SRC_BIT : Nat := 1

/-- Vulkan header constant `VK_SHARING_MODE_EXCLUSIVE`. -/
def VK_SHARING_MODE_EXCLUSIVE : Nat := 0

/-- Vulkan header constant `VK_MEMORY_PROPERTY_DEVICE_LOCAL_BIT`. -/
def VK_MEMORY_PROPERTY_DEVICE_LOCAL_BIT : Nat := 1

/-- Vulkan header constant `VK_MEMORY_PROPERTY_HOST_VISIBLE_BIT`. -/
def VK_MEMORY_PROPERTY_HOST_VISIBLE_BIT : Nat := 2

/-- Vulkan header constant `VK_MEMORY_PROPERTY_HOST_COHERENT_BIT`. -/
def VK_MEMORY_PROPERTY_HOST_COHERENT_BIT : Nat := 4

/-- The record `VkBufferCreateInfo` as filled in by `makeBuffer`; `external` says
whether `pNext` points to the external-memory info. `size` is a `VkDeviceSize`
(64 bit). -/
structure VkBufferCreateInfo where
  size : Nat
  usage : Nat
  sharingMode : Nat
  external : Bool
deriving DecidableEq, Repr

/-- A buffer handle `VkBuffer`, together with the create info the buffer was made
from. -/
structure VkBuffer where
  handle : Nat
  info : VkBufferCreateInfo
deriving DecidableEq, Repr

/-- The Vulkan record `VkMemoryRequirements` (fields read by the code). -/
structure VkMemoryRequirements where
  size : Nat
  memoryTypeBits : Nat
deriving DecidableEq, Repr

/-- The Vulkan record `VkMemoryType` (field read by the code). -/
structure VkMemoryType where
  propertyFlags : Nat
deriving DecidableEq, Repr

/-- The record `VkMemoryAllocateInfo` as filled in by `allocateBufferMemory`;
`exported` says whether `pNext` points to the export info. -/
structure VkMemoryAllocateInfo where
  allocationSize : Nat
  memoryTypeIndex : Nat
  exported : Bool
deriving DecidableEq, Repr

/-- A memory handle `VkDeviceMemory`, together with the allocate info it was
requested with. -/
structure VkDeviceMemory where
  handle : Nat
  info : VkMemoryAllocateInfo
deriving DecidableEq, Repr

/-- The Vulkan implementation the code talks to: for each device call the
`VkResult` it returns and the value it writes through its out-pointer. -/
structure Driver where
  vkCreateBuffer : VkBufferCreateInfo → Int × Nat
  vkGetBufferMemoryRequirements : VkBuffer → VkMemoryRequirements
  memoryTypes : List VkMemoryType
  vkAllocateMemory : VkMemoryAllocateInfo → Int × Nat
  vkBindBufferMemory : VkBuffer → VkDeviceMemory → Nat → Int
  vkMapMemory : VkDeviceMemory → Nat → Nat → Int × Nat

/-- The record `struct StagingBuffer` (without the back pointer `mDev`). -/
structure StagingBuffer where
  hdl : VkBuffer
  mem : VkDeviceMemory
  ptr : Nat
deriving DecidableEq, Repr

/-- The record `struct DeviceBuffer` (without the back pointer `mDev`). -/
structure DeviceBuffer where
  hdl : VkBuffer
  mem : VkDeviceMemory
  size : Nat
deriving DecidableEq, Repr

/-- The loop of `findMemoryType` from index `i` on: the first index whose bit is
set in `memoryTypeBits` and whose `propertyFlags` contain `properties`; `none`
when the loop runs out, where the code calls `PANIC_AND_EXIT`. -/
def findMemoryTypeFrom (properties : Nat) (memoryRequirements : VkMemoryRequirements) :
    Nat → List VkMemoryType → Option Nat
  | _, [] => none
  | i, t :: rest =>
    if memoryRequirements.memoryTypeBits &&& wrapU32 (1 <<< i) ≠ 0
        ∧ t.propertyFlags &&& properties = properties then
      some i
    else
      findMemoryTypeFrom properties memoryRequirements (i + 1) rest

/-- The function `findMemoryType(physicalDevice, properties, memoryRequirements)`;
`none` is `PANIC_AND_EXIT`. -/
def findMemoryType (drv : Driver) (properties : Nat)
    (memoryRequirements : VkMemoryRequirements) : Option Nat :=
  findMemoryTypeFrom properties memoryRequirements 0 drv.memoryTypes

/-- The function `allocateBufferMemory(dev, physicalDevice, buffer, properties,
shouldExport)`; `none` is `PANIC_AND_EXIT`. The results of `vkAllocateMemory` and
`vkBindBufferMemory` are not looked at by the code. -/
def allocateBufferMemory (drv : Driver) (buffer : VkBuffer) (properties : Nat)
    (shouldExport : Bool) : Option VkDeviceMemory :=
  let requirements := drv.vkGetBufferMemoryRequirements buffer
  match findMemoryType drv properties requirements with
  | none => none
  | some memoryTypeIndex =>
    let allocInfo : VkMemoryAllocateInfo :=
      { allocationSize := requirements.size
        memoryTypeIndex := memoryTypeIndex
        exported := shouldExport }
    let memory : VkDeviceMemory := { handle := (drv.vkAllocateMemory allocInfo).2, info := allocInfo }
    let _bound := drv.vkBindBufferMemory buffer memory 0
    some memory

/-- The function `makeBuffer(dev, uint32 size, usage, shouldExport)`; the parameter
`size` is a `uint32`, so the argument is reduced modulo `2^32` on entry; `none` is
the `PANIC_AND_EXIT` of `VK_CHECK`. -/
def makeBuffer (drv : Driver) (size : Nat) (usage : Nat) (shouldExport : Bool) :
    Option VkBuffer :=
  let size32 := wrapU32 size
  let bufferInfo : VkBufferCreateInfo :=
    { size := size32
      usage := usage
      sharingMode := VK_SHARING_MODE_EXCLUSIVE
      external := shouldExport }
  let created := drv.vkCreateBuffer bufferInfo
  if created.1 ≠ VK_SUCCESS then none
  else some { handle := created.2, info := bufferInfo }

/-- The function `GPUDevice::makeStagingBuffer(uint64 size)`; `none` is
`PANIC_AND_EXIT`. The result of `vkMapMemory` is not looked at by the code. -/
def makeStagingBuffer (drv : Driver) (size : Nat) : Option StagingBuffer :=
  match makeBuffer drv size VK_BUFFER_USAGE_TRANSFER_SRC_BIT false with
  | none => none
  | some hdl =>
    match allocateBufferMemory drv hdl
        (VK_MEMORY_PROPERTY_HOST_VISIBLE_BIT ||| VK_MEMORY_PROPERTY_HOST_COHERENT_BIT) false with
    | none => none
    | some mem => some { hdl := hdl, mem := mem, ptr := (drv.vkMapMemory mem 0 size).2 }

/-- The function `GPUDevice::makeDeviceBuffer(uint64 size, bool shouldExport)`;
`none` is `PANIC_AND_EXIT`. -/
def makeDeviceBuffer (drv : Driver) (size : Nat) (shouldExport : Bool) : Option DeviceBuffer :=
  match makeBuffer drv size VK_BUFFER_USAGE_TRANSFER_SRC_BIT shouldExport with
  | none => none
  | some hdl =>
    match allocateBufferMemory drv hdl VK_MEMORY_PROPERTY_DEVICE_LOCAL_BIT shouldExport with
    | none => none
    | some mem => some { hdl := hdl, mem := mem, size := size }

/-- Vulkan header constant `VK_ERROR_OUT_OF_DEVICE_MEMORY`. -/
def VK_ERROR_OUT_OF_DEVICE_MEMORY : Int := -2

/-- Vulkan header constant `VK_ERROR_MEMORY_MAP_FAILED`. -/
def VK_ERROR_MEMORY_MAP_FAILED : Int := -5

/-- A driver with one host-visible, host-coherent, device-local memory type on
which `vkCreateBuffer` succeeds and `vkAllocateMemory`, `vkBindBufferMemory` and
`vkMapMemory` all fail. -/
def outOfMemoryDriver : Driver :=
  { vkCreateBuffer := fun _ => (VK_SUCCESS, 1)
    vkGetBufferMemoryRequirements := fun b => { size := b.info.size, memoryTypeBits := 1 }
    memoryTypes := [{ propertyFlags := 7 }]
    vkAllocateMemory := fun _ => (VK_ERROR_OUT_OF_DEVICE_MEMORY, 0)
    vkBindBufferMemory := fun _ _ _ => VK_ERROR_OUT_OF_DEVICE_MEMORY
    vkMapMemory := fun _ _ _ => (VK_ERROR_MEMORY_MAP_FAILED, 0) }

/-- A driver with one host-visible, host-coherent, device-local memory type on
which every call succeeds. -/
def healthyDriver : Driver :=
  { vkCreateBuffer := fun _ => (VK_SUCCESS, 1)
    vkGetBufferMemoryRequirements := fun b => { size := b.info.size, memoryTypeBits := 1 }
    memoryTypes := [{ propertyFlags := 7 }]
    vkAllocateMemory := fun _ => (VK_SUCCESS, 2)
    vkBindBufferMemory := fun _ _ _ => VK_SUCCESS
    vkMapMemory := fun _ _ _ => (VK_SUCCESS, 3) }

/-! ## The scan kernel and its dispatcher

The compute kernel and the host code that dispatches it are not among the source
files; what follows is modelled from the specification (sections 3 and 4). -/

/-- Modelled from the spec: the `status` value `Invalid`, the state of a
zero-initialised slot (the kernel source naming the states is missing). -/
def STATUS_INVALID : Int := 0

/-- Modelled from the spec: the `status` value `AggregateAvailable` (the kernel
source naming the states is missing). -/
def STATUS_AGGREGATE_AVAILABLE : Int := 1

/-- Modelled from the spec: the `status` value `PrefixAvailable` (the kernel
source naming the states is missing). -/
def STATUS_PREFIX_AVAILABLE : Int := 2

/-- Modelled from the spec: the sizing configuration of the missing dispatcher,
`threadsPerPartition` and `valuesPerThread`, and whether partition 0 goes from
its aggregate straight to `PrefixAvailable` (4.3 step 3) or publishes
`AggregateAvailable` first like every other partition (4.2). -/
structure ScanConfig where
  threadsPerPartition : Nat
  valuesPerThread : Nat
  partitionZeroDirect : Bool
deriving DecidableEq, Repr

/-- Modelled from the spec: `elementsPerPartition = threadsPerPartition ×
valuesPerThread` of the missing dispatcher. -/
def ScanConfig.elementsPerPartition (c : ScanConfig) : Nat :=
  c.threadsPerPartition * c.valuesPerThread

/-- Modelled from the spec: the partition count `ceil(N / elementsPerPartition)`
of the missing dispatcher. -/
def partitionCount (c : ScanConfig) (n : Nat) : Nat :=
  (n + c.elementsPerPartition - 1) / c.elementsPerPartition

/-- Modelled from the spec: the load of input element `k` by the missing kernel;
an out-of-range slot yields the identity element 0. -/
def loadElement (input : List Nat) (k : Nat) : Nat :=
  wrapU32 (input.getD k 0)

/-- Modelled from the spec: the `elementsPerPartition` values partition `p` of the
missing kernel works on, a short partition padded with the identity. -/
def partitionElements (c : ScanConfig) (input : List Nat) (p : Nat) : List Nat :=
  (List.range c.elementsPerPartition).map
    (fun t => loadElement input (p * c.elementsPerPartition + t))

/-- Modelled from the spec: the running sum of the missing Block-Local Scanner,
continuing from `acc`, every addition wrapping modulo `2^32`. -/
def inclusiveScanFrom : Nat → List Nat → List Nat
  | _, [] => []
  | acc, x :: xs => wrapU32 (acc + x) :: inclusiveScanFrom (wrapU32 (acc + x)) xs

/-- Modelled from the spec: result (a) of the missing Block-Local Scanner, the
inclusive running sum of every element within the partition. -/
def localInclusiveScan (xs : List Nat) : List Nat :=
  inclusiveScanFrom 0 xs

/-- Modelled from the spec: the local value of each element's predecessor in the
missing Block-Local Scanner, the identity for the first element. -/
def localExclusiveScan (xs : List Nat) : List Nat :=
  (0 :: localInclusiveScan xs).take xs.length

/-- Modelled from the spec: result (b) of the missing Block-Local Scanner, the
aggregate of the whole partition, that is the last inclusive value. -/
def localAggregate (xs : List Nat) : Nat :=
  (localInclusiveScan xs).getLastD 0

/-- Modelled from the spec: the aggregate the missing kernel computes for
partition `p`. -/
def blockAggregateOf (c : ScanConfig) (input : List Nat) (p : Nat) : Nat :=
  localAggregate (partitionElements c input p)

/-- Modelled from the spec: the outcome of one iteration of the look-back loop of
the missing kernel. -/
inductive LookBackOutcome where
  | spin
  | moveBack (j : Int) (runningExclusivePrefix : Nat)
  | exit (runningExclusivePrefix : Nat)
deriving DecidableEq, Repr

/-- Modelled from the spec: one iteration of the look-back loop of the missing
kernel (4.3 step 2) with cursor `j`: the loop ends when `j < 0`; otherwise slot
`j` is read, a `PrefixAvailable` slot adds its `blockInclusivePrefix` and ends the
loop, an `AggregateAvailable` slot adds its `blockAggregate` and moves the cursor
back, and any other status is polled again. -/
def lookBackStep (table : List ProcessorDescriptor) (j : Int)
    (runningExclusivePrefix : Nat) : LookBackOutcome :=
  if j < 0 then LookBackOutcome.exit runningExclusivePrefix
  else
    match table[j.toNat]? with
    | none => LookBackOutcome.spin
    | some d =>
      if d.status = STATUS_PREFIX_AVAILABLE then
        LookBackOutcome.exit (wrapU32 (runningExclusivePrefix + d.blockInclusivePrefix))
      else if d.status = STATUS_AGGREGATE_AVAILABLE then
        LookBackOutcome.moveBack (j - 1) (wrapU32 (runningExclusivePrefix + d.blockAggregate))
      else LookBackOutcome.spin

/-- Modelled from the spec: the look-back loop of the missing kernel run on a
table that does not change, for at most `fuel + 1` iterations; returns the final
`runningExclusivePrefix` and the number of slots read, or `none` when it would
poll a slot forever or needs more iterations. -/
def lookBackWalk (table : List ProcessorDescriptor) :
    Nat → Int → Nat → Nat → Option (Nat × Nat)
  | 0, j, r, reads =>
    match lookBackStep table j r with
    | LookBackOutcome.exit r1 => some (r1, if j < 0 then reads else reads + 1)
    | _ => none
  | fuel + 1, j, r, reads =>
    match lookBackStep table j r with
    | LookBackOutcome.exit r1 => some (r1, if j < 0 then reads else reads + 1)
    | LookBackOutcome.moveBack j1 r1 => lookBackWalk table fuel j1 r1 (reads + 1)
    | LookBackOutcome.spin => none

/-- Modelled from the spec: the look-back of partition `i` in the missing kernel
(4.3 steps 1 and 2): `runningExclusivePrefix = 0`, cursor `j = i - 1`, at most `i`
slots to read. -/
def lookBack (table : List ProcessorDescriptor) (i : Nat) : Option (Nat × Nat) :=
  lookBackWalk table i ((i : Int) - 1) 0 0

/-- Modelled from the spec: where a partition of the missing kernel stands in its
program: before writing its aggregate, aggregate written, inside the look-back
loop with cursor `j`, after the loop, `blockInclusivePrefix` written,
`PrefixAvailable` published, outputs written. -/
inductive Phase where
  | start
  | aggregateWritten
  | lookBack (j : Int) (runningExclusivePrefix : Nat)
  | walked (runningExclusivePrefix : Nat)
  | inclusiveWritten (runningExclusivePrefix : Nat)
  | inclusivePublished (runningExclusivePrefix : Nat)
  | done (runningExclusivePrefix : Nat)
deriving DecidableEq, Repr

/-- Modelled from the spec: the device memory the missing kernel works on (the
Descriptor Table and the two output sequences, exclusive and inclusive scan) and
the program position of every partition. -/
structure ScanState where
  table : List ProcessorDescriptor
  phase : List Phase
  outExclusive : List Nat
  outInclusive : List Nat
deriving DecidableEq, Repr

/-- Modelled from the spec: the state the missing dispatcher sets up for `n`
inputs: a Descriptor Table of `partitionCount` slots, all zero (`Invalid`). -/
def initialState (c : ScanConfig) (input : List Nat) : ScanState :=
  { table := List.replicate (partitionCount c input.length) ⟨STATUS_INVALID, 0, 0, 0⟩
    phase := List.replicate (partitionCount c input.length) Phase.start
    outExclusive := List.replicate input.length 0
    outInclusive := List.replicate input.length 0 }

/-- Modelled from the spec: the threads of a partition of the missing kernel
storing their final values `vals` to the output positions `k`, `k + 1`, ...;
positions past the end of the output are not written. -/
def writeFrom : List Nat → Nat → List Nat → List Nat
  | out, _, [] => out
  | out, k, v :: vs => writeFrom (out.set k v) (k + 1) vs

/-- Modelled from the spec: the next action of partition `i` of the missing
kernel, whose slot holds `d`, in each program position (4.2, 4.3 steps 1 to 5). A
partition polling an unavailable slot, and a finished one, leave the state as it
is. -/
def stepPhase (c : ScanConfig) (input : List Nat) (s : ScanState) (i : Nat)
    (d : ProcessorDescriptor) : Phase → ScanState
  | Phase.start =>
    { s with
      table := s.table.set i { d with blockAggregate := blockAggregateOf c input i }
      phase := s.phase.set i Phase.aggregateWritten }
  | Phase.aggregateWritten =>
    if i = 0 ∧ c.partitionZeroDirect = true then
      { s with phase := s.phase.set i (Phase.walked 0) }
    else
      { s with
        table := s.table.set i { d with status := STATUS_AGGREGATE_AVAILABLE }
        phase := s.phase.set i (Phase.lookBack ((i : Int) - 1) 0) }
  | Phase.lookBack j r =>
    match lookBackStep s.table j r with
    | LookBackOutcome.spin => s
    | LookBackOutcome.moveBack j1 r1 => { s with phase := s.phase.set i (Phase.lookBack j1 r1) }
    | LookBackOutcome.exit r1 => { s with phase := s.phase.set i (Phase.walked r1) }
  | Phase.walked r =>
    { s with
      table := s.table.set i
        { d with blockInclusivePrefix := wrapU32 (r + blockAggregateOf c input i) }
      phase := s.phase.set i (Phase.inclusiveWritten r) }
  | Phase.inclusiveWritten r =>
    { s with
      table := s.table.set i { d with status := STATUS_PREFIX_AVAILABLE }
      phase := s.phase.set i (Phase.inclusivePublished r) }
  | Phase.inclusivePublished r =>
    { s with
      outExclusive := writeFrom s.outExclusive (i * c.elementsPerPartition)
        ((localExclusiveScan (partitionElements c input i)).map (fun v => wrapU32 (v + r)))
      outInclusive := writeFrom s.outInclusive (i * c.elementsPerPartition)
        ((localInclusiveScan (partitionElements c input i)).map (fun v => wrapU32 (v + r)))
      phase := s.phase.set i (Phase.done r) }
  | Phase.done _ => s

/-- Modelled from the spec: partition `i` of the missing kernel is scheduled for
its next action; an index that is no partition does nothing. -/
def step (c : ScanConfig) (input : List Nat) (s : ScanState) (i : Nat) : ScanState :=
  match s.table[i]?, s.phase[i]? with
  | some d, some ph => stepPhase c input s i d ph
  | _, _ => s

/-- Modelled from the spec: an execution of the missing kernel, the partitions
taking their actions in the order the schedule lists them (any interleaving). -/
def run (c : ScanConfig) (input : List Nat) : ScanState → List Nat → ScanState
  | s, [] => s
  | s, i :: schedule => run c input (step c input s i) schedule

/-- The schedule that runs the partitions one after the other, each for the six
actions it needs when its predecessor has finished. -/
def sequentialSchedule (partitions : Nat) : List Nat :=
  (List.range partitions).flatMap (fun i => List.replicate 6 i)

/-- Modelled from the spec: the exclusive-scan output of one dispatch of the
missing kernel. -/
def exclusiveScan (c : ScanConfig) (input : List Nat) : List Nat :=
  (run c input (initialState c input)
    (sequentialSchedule (partitionCount c input.length))).outExclusive

/-- Modelled from the spec: the inclusive-scan output of one dispatch of the
missing kernel. -/
def inclusiveScan (c : ScanConfig) (input : List Nat) : List Nat :=
  (run c input (initialState c input)
    (sequentialSchedule (partitionCount c input.length))).outInclusive

/-! ## Specification functions for the scan -/

/-- Sum of the aggregates of the `n` partitions `lo`, `lo + 1`, ... -/
def aggregateSum (c : ScanConfig) (input : List Nat) (lo n : Nat) : Nat :=
  ((List.range' lo n).map (blockAggregateOf c input)).sum

/-- Sum modulo `2^32` of the aggregates of all partitions before `i`. -/
def exclusivePrefixOf (c : ScanConfig) (input : List Nat) (i : Nat) : Nat :=
  wrapU32 (aggregateSum c input 0 i)

/-- Sum modulo `2^32` of the aggregates of the partitions `0..i`. -/
def inclusivePrefixOf (c : ScanConfig) (input : List Nat) (i : Nat) : Nat :=
  wrapU32 (aggregateSum c input 0 (i + 1))

/-- Sum of the `blockAggregate` fields of the first `i` slots of a table. -/
def tableAggregateSum (table : List ProcessorDescriptor) (i : Nat) : Nat :=
  ((table.take i).map (fun d => d.blockAggregate)).sum

/-- Sum of the first `n` loaded input elements. -/
def loadSum (input : List Nat) (n : Nat) : Nat :=
  ((List.range n).map (loadElement input)).sum

/-- The slot `d` of partition `i` holds the partition's aggregate and has made it
visible: its status is `AggregateAvailable`, or it is the slot of a partition 0
that goes straight to `PrefixAvailable`. -/
def AggregateVisible (c : ScanConfig) (input : List Nat) (i : Nat)
    (d : ProcessorDescriptor) : Prop :=
  d.blockAggregate = blockAggregateOf c input i
  ∧ (d.status = STATUS_AGGREGATE_AVAILABLE
      ∨ (i = 0 ∧ c.partitionZeroDirect = true ∧ d.status = STATUS_INVALID))

/-- The slot `d` of partition `i` is `PrefixAvailable` and holds the partition's
aggregate and the sum of the aggregates of the partitions `0..i`. -/
def PrefixVisible (c : ScanConfig) (input : List Nat) (i : Nat)
    (d : ProcessorDescriptor) : Prop :=
  d.status = STATUS_PREFIX_AVAILABLE
  ∧ d.blockAggregate = blockAggregateOf c input i
  ∧ d.blockInclusivePrefix = inclusivePrefixOf c input i

/-- Every output position of partition `i` holds its final value: the exclusive
output at `k` the sum of the inputs before `k`, the inclusive output the sum of
the inputs up to `k`, modulo `2^32`. -/
def OutputsWritten (c : ScanConfig) (input : List Nat) (s : ScanState) (i : Nat) : Prop :=
  ∀ k : Nat, k < input.length → k / c.elementsPerPartition = i →
    s.outExclusive[k]? = some (wrapU32 ((input.take k).sum))
    ∧ s.outInclusive[k]? = some (wrapU32 ((input.take (k + 1)).sum))

/-- What holds of the slot `d` of partition `i` in each of its program
positions. -/
def PhaseOk (c : ScanConfig) (input : List Nat) (s : ScanState) (i : Nat)
    (d : ProcessorDescriptor) : Phase → Prop
  | Phase.start => d.status = STATUS_INVALID
  | Phase.aggregateWritten =>
    d.status = STATUS_INVALID ∧ d.blockAggregate = blockAggregateOf c input i
  | Phase.lookBack j r =>
    AggregateVisible c input i d ∧ -1 ≤ j ∧ j < (i : Int)
    ∧ r = wrapU32 (aggregateSum c input (j + 1).toNat (i - (j + 1).toNat))
  | Phase.walked r => AggregateVisible c input i d ∧ r = exclusivePrefixOf c input i
  | Phase.inclusiveWritten r =>
    AggregateVisible c input i d ∧ r = exclusivePrefixOf c input i
    ∧ d.blockInclusivePrefix = inclusivePrefixOf c input i
  | Phase.inclusivePublished r => PrefixVisible c input i d ∧ r = exclusivePrefixOf c input i
  | Phase.done r =>
    PrefixVisible c input i d ∧ r = exclusivePrefixOf c input i ∧ OutputsWritten c input s i

/-- The invariant of the descriptor protocol: the table, the program positions
and the outputs keep their lengths, and every slot agrees with the program
position of its partition. -/
structure Inv (c : ScanConfig) (input : List Nat) (s : ScanState) : Prop where
  table_length : s.table.length = partitionCount c input.length
  phase_length : s.phase.length = partitionCount c input.length
  outExclusive_length : s.outExclusive.length = input.length
  outInclusive_length : s.outInclusive.length = input.length
  phase_ok : ∀ (i : Nat) (d : ProcessorDescriptor) (ph : Phase),
    s.table[i]? = some d → s.phase[i]? = some ph → PhaseOk c input s i d ph

/-- An upper bound on the number of actions a partition still has to take. -/
def Phase.remaining : Phase → Nat
  | Phase.start => 6
  | Phase.aggregateWritten => 5
  | Phase.lookBack _ _ => 4
  | Phase.walked _ => 3
  | Phase.inclusiveWritten _ => 2
  | Phase.inclusivePublished _ => 1
  | Phase.done _ => 0

/-! ## `src/example/gpu-device.cc`: memory types -/

/-- Memory type `i` is allowed by the requirements (bit `i` of `memoryTypeBits` is
set) and its `propertyFlags` contain every bit of `properties`. -/
def MemoryTypeSuitable (types : List VkMemoryType) (properties : Nat)
    (memoryRequirements : VkMemoryRequirements) (i : Nat) : Prop :=
  memoryRequirements.memoryTypeBits.testBit i = true
  ∧ ∃ t : VkMemoryType, types[i]? = some t ∧ t.propertyFlags &&& properties = properties

/-! ## `src/example/gpu-device.cc`: unique queue families in `makeDevice` -/

/-- The function `popCount(uint32 bits)` of `helper.h`, which returns the
compiler intrinsic `__builtin_popcount(bits)` (`__popcnt(bits)`): the number of
bits set among the 32 bits of its argument. -/
def popCount (bits : Nat) : Nat :=
  ((List.range 32).filter (fun i => bits.testBit i)).length

/-- The mask `uniqueQueueFamilyFinder` of `makeDevice`: `uint32 finder = 0;
finder |= 1 << graphicsFamily; finder |= 1 << presentFamily;`. -/
def uniqueQueueFamilyFinder (graphicsFamily presentFamily : Nat) : Nat :=
  (0 ||| wrapU32 (1 <<< graphicsFamily)) ||| wrapU32 (1 <<< presentFamily)

/-- The bit-scan loop of `makeDevice`, `for (uint32 bit = 0, set_bits = 0;
bit < 32 && set_bits < uniqueQueueFamilyCount; ++bit)`, pushing every set bit
to `uniqueFamilyIndices`; the first argument bounds the iterations left. -/
def scanFamilyBits (finder count : Nat) : Nat → Nat → Nat → List Nat → List Nat
  | 0, _, _, uniqueFamilyIndices => uniqueFamilyIndices
  | fuel + 1, bit, setBits, uniqueFamilyIndices =>
    if bit < 32 ∧ setBits < count then
      if finder &&& wrapU32 (1 <<< bit) ≠ 0 then
        scanFamilyBits finder count fuel (wrapU32 (bit + 1)) (wrapU32 (setBits + 1))
          (uniqueFamilyIndices ++ [bit])
      else
        scanFamilyBits finder count fuel (wrapU32 (bit + 1)) setBits uniqueFamilyIndices
    else uniqueFamilyIndices

/-- The record `VkDeviceQueueCreateInfo` (fields set by `makeDevice` that differ
between entries, and `queueCount`). -/
structure VkDeviceQueueCreateInfo where
  queueFamilyIndex : Nat
  queueCount : Nat
deriving DecidableEq, Repr

/-- What `makeDevice` computes for the queue create infos: the count, the
indices and the infos. -/
structure QueueFamilySelection where
  uniqueQueueFamilyCount : Nat
  uniqueFamilyIndices : List Nat
  uniqueFamilyInfos : List VkDeviceQueueCreateInfo
deriving DecidableEq, Repr

/-- The unique queue family selection of `makeDevice` (`gpu-device.cc`): the mask,
its `popCount`, the bit-scan loop (at most 32 iterations, as `bit < 32`), and one
`VkDeviceQueueCreateInfo` with `queueCount = 1` per counted family. -/
def selectQueueFamilies (graphicsFamily presentFamily : Nat) : QueueFamilySelection :=
  let finder := uniqueQueueFamilyFinder graphicsFamily presentFamily
  let count := popCount finder
  let indices := scanFamilyBits finder count 32 0 0 []
  { uniqueQueueFamilyCount := count
    uniqueFamilyIndices := indices
    uniqueFamilyInfos := (List.range count).map
      (fun i => { queueFamilyIndex := indices.getD i 0, queueCount := 1 }) }

/-! ## `src/example/capped-array.h` -/

/-- The null pointer. A pointer is the number of the storage block it points to;
`NULL` is a number that no block has. -/
def NULL : Nat := 18446744073709551615

/-- The heap a `CappedArray<T>` works on: the storage blocks handed out by
`malloc` or provided by the caller (block `p` is what the pointer `p` points to; a
cell is `none` until it is written), the pointers passed to `free`, in order,
`sizeof(T)`, and for every byte count whether a `malloc` of that many bytes
succeeds. -/
structure Heap (T : Type) where
  blocks : List (List (Option T))
  freed : List Nat
  elementSize : Nat
  mallocSucceeds : Nat → Bool

/-- The call `malloc(size)`: when it succeeds, a fresh block with room for as
many elements as fit into `size` bytes, all cells unwritten, and the pointer to
it; when it fails, the heap as it was and `NULL`. -/
def Heap.malloc {T : Type} (h : Heap T) (size : Nat) : Heap T × Nat :=
  if h.mallocSucceeds size = true then
    ({ h with blocks := h.blocks ++ [List.replicate (size / h.elementSize) none] },
      h.blocks.length)
  else (h, NULL)

/-- The call `free(p)`; `free(NULL)` does nothing. -/
def Heap.free {T : Type} (h : Heap T) (p : Nat) : Heap T :=
  if p = NULL then h else { h with freed := h.freed ++ [p] }

/-- The store `p[i] = elem`. -/
def Heap.write {T : Type} (h : Heap T) (p i : Nat) (elem : T) : Heap T :=
  { h with blocks := h.blocks.set p ((h.blocks.getD p []).set i (some elem)) }

/-- The load `p[i]`; `none` for a cell that was never written or does not
exist. -/
def Heap.read {T : Type} (h : Heap T) (p i : Nat) : Option T :=
  (h.blocks.getD p []).getD i none

/-- The data members of `class CappedArray<T>`: `T *mElements; size_t mSize;
size_t mCapacity; bool mAllocated;`. -/
structure CappedArray where
  mElements : Nat
  mSize : Nat
  mCapacity : Nat
  mAllocated : Bool
deriving DecidableEq, Repr

/-- The member function `CappedArray::alloc(size_t max)`: the result of
`malloc(sizeof(T) * max)`, the byte count computed in `size_t` (modulo `2^64`), is
stored in `mElements` unchecked; then `mSize = 0`, `mCapacity = max` and
`mAllocated = true`. -/
def CappedArray.alloc {T : Type} (h : Heap T) (a : CappedArray) (max : Nat) :
    Heap T × CappedArray :=
  let m := h.malloc (wrapU64 (h.elementSize * max))
  (m.1, { a with mElements := m.2, mSize := 0, mCapacity := max, mAllocated := true })

/-- The member function `CappedArray::setPtr(void *ptr, size_t max)`. -/
def CappedArray.setPtr (a : CappedArray) (ptr max : Nat) : CappedArray :=
  { a with mElements := ptr, mSize := 0, mCapacity := max, mAllocated := false }

/-- The member function `CappedArray::push(const T &elem)`: `none` when
`assert(mSize < mCapacity)` fails; otherwise the heap after `mElements[mSize++] =
elem`, the array, and the returned index. As `mSize < mCapacity`, `mSize + 1`
stays in the range of `size_t`. -/
def CappedArray.push {T : Type} (h : Heap T) (a : CappedArray) (elem : T) :
    Option (Heap T × CappedArray × Nat) :=
  if a.mSize < a.mCapacity then
    let idx := a.mSize
    some (h.write a.mElements a.mSize elem, { a with mSize := a.mSize + 1 }, idx)
  else none

/-- The member function `CappedArray::clear()`. -/
def CappedArray.clear (a : CappedArray) : CappedArray :=
  { a with mSize := 0 }

/-- The member function `CappedArray::size()`. -/
def CappedArray.size (a : CappedArray) : Nat := a.mSize

/-- The member function `CappedArray::capacity()`. -/
def CappedArray.capacity (a : CappedArray) : Nat := a.mCapacity

/-- The member function `CappedArray::operator[](uint32_t i)`: the index is a
`uint32_t`, so the argument is reduced modulo `2^32` on entry. -/
def CappedArray.get {T : Type} (h : Heap T) (a : CappedArray) (i : Nat) : Option T :=
  h.read a.mElements (wrapU32 i)

/-- The move constructor `CappedArray(CappedArray<T> &&other)`, statement by
statement; returns the new object and `other` as it is left. -/
def CappedArray.moveConstruct (other : CappedArray) : CappedArray × CappedArray :=
  let other1 := { other with mAllocated := false }
  ({ mElements := other1.mElements
     mSize := other1.mSize
     mCapacity := other1.mCapacity
     mAllocated := other1.mAllocated }, other1)

/-- The move assignment `operator=(CappedArray<T> &&other)`, statement by
statement; returns `*this` and `other` as it is left. -/
def CappedArray.moveAssign (self other : CappedArray) : CappedArray × CappedArray :=
  let other1 := { other with mAllocated := false }
  ({ self with
     mElements := other1.mElements
     mSize := other1.mSize
     mCapacity := other1.mCapacity
     mAllocated := other1.mAllocated }, other1)

/-- The destructor `~CappedArray()`: `if (mAllocated) free(mElements);`. -/
def CappedArray.destroy {T : Type} (h : Heap T) (a : CappedArray) : Heap T :=
  if a.mAllocated = true then h.free a.mElements else h

/-- A caller pushing the elements of `elems` one after the other; `none` as soon
as one `push` fails its assertion. -/
def CappedArray.pushAll {T : Type} :
    Heap T → CappedArray → List T → Option (Heap T × CappedArray)
  | h, a, [] => some (h, a)
  | h, a, e :: rest =>
    match CappedArray.push h a e with
    | none => none
    | some r => CappedArray.pushAll r.1 r.2.1 rest

/-- The storage of the array exists and has room for `mCapacity` elements. -/
def CappedArray.StorageOk {T : Type} (h : Heap T) (a : CappedArray) : Prop :=
  ∃ b : List (Option T), h.blocks[a.mElements]? = some b ∧ a.mCapacity ≤ b.length

/-- An empty heap for 4-byte elements on which every `malloc` succeeds. -/
def emptyHeap : Heap Nat :=
  { blocks := [], freed := [], elementSize := 4, mallocSucceeds := fun _ => true }

/-- An empty heap for 4-byte elements on which every `malloc` fails. -/
def exhaustedHeap : Heap Nat :=
  { blocks := [], freed := [], elementSize := 4, mallocSucceeds := fun _ => false }

/-- An array that owns its storage: a fresh `CappedArray<T>` after `alloc(4)` on an
empty heap. -/
def ownedArray : Heap Nat × CappedArray :=
  CappedArray.alloc emptyHeap
    { mElements := 0, mSize := 0, mCapacity := 0, mAllocated := false } 4

/-! ## Reads of the descriptor table -/

/-- The slot of another partition that the next action of a partition in this
program position reads: the slot under the look-back cursor. -/
def Phase.readTarget : Phase → Option Nat
  | Phase.lookBack j _ => if j < 0 then none else some j.toNat
  | _ => none

/-! ## `src/example/gpu-device.cc`: image barriers -/

/-- Vulkan header constant `VK_IMAGE_LAYOUT_UNDEFINED`. -/
def VK_IMAGE_LAYOUT_UNDEFINED : Int := 0

/-- Vulkan header constant `VK_IMAGE_LAYOUT_GENERAL`. -/
def VK_IMAGE_LAYOUT_GENERAL : Int := 1

/-- Vulkan header constant `VK_IMAGE_LAYOUT_COLOR_ATTACHMENT_OPTIMAL`. -/
def VK_IMAGE_LAYOUT_COLOR_ATTACHMENT_OPTIMAL : Int := 2

/-- Vulkan header constant `VK_IMAGE_LAYOUT_DEPTH_STENCIL_ATTACHMENT_OPTIMAL`. -/
def VK_IMAGE_LAYOUT_DEPTH_STENCIL_ATTACHMENT_OPTIMAL : Int := 3

/-- Vulkan header constant `VK_IMAGE_LAYOUT_SHADER_READ_ONLY_OPTIMAL`. -/
def VK_IMAGE_LAYOUT_SHADER_READ_ONLY_OPTIMAL : Int := 5

/-- Vulkan header constant `VK_IMAGE_LAYOUT_TRANSFER_SRC_OPTIMAL`. -/
def VK_IMAGE_LAYOUT_TRANSFER_SRC_OPTIMAL : Int := 6

/-- Vulkan header constant `VK_IMAGE_LAYOUT_TRANSFER_DST_OPTIMAL`. -/
def VK_IMAGE_LAYOUT_TRANSFER_DST_OPTIMAL : Int := 7

/-- Vulkan header constant `VK_IMAGE_LAYOUT_PRESENT_SRC_KHR`. -/
def VK_IMAGE_LAYOUT_PRESENT_SRC_KHR : Int := 1000001002

/-- Vulkan header constant `VK_ACCESS_SHADER_READ_BIT`. -/
def VK_ACCESS_SHADER_READ_BIT : Nat := 0x20

/-- Vulkan header constant `VK_ACCESS_COLOR_ATTACHMENT_WRITE_BIT`. -/
def VK_ACCESS_COLOR_ATTACHMENT_WRITE_BIT : Nat := 0x100

/-- Vulkan header constant `VK_ACCESS_DEPTH_STENCIL_ATTACHMENT_READ_BIT`. -/
def VK_ACCESS_DEPTH_STENCIL_ATTACHMENT_READ_BIT : Nat := 0x200

/-- Vulkan header constant `VK_ACCESS_DEPTH_STENCIL_ATTACHMENT_WRITE_BIT`. -/
def VK_ACCESS_DEPTH_STENCIL_ATTACHMENT_WRITE_BIT : Nat := 0x400

/-- Vulkan header constant `VK_ACCESS_TRANSFER_READ_BIT`. -/
def VK_ACCESS_TRANSFER_READ_BIT : Nat := 0x800

/-- Vulkan header constant `VK_ACCESS_TRANSFER_WRITE_BIT`. -/
def VK_ACCESS_TRANSFER_WRITE_BIT : Nat := 0x1000

/-- Vulkan header constant `VK_ACCESS_MEMORY_READ_BIT`. -/
def VK_ACCESS_MEMORY_READ_BIT : Nat := 0x8000

/-- Vulkan header constant `VK_ACCESS_MEMORY_WRITE_BIT`. -/
def VK_ACCESS_MEMORY_WRITE_BIT : Nat := 0x10000

/-- The Vulkan record `VkImageSubresourceRange`. -/
structure VkImageSubresourceRange where
  aspectMask : Nat
  baseMipLevel : Nat
  levelCount : Nat
  baseArrayLayer : Nat
  layerCount : Nat
deriving DecidableEq, Repr

/-- The Vulkan record `VkImageMemoryBarrier` (the fields `makeBarrier` sets, apart
from `sType`). -/
structure VkImageMemoryBarrier where
  srcAccessMask : Nat
  dstAccessMask : Nat
  oldLayout : Int
  newLayout : Int
  image : Nat
  subresourceRange : VkImageSubresourceRange
deriving DecidableEq, Repr

/-- The function `findAccessFlagsFor(VkImageLayout layout)`: the `switch` over the
layout; `none` is the `PANIC_AND_EXIT` of the `default` case. -/
def findAccessFlagsFor (layout : Int) : Option Nat :=
  if layout = VK_IMAGE_LAYOUT_UNDEFINED ∨ layout = VK_IMAGE_LAYOUT_PRESENT_SRC_KHR then
    some 0
  else if layout = VK_IMAGE_LAYOUT_TRANSFER_DST_OPTIMAL then
    some (VK_ACCESS_TRANSFER_WRITE_BIT ||| VK_ACCESS_TRANSFER_READ_BIT)
  else if layout = VK_IMAGE_LAYOUT_GENERAL then
    some (VK_ACCESS_MEMORY_WRITE_BIT ||| VK_ACCESS_MEMORY_READ_BIT)
  else if layout = VK_IMAGE_LAYOUT_TRANSFER_SRC_OPTIMAL then
    some VK_ACCESS_TRANSFER_WRITE_BIT
  else if layout = VK_IMAGE_LAYOUT_SHADER_READ_ONLY_OPTIMAL then
    some VK_ACCESS_SHADER_READ_BIT
  else if layout = VK_IMAGE_LAYOUT_DEPTH_STENCIL_ATTACHMENT_OPTIMAL then
    some (VK_ACCESS_DEPTH_STENCIL_ATTACHMENT_READ_BIT
      ||| VK_ACCESS_DEPTH_STENCIL_ATTACHMENT_WRITE_BIT)
  else if layout = VK_IMAGE_LAYOUT_COLOR_ATTACHMENT_OPTIMAL then
    some VK_ACCESS_COLOR_ATTACHMENT_WRITE_BIT
  else none

/-- The function `GPUDevice::makeBarrier(image, aspect, oldLayout, newLayout,
levelCount, layerCount)` for images: the range is built with the literals
`.levelCount = 1` and `.layerCount = 1`, the parameters `levelCount` and
`layerCount` are not used; `none` is the `PANIC_AND_EXIT` of
`findAccessFlagsFor`. -/
def makeBarrier (image : Nat) (aspect : Nat) (oldLayout newLayout : Int)
    (_levelCount _layerCount : Nat) : Option VkImageMemoryBarrier :=
  let range : VkImageSubresourceRange :=
    { aspectMask := aspect
      baseMipLevel := 0
      levelCount := 1
      baseArrayLayer := 0
      layerCount := 1 }
  match findAccessFlagsFor oldLayout with
  | none => none
  | some srcAccessMask =>
    match findAccessFlagsFor newLayout with
    | none => none
    | some dstAccessMask =>
      some { srcAccessMask := srcAccessMask
             dstAccessMask := dstAccessMask
             oldLayout := oldLayout
             newLayout := newLayout
             image := image
             subresourceRange := range }
/-! ## Arithmetic lemmas -/

theorem wrapInt_of_range (x : Int) (h0 : -2147483648 ≤ x) (h1 : x ≤ 2147483647) :
    wrapInt x = x := by
  unfold wrapInt
  omega

theorem wrapInt_sub_one_wrapInt (y : Int) : wrapInt (wrapInt y - 1) = wrapInt (y - 1) := by
  unfold wrapInt
  omega

/-- Without overflow of `a + b - 1`, `divideRoundUp` is the floor of
`(a + b - 1) / b`. -/
theorem divideRoundUp_eq_ediv (a b : Int) (ha : 0 ≤ a) (hb : 1 ≤ b)
    (hov : a + b - 1 ≤ INT_MAX) : divideRoundUp a b = (a + b - 1) / b := by
  unfold INT_MAX at hov
  unfold divideRoundUp
  rw [wrapInt_sub_one_wrapInt, wrapInt_of_range (a + b - 1) (by omega) hov,
    Int.tdiv_eq_ediv (by omega) (by omega)]
  have hq0 : 0 ≤ (a + b - 1) / b := Int.ediv_nonneg (by omega) (by omega)
  have hq1 : (a + b - 1) / b ≤ a + b - 1 := Int.ediv_le_self _ (by omega)
  exact wrapInt_of_range _ (by omega) (by omega)

/-- Division with remainder for the numerator of `divideRoundUp`. -/
theorem divideRoundUp_spec (a b : Int) (ha : 0 ≤ a) (hb : 1 ≤ b)
    (hov : a + b - 1 ≤ INT_MAX) :
    ∃ r : Int, 0 ≤ r ∧ r < b ∧ b * divideRoundUp a b + r = a + b - 1 := by
  rw [divideRoundUp_eq_ediv a b ha hb hov]
  refine ⟨(a + b - 1) % b, Int.emod_nonneg _ (by omega), Int.emod_lt_of_pos _ (by omega), ?_⟩
  exact Int.ediv_add_emod (a + b - 1) b

/-! ## Partition count -/

/-- C2: for `0 ≤ N`, `1 ≤ b` and `N + b - 1 ≤ INT_MAX`, `divideRoundUp N b` is the
least integer `q` with `q * b ≥ N` (and `(q - 1) * b < N ≤ q * b` when `N > 0`);
with the repository's constants, `NUM_INPUTS = 2048 * 2048` elements in partitions
of `NUM_THREADS_PER_BLOCK * NUM_VALUES_PER_THREAD = 2048` give exactly 2048
partitions. -/
theorem divideRoundUp_is_ceiling (N b : Int) (hN : 0 ≤ N) (hb : 1 ≤ b)
    (hov : N + b - 1 ≤ INT_MAX) :
    (N ≤ divideRoundUp N b * b ∧ ∀ q : Int, N ≤ q * b → divideRoundUp N b ≤ q)
    ∧ (0 < N → (divideRoundUp N b - 1) * b < N ∧ N ≤ divideRoundUp N b * b)
    ∧ NUM_THREADS_PER_BLOCK * NUM_VALUES_PER_THREAD = 2048
    ∧ NUM_INPUTS = 2048 * 2048
    ∧ divideRoundUp NUM_INPUTS (NUM_THREADS_PER_BLOCK * NUM_VALUES_PER_THREAD) = 2048 := by
  obtain ⟨r, hr0, hrb, hr⟩ := divideRoundUp_spec N b hN hb hov
  have hmul : divideRoundUp N b * b = N + b - 1 - r := by
    rw [Int.mul_comm]; omega
  have hle : N ≤ divideRoundUp N b * b := by omega
  refine ⟨⟨hle, ?_⟩, ?_, by decide, by decide, by decide⟩
  · intro q hq
    by_contra hlt
    have h1 : q + 1 ≤ divideRoundUp N b := by omega
    have h2 : (q + 1) * b ≤ divideRoundUp N b * b :=
      Int.mul_le_mul_of_nonneg_right h1 (by omega)
    have h3 : (q + 1) * b = q * b + b := by ring
    omega
  · intro _
    refine ⟨?_, hle⟩
    have h3 : (divideRoundUp N b - 1) * b = divideRoundUp N b * b - b := by ring
    omega

/-- Witness for C2 at `N = 5`, `b = 2`: three partitions. -/
theorem divideRoundUp_is_ceiling_witness :
    divideRoundUp 5 2 = 3 ∧ (5 : Int) ≤ divideRoundUp 5 2 * 2
    ∧ (divideRoundUp 5 2 - 1) * 2 < 5 := by
  have h := divideRoundUp_is_ceiling 5 2 (by decide) (by decide) (by decide)
  exact ⟨by decide, h.1.1, (h.2.1 (by decide)).1⟩

/-- C7, as stated, fails: for `b = INT_MAX ≥ 2` the sum `(b - 1) + b` leaves the
range of `int` and `divideRoundUp (b - 1) b` is `0`, not `1`. -/
theorem divideRoundUp_pred_overflow :
    (2 : Int) ≤ 2147483647 ∧ (2147483647 : Int) ≤ INT_MAX
    ∧ divideRoundUp (2147483647 - 1) 2147483647 = 0
    ∧ divideRoundUp (2147483647 - 1) 2147483647 ≠ 1 := by
  decide

/-- C7 (amended): for `1 ≤ b ≤ INT_MAX`, `divideRoundUp 0 b = 0`; for `b ≥ 2` with
`(b - 1) + b - 1 ≤ INT_MAX`, `divideRoundUp (b - 1) b = 1`; and for `0 ≤ N` with
`N + b - 1 ≤ INT_MAX`, the count is `0` iff `N = 0` and `1` iff `1 ≤ N ≤ b`. With
the repository's constants `divideRoundUp 0 2048 = 0` and
`divideRoundUp 2047 2048 = 1`. -/
theorem divideRoundUp_boundary (N b : Int) (hN : 0 ≤ N) (hb : 1 ≤ b)
    (hov : N + b - 1 ≤ INT_MAX) :
    divideRoundUp 0 b = 0
    ∧ (2 ≤ b → (b - 1) + b - 1 ≤ INT_MAX → divideRoundUp (b - 1) b = 1)
    ∧ (divideRoundUp N b = 0 ↔ N = 0)
    ∧ (divideRoundUp N b = 1 ↔ 1 ≤ N ∧ N ≤ b)
    ∧ divideRoundUp 0 (NUM_THREADS_PER_BLOCK * NUM_VALUES_PER_THREAD) = 0
    ∧ divideRoundUp (NUM_THREADS_PER_BLOCK * NUM_VALUES_PER_THREAD - 1)
        (NUM_THREADS_PER_BLOCK * NUM_VALUES_PER_THREAD) = 1 := by
  have key : ∀ M : Int, 0 ≤ M → M + b - 1 ≤ INT_MAX →
      (divideRoundUp M b = 0 ↔ M = 0) ∧ (divideRoundUp M b = 1 ↔ 1 ≤ M ∧ M ≤ b) := by
    intro M hM hMov
    obtain ⟨r, hr0, hrb, hr⟩ := divideRoundUp_spec M b hM hb hMov
    constructor
    · constructor
      · intro h0
        rw [h0] at hr
        omega
      · intro hM0
        subst hM0
        by_contra hne
        have hq0 : 0 ≤ divideRoundUp 0 b := by
          rw [divideRoundUp_eq_ediv 0 b (by omega) hb hMov]
          exact Int.ediv_nonneg (by omega) (by omega)
        have h1 : 1 ≤ divideRoundUp 0 b := by omega
        have h2 : b * 1 ≤ b * divideRoundUp 0 b :=
          Int.mul_le_mul_of_nonneg_left h1 (by omega)
        omega
    · constructor
      · intro h1
        rw [h1] at hr
        omega
      · rintro ⟨h1, h2⟩
        have hq0 : 0 ≤ divideRoundUp M b := by
          rw [divideRoundUp_eq_ediv M b hM hb hMov]
          exact Int.ediv_nonneg (by omega) (by omega)
        by_contra hne
        rcases Int.lt_or_gt_of_ne hne with hlt | hgt
        · have h0 : divideRoundUp M b = 0 := by omega
          rw [h0] at hr
          omega
        · have h3 : b * 2 ≤ b * divideRoundUp M b :=
            Int.mul_le_mul_of_nonneg_left (by omega) (by omega)
          omega
  refine ⟨(key 0 (by omega) (by omega)).1.2 rfl, ?_, (key N hN hov).1, (key N hN hov).2,
    by decide, by decide⟩
  intro h2 hov2
  exact (key (b - 1) (by omega) hov2).2.2 ⟨by omega, by omega⟩

/-- Witness for C7 (amended) at `N = 2047`, `b = 2048`. -/
theorem divideRoundUp_boundary_witness :
    divideRoundUp 0 2048 = 0 ∧ divideRoundUp (2048 - 1) 2048 = 1
    ∧ (divideRoundUp 2047 2048 = 1 ↔ (1 : Int) ≤ 2047 ∧ (2047 : Int) ≤ 2048) := by
  have h := divideRoundUp_boundary 2047 2048 (by decide) (by decide) (by decide)
  exact ⟨h.1, h.2.1 (by decide) (by decide), h.2.2.2.1⟩

/-! ## Descriptor layout -/

/-- C3: `ProcessorDescriptor` has exactly the four members `status`,
`blockAggregate`, `blockInclusivePrefix`, `pad`, in this order, each 32 bit wide, at
byte offsets 0, 4, 8, 12; its size is 16 bytes, a multiple of the 16-byte boundary,
and equals `roundUp(12, 16)`, the 12 payload bytes rounded up to the boundary. -/
theorem processorDescriptor_layout :
    ProcessorDescriptor.members.map Prod.fst =
        [Member.status, Member.blockAggregate, Member.blockInclusivePrefix, Member.pad]
    ∧ ProcessorDescriptor.members.map (fun m => m.2.sizeOf * 8) = [32, 32, 32, 32]
    ∧ ProcessorDescriptor.offsets =
        [(Member.status, 0), (Member.blockAggregate, 4),
         (Member.blockInclusivePrefix, 8), (Member.pad, 12)]
    ∧ ProcessorDescriptor.byteSize = 16
    ∧ ProcessorDescriptor.byteSize % 16 = 0
    ∧ ProcessorDescriptor.payloadSize = 12
    ∧ ProcessorDescriptor.byteSize = roundUp wrapInt ProcessorDescriptor.payloadSize 16 := by
  decide

/-! ## Descriptor set layouts -/

theorem expandBindings_length (l : List BindingDesc) :
    ∀ id : Nat, (expandBindings id l).length = l.length := by
  induction l with
  | nil => intro id; rfl
  | cons d rest ih => intro id; simp [expandBindings, ih]

theorem expandBindings_getElem? (l : List BindingDesc) :
    ∀ (id i : Nat) (desc : BindingDesc), l[i]? = some desc → id + i < 4294967296 →
      (expandBindings id l)[i]? = some (makeDescriptorBindingInfo desc (id + i)) := by
  induction l with
  | nil => intro id i desc h; simp at h
  | cons d rest ih =>
    intro id i desc h hlt
    cases i with
    | zero =>
      simp at h
      simp [expandBindings, h]
    | succ n =>
      simp at h
      have hw : wrapU32 (id + 1) = id + 1 := by unfold wrapU32; omega
      simp only [expandBindings, List.getElem?_cons_succ, hw]
      rw [ih (id + 1) n desc h (by omega)]
      congr 2
      omega

/-- C8: binding number = declaration order. For `k < 2^32` binding descriptors, the
array handed to `makeDescriptorSetLayoutImpl` has exactly `k` entries
(`numBindings = k`), and entry `i` has `binding = i`, the `descriptorType` and
`descriptorCount` of the `i`-th argument, `stageFlags = VK_SHADER_STAGE_ALL` and
no immutable samplers. -/
theorem makeDescriptorSetLayout_binding_order (bindingsIn : List BindingDesc)
    (hk : bindingsIn.length < 4294967296) :
    (makeDescriptorSetLayout bindingsIn).bindingCount = bindingsIn.length
    ∧ (makeDescriptorSetLayout bindingsIn).pBindings.length = bindingsIn.length
    ∧ ∀ (i : Nat) (desc : BindingDesc), bindingsIn[i]? = some desc →
        (makeDescriptorSetLayout bindingsIn).pBindings[i]? =
          some { binding := i
                 descriptorType := desc.descriptorType
                 descriptorCount := desc.descriptorCount
                 stageFlags := VK_SHADER_STAGE_ALL
                 pImmutableSamplers := none } := by
  refine ⟨?_, ?_, ?_⟩
  · show wrapU32 bindingsIn.length = bindingsIn.length
    unfold wrapU32
    omega
  · exact expandBindings_length bindingsIn 0
  · intro i desc h
    have hi : i < bindingsIn.length := by
      rcases Nat.lt_or_ge i bindingsIn.length with hlt | hge
      · exact hlt
      · rw [List.getElem?_eq_none hge] at h
        cases h
    have := expandBindings_getElem? bindingsIn 0 i desc h (by omega)
    simpa [makeDescriptorSetLayout, makeDescriptorSetLayoutImpl, makeDescriptorBindingInfo]
      using this

/-- Witness for C8: the call of `main.cc` extended by a second binding. -/
theorem makeDescriptorSetLayout_binding_order_witness :
    (makeDescriptorSetLayout [⟨7, 1⟩, ⟨6, 3⟩]).bindingCount = 2
    ∧ (makeDescriptorSetLayout [⟨7, 1⟩, ⟨6, 3⟩]).pBindings[1]? =
        some { binding := 1, descriptorType := 6, descriptorCount := 3,
               stageFlags := VK_SHADER_STAGE_ALL, pImmutableSamplers := none } := by
  have h := makeDescriptorSetLayout_binding_order [⟨7, 1⟩, ⟨6, 3⟩] (by decide)
  exact ⟨h.1, h.2.2 1 ⟨6, 3⟩ rfl⟩

/-! ## Buffers -/

/-- A failing `vkCreateBuffer` is the one device failure that reaches
`PANIC_AND_EXIT`: neither operation returns. -/
theorem createBuffer_failure_panics (drv : Driver) (size : Nat) (shouldExport : Bool)
    (hfail : ∀ info : VkBufferCreateInfo, (drv.vkCreateBuffer info).1 ≠ VK_SUCCESS) :
    makeStagingBuffer drv size = none ∧ makeDeviceBuffer drv size shouldExport = none := by
  have hb : ∀ usage e, makeBuffer drv size usage e = none := by
    intro usage e
    simp [makeBuffer, hfail]
  simp [makeStagingBuffer, makeDeviceBuffer, hb]

/-- The sizes of a buffer made by `makeDeviceBuffer`: the create info holds the
requested size reduced modulo `2^32`, the returned record the requested size. -/
theorem makeDeviceBuffer_sizes (drv : Driver) (size : Nat) (shouldExport : Bool)
    (b : DeviceBuffer) (h : makeDeviceBuffer drv size shouldExport = some b) :
    b.hdl.info.size = wrapU32 size ∧ b.size = size := by
  unfold makeDeviceBuffer at h
  cases hmb : makeBuffer drv size VK_BUFFER_USAGE_TRANSFER_SRC_BIT shouldExport with
  | none => rw [hmb] at h; cases h
  | some hdl =>
    rw [hmb] at h
    simp only [] at h
    cases hmem : allocateBufferMemory drv hdl VK_MEMORY_PROPERTY_DEVICE_LOCAL_BIT shouldExport with
    | none => rw [hmem] at h; cases h
    | some mem =>
      rw [hmem] at h
      simp only [Option.some.injEq] at h
      subst h
      refine ⟨?_, rfl⟩
      unfold makeBuffer at hmb
      simp only [] at hmb
      split at hmb
      · cases hmb
      · simp only [Option.some.injEq] at hmb
        subst hmb
        rfl

/-- C9 fails on the code: with a driver on which `vkCreateBuffer` succeeds while
`vkAllocateMemory`, `vkBindBufferMemory` and `vkMapMemory` return errors,
`makeStagingBuffer` and `makeDeviceBuffer` do not reach `PANIC_AND_EXIT` but
return a buffer value. -/
theorem buffer_allocation_failure_ignored :
    (outOfMemoryDriver.vkAllocateMemory ⟨16, 0, false⟩).1 ≠ VK_SUCCESS
    ∧ outOfMemoryDriver.vkBindBufferMemory ⟨1, ⟨16, 1, 0, false⟩⟩ ⟨0, ⟨16, 0, false⟩⟩ 0
        ≠ VK_SUCCESS
    ∧ (outOfMemoryDriver.vkMapMemory ⟨0, ⟨16, 0, false⟩⟩ 0 16).1 ≠ VK_SUCCESS
    ∧ makeStagingBuffer outOfMemoryDriver 16 =
        some ⟨⟨1, ⟨16, 1, 0, false⟩⟩, ⟨0, ⟨16, 0, false⟩⟩, 0⟩
    ∧ makeDeviceBuffer outOfMemoryDriver 16 false =
        some ⟨⟨1, ⟨16, 1, 0, false⟩⟩, ⟨0, ⟨16, 0, false⟩⟩, 16⟩ := by
  decide

/-- C10 fails on the code: for the requested size `s = 2^32 + 16` the
`VkBufferCreateInfo` built by `makeBuffer` has `size = 16`, because the parameter
of `makeBuffer` is a `uint32`, while the returned `DeviceBuffer` records
`size = 2^32 + 16`. -/
theorem buffer_size_truncated :
    (makeStagingBuffer healthyDriver 4294967312).map (fun b => b.hdl.info.size) = some 16
    ∧ (makeDeviceBuffer healthyDriver 4294967312 false).map (fun b => b.hdl.info.size)
        = some 16
    ∧ (makeDeviceBuffer healthyDriver 4294967312 false).map (fun b => b.size)
        = some 4294967312
    ∧ (makeDeviceBuffer healthyDriver 16777216 false).map (fun b => (b.hdl.info.size, b.size))
        = some (16777216, 16777216) := by
  decide

/-! ## The block-local scanner -/

theorem wrapU32_idem (a : Nat) : wrapU32 (wrapU32 a) = wrapU32 a := by
  unfold wrapU32; omega

theorem wrapU32_add_wrap_left (a b : Nat) : wrapU32 (wrapU32 a + b) = wrapU32 (a + b) := by
  unfold wrapU32; omega

theorem wrapU32_add_wrap_right (a b : Nat) : wrapU32 (a + wrapU32 b) = wrapU32 (a + b) := by
  unfold wrapU32; omega

theorem inclusiveScanFrom_length (xs : List Nat) :
    ∀ acc : Nat, (inclusiveScanFrom acc xs).length = xs.length := by
  induction xs with
  | nil => intro acc; rfl
  | cons x xs ih => intro acc; simp [inclusiveScanFrom, ih]

theorem inclusiveScanFrom_getElem? (xs : List Nat) :
    ∀ (acc t : Nat), t < xs.length →
      (inclusiveScanFrom acc xs)[t]? = some (wrapU32 (acc + (xs.take (t + 1)).sum)) := by
  induction xs with
  | nil => intro acc t h; simp at h
  | cons x xs ih =>
    intro acc t h
    cases t with
    | zero => simp [inclusiveScanFrom]
    | succ n =>
      have hn : n < xs.length := by simpa using h
      simp only [inclusiveScanFrom, List.getElem?_cons_succ, List.take_succ_cons, List.sum_cons]
      rw [ih (wrapU32 (acc + x)) n hn, wrapU32_add_wrap_left, Nat.add_assoc]

theorem inclusiveScanFrom_getLastD (xs : List Nat) :
    ∀ acc : Nat, (inclusiveScanFrom acc xs).getLastD (wrapU32 acc) = wrapU32 (acc + xs.sum) := by
  induction xs with
  | nil => intro acc; simp [inclusiveScanFrom]
  | cons x xs ih =>
    intro acc
    simp only [inclusiveScanFrom, List.getLastD_cons, List.sum_cons]
    have h := ih (wrapU32 (acc + x))
    rw [wrapU32_idem, wrapU32_add_wrap_left] at h
    rw [h, Nat.add_assoc]

theorem localAggregate_eq (xs : List Nat) : localAggregate xs = wrapU32 xs.sum := by
  have h := inclusiveScanFrom_getLastD xs 0
  simpa [localAggregate, localInclusiveScan, wrapU32] using h

theorem localInclusiveScan_getElem? (xs : List Nat) (t : Nat) (h : t < xs.length) :
    (localInclusiveScan xs)[t]? = some (wrapU32 ((xs.take (t + 1)).sum)) := by
  have := inclusiveScanFrom_getElem? xs 0 t h
  simpa [localInclusiveScan] using this

theorem localExclusiveScan_getElem? (xs : List Nat) (t : Nat) (h : t < xs.length) :
    (localExclusiveScan xs)[t]? = some (wrapU32 ((xs.take t).sum)) := by
  unfold localExclusiveScan
  rw [List.getElem?_take, if_pos h]
  cases t with
  | zero => simp [wrapU32]
  | succ n =>
    rw [List.getElem?_cons_succ]
    exact localInclusiveScan_getElem? xs n (by omega)

theorem localInclusiveScan_length (xs : List Nat) :
    (localInclusiveScan xs).length = xs.length :=
  inclusiveScanFrom_length xs 0

theorem localExclusiveScan_length (xs : List Nat) :
    (localExclusiveScan xs).length = xs.length := by
  simp [localExclusiveScan, localInclusiveScan_length]

theorem partitionElements_length (c : ScanConfig) (input : List Nat) (p : Nat) :
    (partitionElements c input p).length = c.elementsPerPartition := by
  simp [partitionElements]

theorem loadSum_succ (input : List Nat) (n : Nat) :
    loadSum input (n + 1) = loadSum input n + loadElement input n := by
  simp [loadSum, List.range_succ]

theorem shifted_sum_add_loadSum (input : List Nat) (b : Nat) :
    ∀ t : Nat, ((List.range t).map (fun u => loadElement input (b + u))).sum + loadSum input b
      = loadSum input (b + t) := by
  intro t
  induction t with
  | zero => simp
  | succ n ih =>
    rw [List.range_succ, List.map_append, List.sum_append, ← Nat.add_assoc, loadSum_succ, ← ih]
    simp
    omega

theorem take_partitionElements_sum (c : ScanConfig) (input : List Nat) (p t : Nat)
    (ht : t ≤ c.elementsPerPartition) :
    ((partitionElements c input p).take t).sum + loadSum input (p * c.elementsPerPartition)
      = loadSum input (p * c.elementsPerPartition + t) := by
  rw [← shifted_sum_add_loadSum input (p * c.elementsPerPartition) t]
  unfold partitionElements
  rw [← List.map_take, List.take_range, Nat.min_eq_left ht]

theorem loadSum_take (input : List Nat) :
    ∀ n : Nat, wrapU32 (loadSum input n) = wrapU32 ((input.take n).sum) := by
  intro n
  induction n with
  | zero => simp [loadSum]
  | succ n ih =>
    rw [loadSum_succ, List.take_succ, List.sum_append]
    have hG : wrapU32 (loadElement input n) = wrapU32 (input[n]?.toList.sum) := by
      unfold loadElement
      rw [wrapU32_idem, List.getD_eq_getElem?_getD]
      cases input[n]? <;> simp
    unfold wrapU32 at *
    omega

theorem blockAggregateOf_loadSum (c : ScanConfig) (input : List Nat) (p : Nat) :
    wrapU32 (blockAggregateOf c input p + loadSum input (p * c.elementsPerPartition))
      = wrapU32 (loadSum input ((p + 1) * c.elementsPerPartition)) := by
  have h := take_partitionElements_sum c input p c.elementsPerPartition (Nat.le_refl _)
  rw [List.take_of_length_le (by rw [partitionElements_length])] at h
  rw [blockAggregateOf, localAggregate_eq, wrapU32_add_wrap_left, h, Nat.succ_mul]

theorem aggregateSum_succ (c : ScanConfig) (input : List Nat) (lo n : Nat) :
    aggregateSum c input lo (n + 1) = aggregateSum c input lo n + blockAggregateOf c input (lo + n) := by
  simp [aggregateSum, List.range'_concat]

theorem aggregateSum_cons (c : ScanConfig) (input : List Nat) (lo n : Nat) :
    aggregateSum c input lo (n + 1) = blockAggregateOf c input lo + aggregateSum c input (lo + 1) n := by
  simp [aggregateSum, List.range'_succ]

theorem aggregateSum_append (c : ScanConfig) (input : List Nat) (lo m n : Nat) :
    aggregateSum c input lo m + aggregateSum c input (lo + m) n = aggregateSum c input lo (n + m) := by
  unfold aggregateSum
  rw [← List.sum_append, ← List.map_append]
  have := List.range'_append lo m n 1
  simp only [Nat.one_mul] at this
  rw [this]

theorem exclusivePrefixOf_loadSum (c : ScanConfig) (input : List Nat) :
    ∀ p : Nat, exclusivePrefixOf c input p = wrapU32 (loadSum input (p * c.elementsPerPartition)) := by
  intro p
  induction p with
  | zero => simp [exclusivePrefixOf, aggregateSum, loadSum]
  | succ n ih =>
    have h := blockAggregateOf_loadSum c input n
    unfold exclusivePrefixOf at *
    rw [aggregateSum_succ, Nat.zero_add]
    unfold wrapU32 at *
    omega

/-- The aggregate of partition `p` is the sum of the input slice it covers. -/
theorem blockAggregateOf_eq_slice (c : ScanConfig) (input : List Nat) (p : Nat) :
    blockAggregateOf c input p
      = wrapU32 (((input.drop (p * c.elementsPerPartition)).take c.elementsPerPartition).sum) := by
  rw [blockAggregateOf, localAggregate_eq, ← loadSum_take]
  congr 1
  unfold loadSum partitionElements
  congr 1
  apply List.map_congr_left
  intro t _
  simp [loadElement, List.getD_eq_getElem?_getD, List.getElem?_drop]

theorem writeFrom_length (vs : List Nat) :
    ∀ (out : List Nat) (k : Nat), (writeFrom out k vs).length = out.length := by
  induction vs with
  | nil => intro out k; rfl
  | cons v vs ih => intro out k; simp [writeFrom, ih]

theorem writeFrom_getElem?_of_lt (vs : List Nat) :
    ∀ (out : List Nat) (k m : Nat), m < k → (writeFrom out k vs)[m]? = out[m]? := by
  induction vs with
  | nil => intro out k m _; rfl
  | cons v vs ih =>
    intro out k m h
    simp only [writeFrom]
    rw [ih (out.set k v) (k + 1) m (by omega), List.getElem?_set_ne (by omega)]

theorem writeFrom_getElem?_of_ge (vs : List Nat) :
    ∀ (out : List Nat) (k m : Nat), k + vs.length ≤ m → (writeFrom out k vs)[m]? = out[m]? := by
  induction vs with
  | nil => intro out k m _; rfl
  | cons v vs ih =>
    intro out k m h
    simp only [writeFrom]
    simp only [List.length_cons] at h
    rw [ih (out.set k v) (k + 1) m (by omega), List.getElem?_set_ne (by omega)]

theorem writeFrom_getElem?_written (vs : List Nat) :
    ∀ (out : List Nat) (k t : Nat) (v : Nat), vs[t]? = some v → k + t < out.length →
      (writeFrom out k vs)[k + t]? = some v := by
  induction vs with
  | nil => intro out k t v h; simp at h
  | cons w vs ih =>
    intro out k t v h hlt
    simp only [writeFrom]
    cases t with
    | zero =>
      simp at h
      rw [writeFrom_getElem?_of_lt vs _ (k + 1) (k + 0) (by omega)]
      have hk : k < out.length := by omega
      simp [h, hk]
    | succ n =>
      simp at h
      have := ih (out.set k w) (k + 1) n v h (by simp; omega)
      rw [show k + (n + 1) = k + 1 + n by omega]
      exact this

/-! ## Look-back on a fixed table -/

theorem tableAggregateSum_succ (table : List ProcessorDescriptor) (m : Nat)
    (d : ProcessorDescriptor) (h : table[m]? = some d) :
    tableAggregateSum table (m + 1) = tableAggregateSum table m + d.blockAggregate := by
  simp [tableAggregateSum, List.take_succ, h]

theorem lookBackStep_neg (table : List ProcessorDescriptor) (j : Int) (r : Nat) (hj : j < 0) :
    lookBackStep table j r = LookBackOutcome.exit r := by
  simp [lookBackStep, hj]

theorem lookBackStep_published (table : List ProcessorDescriptor) (m r : Nat)
    (d : ProcessorDescriptor) (h : table[m]? = some d)
    (hs : d.status = STATUS_PREFIX_AVAILABLE) :
    lookBackStep table (m : Int) r
      = LookBackOutcome.exit (wrapU32 (r + d.blockInclusivePrefix)) := by
  have hj : ¬ ((m : Int) < 0) := by omega
  simp [lookBackStep, hj, h, hs]

theorem lookBackStep_aggregate (table : List ProcessorDescriptor) (m r : Nat)
    (d : ProcessorDescriptor) (h : table[m]? = some d)
    (hs : d.status = STATUS_AGGREGATE_AVAILABLE) :
    lookBackStep table (m : Int) r
      = LookBackOutcome.moveBack ((m : Int) - 1) (wrapU32 (r + d.blockAggregate)) := by
  have hj : ¬ ((m : Int) < 0) := by omega
  have hne : ¬ (STATUS_AGGREGATE_AVAILABLE = STATUS_PREFIX_AVAILABLE) := by decide
  simp [lookBackStep, hj, h, hs, hne]

theorem lookBackWalk_correct (table : List ProcessorDescriptor) (i : Nat)
    (hi : i ≤ table.length)
    (havail : ∀ (j : Nat) (d : ProcessorDescriptor), j < i → table[j]? = some d →
      d.status = STATUS_AGGREGATE_AVAILABLE ∨ d.status = STATUS_PREFIX_AVAILABLE)
    (hpre : ∀ (j : Nat) (d : ProcessorDescriptor), j < i → table[j]? = some d →
      d.status = STATUS_PREFIX_AVAILABLE →
      d.blockInclusivePrefix = wrapU32 (tableAggregateSum table (j + 1))) :
    ∀ (m fuel r reads : Nat), m ≤ i → m ≤ fuel → wrapU32 r = r →
      ∃ reads1 : Nat, reads1 ≤ reads + m ∧
        lookBackWalk table fuel ((m : Int) - 1) r reads
          = some (wrapU32 (r + tableAggregateSum table m), reads1) := by
  intro m
  induction m with
  | zero =>
    intro fuel r reads _ _ hr
    refine ⟨reads, by omega, ?_⟩
    have hcast : ((0 : Nat) : Int) - 1 = -1 := by omega
    have hstep : lookBackStep table (-1) r = LookBackOutcome.exit r :=
      lookBackStep_neg table (-1) r (by omega)
    have hS : tableAggregateSum table 0 = 0 := by simp [tableAggregateSum]
    rw [hcast, hS, Nat.add_zero, hr]
    cases fuel <;> simp [lookBackWalk, hstep]
  | succ n ih =>
    intro fuel r reads hm hfuel hr
    have hcast : (((n + 1 : Nat) : Int) - 1) = (n : Int) := by omega
    rw [hcast]
    have hnlen : n < table.length := by omega
    obtain ⟨d, hd⟩ : ∃ d, table[n]? = some d := ⟨table[n], by simp [hnlen]⟩
    have hnn : ¬ ((n : Int) < 0) := by omega
    rw [tableAggregateSum_succ table n d hd]
    by_cases hs : d.status = STATUS_PREFIX_AVAILABLE
    · refine ⟨reads + 1, by omega, ?_⟩
      have hp := hpre n d (by omega) hd hs
      rw [tableAggregateSum_succ table n d hd] at hp
      have hstep := lookBackStep_published table n r d hd hs
      have hval : wrapU32 (r + d.blockInclusivePrefix)
          = wrapU32 (r + (tableAggregateSum table n + d.blockAggregate)) := by
        rw [hp, wrapU32_add_wrap_right]
      cases fuel <;> simp [lookBackWalk, hstep, hnn, hval]
    · have ha : d.status = STATUS_AGGREGATE_AVAILABLE := by
        rcases havail n d (by omega) hd with h | h
        · exact h
        · exact absurd h hs
      have hstep := lookBackStep_aggregate table n r d hd ha
      cases fuel with
      | zero => omega
      | succ f =>
        obtain ⟨reads1, hle, hwalk⟩ :=
          ih f (wrapU32 (r + d.blockAggregate)) (reads + 1) (by omega) (by omega)
            (wrapU32_idem _)
        refine ⟨reads1, by omega, ?_⟩
        simp only [lookBackWalk, hstep]
        rw [hwalk, wrapU32_add_wrap_left]
        congr 3
        omega

/-- C5: on a table in which every slot `j < i` is `AggregateAvailable` or
`PrefixAvailable`, each `PrefixAvailable` slot holding the sum (modulo `2^32`) of
the aggregates of the slots `0..j`, the look-back of partition `i` ends after
reading at most `i` slots and returns the sum (modulo `2^32`) of the aggregates of
all slots `j < i`, whichever of them were `PrefixAvailable`; for partition 0 it
returns 0 on every table and reads no slot. -/
theorem lookBack_exclusive_sum (table : List ProcessorDescriptor) (i : Nat)
    (hi : i ≤ table.length)
    (havail : ∀ (j : Nat) (d : ProcessorDescriptor), j < i → table[j]? = some d →
      d.status = STATUS_AGGREGATE_AVAILABLE ∨ d.status = STATUS_PREFIX_AVAILABLE)
    (hpre : ∀ (j : Nat) (d : ProcessorDescriptor), j < i → table[j]? = some d →
      d.status = STATUS_PREFIX_AVAILABLE →
      d.blockInclusivePrefix = wrapU32 (tableAggregateSum table (j + 1))) :
    (∃ reads : Nat, reads ≤ i ∧
      lookBack table i = some (wrapU32 (tableAggregateSum table i), reads))
    ∧ ∀ other : List ProcessorDescriptor, lookBack other 0 = some (0, 0) := by
  constructor
  · obtain ⟨reads1, hle, hwalk⟩ :=
      lookBackWalk_correct table i hi havail hpre i i 0 0 (Nat.le_refl _) (Nat.le_refl _) rfl
    refine ⟨reads1, by omega, ?_⟩
    simpa [lookBack] using hwalk
  · intro other
    simp [lookBack, lookBackWalk, lookBackStep]

/-- Witness for C5: the table of the specification's scenario extended by a third
partition; slot 0 is `PrefixAvailable` (aggregate 3), slot 1 `AggregateAvailable`
(aggregate 7), and the look-back of partition 2 returns 10. -/
theorem lookBack_exclusive_sum_witness :
    ∃ reads : Nat, reads ≤ 2 ∧
      lookBack [⟨2, 3, 3, 0⟩, ⟨1, 7, 0, 0⟩, ⟨0, 0, 0, 0⟩] 2 = some (10, reads) := by
  have h := (lookBack_exclusive_sum [⟨2, 3, 3, 0⟩, ⟨1, 7, 0, 0⟩, ⟨0, 0, 0, 0⟩] 2 (by decide)
    (by
      intro j d hj hd
      have hj2 : j = 0 ∨ j = 1 := by omega
      rcases hj2 with h | h <;> subst h <;> simp at hd <;> subst hd <;> decide)
    (by
      intro j d hj hd hs
      have hj2 : j = 0 ∨ j = 1 := by omega
      rcases hj2 with h | h <;> subst h <;> simp at hd <;> subst hd
      · decide
      · exact absurd hs (by decide))).1
  simpa [tableAggregateSum, wrapU32] using h

/-! ## The invariant of the descriptor protocol -/

theorem lookBackStep_moveBack_inv (table : List ProcessorDescriptor) (j j1 : Int) (r r1 : Nat)
    (h : lookBackStep table j r = LookBackOutcome.moveBack j1 r1) :
    0 ≤ j ∧ ∃ dj : ProcessorDescriptor, table[j.toNat]? = some dj
      ∧ dj.status = STATUS_AGGREGATE_AVAILABLE ∧ j1 = j - 1
      ∧ r1 = wrapU32 (r + dj.blockAggregate) := by
  unfold lookBackStep at h
  split at h
  · cases h
  · rename_i hj
    split at h
    · cases h
    · rename_i dj hdj
      split at h
      · cases h
      · split at h
        · rename_i hs
          injection h with h1 h2
          exact ⟨by omega, dj, hdj, hs, h1.symm, h2.symm⟩
        · cases h

theorem lookBackStep_exit_inv (table : List ProcessorDescriptor) (j : Int) (r r1 : Nat)
    (h : lookBackStep table j r = LookBackOutcome.exit r1) :
    (j < 0 ∧ r1 = r) ∨ (0 ≤ j ∧ ∃ dj : ProcessorDescriptor, table[j.toNat]? = some dj
      ∧ dj.status = STATUS_PREFIX_AVAILABLE
      ∧ r1 = wrapU32 (r + dj.blockInclusivePrefix)) := by
  unfold lookBackStep at h
  split at h
  · rename_i hj
    injection h with h1
    exact Or.inl ⟨hj, h1.symm⟩
  · rename_i hj
    split at h
    · cases h
    · rename_i dj hdj
      split at h
      · rename_i hs
        injection h with h1
        exact Or.inr ⟨by omega, dj, hdj, hs, h1.symm⟩
      · split at h
        · cases h
        · cases h

theorem PhaseOk_frame (c : ScanConfig) (input : List Nat) (s s1 : ScanState) (i : Nat)
    (d : ProcessorDescriptor) (ph : Phase)
    (hframe : OutputsWritten c input s i → OutputsWritten c input s1 i)
    (h : PhaseOk c input s i d ph) : PhaseOk c input s1 i d ph := by
  cases ph with
  | done r => exact ⟨h.1, h.2.1, hframe h.2.2⟩
  | _ => exact h

theorem Inv.phase_exists {c : ScanConfig} {input : List Nat} {s : ScanState}
    (h : Inv c input s) (i : Nat) (d : ProcessorDescriptor) (hd : s.table[i]? = some d) :
    ∃ ph : Phase, s.phase[i]? = some ph := by
  have hi : i < s.table.length := by
    rcases Nat.lt_or_ge i s.table.length with hlt | hge
    · exact hlt
    · rw [List.getElem?_eq_none hge] at hd
      cases hd
  have hi2 : i < s.phase.length := by rw [h.phase_length, ← h.table_length]; exact hi
  exact ⟨s.phase[i], by simp [hi2]⟩

/-- A slot seen as `AggregateAvailable` holds its partition's aggregate; a slot
seen as `PrefixAvailable` holds the aggregate and the inclusive prefix. -/
theorem Inv.slot_facts {c : ScanConfig} {input : List Nat} {s : ScanState}
    (h : Inv c input s) (j : Nat) (dj : ProcessorDescriptor) (hd : s.table[j]? = some dj) :
    (dj.status = STATUS_AGGREGATE_AVAILABLE → dj.blockAggregate = blockAggregateOf c input j)
    ∧ (dj.status = STATUS_PREFIX_AVAILABLE → PrefixVisible c input j dj) := by
  obtain ⟨ph, hph⟩ := h.phase_exists j dj hd
  have hok := h.phase_ok j dj ph hd hph
  have h01 : ¬ (STATUS_INVALID = STATUS_AGGREGATE_AVAILABLE) := by decide
  have h02 : ¬ (STATUS_INVALID = STATUS_PREFIX_AVAILABLE) := by decide
  have h12 : ¬ (STATUS_AGGREGATE_AVAILABLE = STATUS_PREFIX_AVAILABLE) := by decide
  have hvis : AggregateVisible c input j dj →
      (dj.status = STATUS_AGGREGATE_AVAILABLE → dj.blockAggregate = blockAggregateOf c input j)
      ∧ (dj.status = STATUS_PREFIX_AVAILABLE → PrefixVisible c input j dj) := by
    intro hv
    refine ⟨fun _ => hv.1, fun hs => ?_⟩
    rcases hv.2 with h1 | ⟨_, _, h1⟩
    · rw [h1] at hs; exact absurd hs h12
    · rw [h1] at hs; exact absurd hs h02
  have hpub : PrefixVisible c input j dj →
      (dj.status = STATUS_AGGREGATE_AVAILABLE → dj.blockAggregate = blockAggregateOf c input j)
      ∧ (dj.status = STATUS_PREFIX_AVAILABLE → PrefixVisible c input j dj) :=
    fun hv => ⟨fun _ => hv.2.1, fun _ => hv⟩
  cases ph with
  | start =>
    have h0 : dj.status = STATUS_INVALID := hok
    exact ⟨fun hs => by rw [h0] at hs; exact absurd hs h01,
      fun hs => by rw [h0] at hs; exact absurd hs h02⟩
  | aggregateWritten =>
    have h0 : dj.status = STATUS_INVALID := hok.1
    exact ⟨fun hs => by rw [h0] at hs; exact absurd hs h01,
      fun hs => by rw [h0] at hs; exact absurd hs h02⟩
  | lookBack j1 r => exact hvis hok.1
  | walked r => exact hvis hok.1
  | inclusiveWritten r => exact hvis hok.1
  | inclusivePublished r => exact hpub hok.1
  | done r => exact hpub hok.1

/-- Replacing slot `i` and the program position of partition `i` keeps the
invariant when the new slot agrees with the new position and the outputs of
the other partitions stay written. -/
theorem Inv.update {c : ScanConfig} {input : List Nat} {s s1 : ScanState}
    (h : Inv c input s) (i : Nat) (d1 : ProcessorDescriptor) (ph1 : Phase)
    (htl : s1.table.length = s.table.length) (hpl : s1.phase.length = s.phase.length)
    (hel : s1.outExclusive.length = s.outExclusive.length)
    (hil : s1.outInclusive.length = s.outInclusive.length)
    (htable : ∀ k : Nat, k ≠ i → s1.table[k]? = s.table[k]?)
    (hphase : ∀ k : Nat, k ≠ i → s1.phase[k]? = s.phase[k]?)
    (hti : s1.table[i]? = some d1) (hpi : s1.phase[i]? = some ph1)
    (hframe : ∀ k : Nat, k ≠ i → OutputsWritten c input s k → OutputsWritten c input s1 k)
    (hok : PhaseOk c input s1 i d1 ph1) : Inv c input s1 where
  table_length := by rw [htl, h.table_length]
  phase_length := by rw [hpl, h.phase_length]
  outExclusive_length := by rw [hel, h.outExclusive_length]
  outInclusive_length := by rw [hil, h.outInclusive_length]
  phase_ok := by
    intro k d ph hd hph
    by_cases hk : k = i
    · subst hk
      rw [hti] at hd
      rw [hpi] at hph
      cases hd
      cases hph
      exact hok
    · rw [htable k hk] at hd
      rw [hphase k hk] at hph
      exact PhaseOk_frame c input s s1 k d ph (hframe k hk) (h.phase_ok k d ph hd hph)

theorem lt_length_of_getElem?_eq_some {α : Type} (l : List α) (i : Nat) (a : α)
    (h : l[i]? = some a) : i < l.length := by
  rcases Nat.lt_or_ge i l.length with hlt | hge
  · exact hlt
  · rw [List.getElem?_eq_none hge] at h
    cases h

theorem outputsWritten_congr (c : ScanConfig) (input : List Nat) (s s1 : ScanState) (k : Nat)
    (he : s1.outExclusive = s.outExclusive) (hi : s1.outInclusive = s.outInclusive)
    (h : OutputsWritten c input s k) : OutputsWritten c input s1 k := by
  intro m hm hmk
  rw [he, hi]
  exact h m hm hmk

/-- Writing slot `i` and moving partition `i` on, the outputs untouched. -/
theorem Inv.set_slot {c : ScanConfig} {input : List Nat} {s s1 : ScanState}
    (h : Inv c input s) (i : Nat) (d d1 : ProcessorDescriptor) (ph ph1 : Phase)
    (hd : s.table[i]? = some d) (hph : s.phase[i]? = some ph)
    (ht : s1.table = s.table.set i d1) (hp : s1.phase = s.phase.set i ph1)
    (he : s1.outExclusive = s.outExclusive) (hi : s1.outInclusive = s.outInclusive)
    (hok : PhaseOk c input s1 i d1 ph1) : Inv c input s1 := by
  have hit := lt_length_of_getElem?_eq_some _ _ _ hd
  have hip := lt_length_of_getElem?_eq_some _ _ _ hph
  refine h.update i d1 ph1 (by rw [ht, List.length_set]) (by rw [hp, List.length_set])
    (by rw [he]) (by rw [hi]) ?_ ?_ ?_ ?_ ?_ hok
  · intro k hk
    rw [ht, List.getElem?_set_ne (Ne.symm hk)]
  · intro k hk
    rw [hp, List.getElem?_set_ne (Ne.symm hk)]
  · rw [ht, List.getElem?_set, if_pos rfl, if_pos hit]
  · rw [hp, List.getElem?_set, if_pos rfl, if_pos hip]
  · intro k _ hw
    exact outputsWritten_congr c input s s1 k he hi hw

/-- Moving partition `i` on, the table and the outputs untouched. -/
theorem Inv.set_phase {c : ScanConfig} {input : List Nat} {s s1 : ScanState}
    (h : Inv c input s) (i : Nat) (d : ProcessorDescriptor) (ph ph1 : Phase)
    (hd : s.table[i]? = some d) (hph : s.phase[i]? = some ph)
    (ht : s1.table = s.table) (hp : s1.phase = s.phase.set i ph1)
    (he : s1.outExclusive = s.outExclusive) (hi : s1.outInclusive = s.outInclusive)
    (hok : PhaseOk c input s1 i d ph1) : Inv c input s1 := by
  have hip := lt_length_of_getElem?_eq_some _ _ _ hph
  refine h.update i d ph1 (by rw [ht]) (by rw [hp, List.length_set])
    (by rw [he]) (by rw [hi]) ?_ ?_ ?_ ?_ ?_ hok
  · intro k _
    rw [ht]
  · intro k hk
    rw [hp, List.getElem?_set_ne (Ne.symm hk)]
  · rw [ht, hd]
  · rw [hp, List.getElem?_set, if_pos rfl, if_pos hip]
  · intro k _ hw
    exact outputsWritten_congr c input s s1 k he hi hw

theorem elementsPerPartition_pos_of_slot {c : ScanConfig} {input : List Nat} {s : ScanState}
    (h : Inv c input s) (i : Nat) (d : ProcessorDescriptor) (hd : s.table[i]? = some d) :
    0 < c.elementsPerPartition := by
  have hit := lt_length_of_getElem?_eq_some _ _ _ hd
  rw [h.table_length] at hit
  rcases Nat.eq_zero_or_pos c.elementsPerPartition with h0 | hpos
  · simp [partitionCount, h0] at hit
  · exact hpos

theorem div_eq_bounds (k e i : Nat) (he : 0 < e) (h : k / e = i) :
    i * e ≤ k ∧ k < i * e + e := by
  subst h
  constructor
  · exact Nat.div_mul_le_self k e
  · have := @Nat.lt_div_mul_add k e he
    omega

theorem not_in_block_of_div_ne (k e i : Nat) (h : k / e ≠ i) :
    k < i * e ∨ i * e + e ≤ k := by
  by_contra hcon
  apply h
  apply Nat.div_eq_of_lt_le
  · omega
  · rw [Nat.succ_mul]
    omega

/-- The values partition `i` stores are the prefix sums of the input. -/
theorem outputs_of_partition (c : ScanConfig) (input : List Nat) (i t : Nat)
    (ht : t < c.elementsPerPartition) :
    ((localExclusiveScan (partitionElements c input i)).map
        (fun v => wrapU32 (v + exclusivePrefixOf c input i)))[t]?
      = some (wrapU32 ((input.take (i * c.elementsPerPartition + t)).sum))
    ∧ ((localInclusiveScan (partitionElements c input i)).map
        (fun v => wrapU32 (v + exclusivePrefixOf c input i)))[t]?
      = some (wrapU32 ((input.take (i * c.elementsPerPartition + t + 1)).sum)) := by
  have hlen : t < (partitionElements c input i).length := by
    rw [partitionElements_length]; exact ht
  have h1 := take_partitionElements_sum c input i t (by omega)
  have h2 := take_partitionElements_sum c input i (t + 1) (by omega)
  have h3 := exclusivePrefixOf_loadSum c input i
  have h4 := loadSum_take input (i * c.elementsPerPartition + t)
  have h5 := loadSum_take input (i * c.elementsPerPartition + (t + 1))
  constructor
  · rw [List.getElem?_map, localExclusiveScan_getElem? _ t hlen, Option.map_some']
    congr 1
    rw [h3, ← h4, ← h1]
    unfold wrapU32
    omega
  · rw [List.getElem?_map, localInclusiveScan_getElem? _ t hlen, Option.map_some']
    congr 1
    rw [h3, Nat.add_assoc, ← h5, ← h2]
    unfold wrapU32
    omega

theorem stepPhase_preserves_inv (c : ScanConfig) (input : List Nat) (s : ScanState)
    (h : Inv c input s) (i : Nat) (d : ProcessorDescriptor) (ph : Phase)
    (hd : s.table[i]? = some d) (hph : s.phase[i]? = some ph) :
    Inv c input (stepPhase c input s i d ph) := by
  have hok := h.phase_ok i d ph hd hph
  cases ph with
  | start =>
    have h0 : d.status = STATUS_INVALID := hok
    exact h.set_slot i d _ _ _ hd hph rfl rfl rfl rfl ⟨h0, rfl⟩
  | aggregateWritten =>
    have h0 : d.status = STATUS_INVALID := hok.1
    have ha : d.blockAggregate = blockAggregateOf c input i := hok.2
    by_cases hz : i = 0 ∧ c.partitionZeroDirect = true
    · have hs : stepPhase c input s i d Phase.aggregateWritten
          = { s with phase := s.phase.set i (Phase.walked 0) } := by
        simp only [stepPhase, if_pos hz]
      rw [hs]
      refine h.set_phase i d _ _ hd hph rfl rfl rfl rfl ⟨⟨ha, Or.inr ⟨hz.1, hz.2, h0⟩⟩, ?_⟩
      rw [hz.1]
      simp [exclusivePrefixOf, aggregateSum, wrapU32]
    · have hs : stepPhase c input s i d Phase.aggregateWritten
          = { s with
              table := s.table.set i { d with status := STATUS_AGGREGATE_AVAILABLE }
              phase := s.phase.set i (Phase.lookBack ((i : Int) - 1) 0) } := by
        simp only [stepPhase, if_neg hz]
      rw [hs]
      refine h.set_slot i d _ _ _ hd hph rfl rfl rfl rfl
        ⟨⟨ha, Or.inl rfl⟩, by omega, by omega, ?_⟩
      have hn : ((i : Int) - 1 + 1).toNat = i := by omega
      rw [hn, Nat.sub_self]
      simp [aggregateSum, wrapU32]
  | lookBack j r =>
    obtain ⟨hvis, hj0, hji, hr⟩ := hok
    cases hout : lookBackStep s.table j r with
    | spin =>
      have hs : stepPhase c input s i d (Phase.lookBack j r) = s := by
        simp only [stepPhase, hout]
      rw [hs]
      exact h
    | moveBack j1 r1 =>
      have hs : stepPhase c input s i d (Phase.lookBack j r)
          = { s with phase := s.phase.set i (Phase.lookBack j1 r1) } := by
        simp only [stepPhase, hout]
      rw [hs]
      obtain ⟨hj, dj, hdj, hst, hj1, hr1⟩ := lookBackStep_moveBack_inv s.table j j1 r r1 hout
      have hagg := (h.slot_facts j.toNat dj hdj).1 hst
      refine h.set_phase i d _ _ hd hph rfl rfl rfl rfl ⟨hvis, by omega, by omega, ?_⟩
      have hn1 : (j1 + 1).toNat = j.toNat := by omega
      have hn2 : (j + 1).toNat = j.toNat + 1 := by omega
      have hn3 : i - j.toNat = (i - (j.toNat + 1)) + 1 := by omega
      rw [hn1, hn3, aggregateSum_cons, hr1, hr, hn2, hagg, wrapU32_add_wrap_left, Nat.add_comm]
    | exit r1 =>
      have hs : stepPhase c input s i d (Phase.lookBack j r)
          = { s with phase := s.phase.set i (Phase.walked r1) } := by
        simp only [stepPhase, hout]
      rw [hs]
      refine h.set_phase i d _ _ hd hph rfl rfl rfl rfl ⟨hvis, ?_⟩
      rcases lookBackStep_exit_inv s.table j r r1 hout with ⟨hneg, hr1⟩ | ⟨hj, dj, hdj, hst, hr1⟩
      · have hn : (j + 1).toNat = 0 := by omega
        rw [hr1, hr, hn, Nat.sub_zero]
        rfl
      · have hpub := (h.slot_facts j.toNat dj hdj).2 hst
        have hn2 : (j + 1).toNat = j.toNat + 1 := by omega
        have happ := aggregateSum_append c input 0 (j.toNat + 1) (i - (j.toNat + 1))
        have hi : i - (j.toNat + 1) + (j.toNat + 1) = i := by omega
        rw [hi, Nat.zero_add] at happ
        rw [hr1, hr, hn2, hpub.2.2]
        unfold exclusivePrefixOf inclusivePrefixOf
        rw [← happ]
        unfold wrapU32
        omega
  | walked r =>
    obtain ⟨hvis, hr⟩ := hok
    refine h.set_slot i d _ _ _ hd hph rfl rfl rfl rfl ⟨hvis, hr, ?_⟩
    show wrapU32 (r + blockAggregateOf c input i) = inclusivePrefixOf c input i
    rw [hr]
    unfold exclusivePrefixOf inclusivePrefixOf
    rw [aggregateSum_succ, Nat.zero_add, wrapU32_add_wrap_left]
  | inclusiveWritten r =>
    obtain ⟨hvis, hr, hp⟩ := hok
    exact h.set_slot i d _ _ _ hd hph rfl rfl rfl rfl ⟨⟨rfl, hvis.1, hp⟩, hr⟩
  | inclusivePublished r =>
    obtain ⟨hvis, hr⟩ := hok
    have hE := elementsPerPartition_pos_of_slot h i d hd
    have hip := lt_length_of_getElem?_eq_some _ _ _ hph
    refine h.update i d (Phase.done r) rfl (by simp [stepPhase])
      (by simp [stepPhase, writeFrom_length]) (by simp [stepPhase, writeFrom_length])
      (fun k _ => rfl) ?_ hd ?_ ?_ ?_
    · intro k hk
      show (s.phase.set i (Phase.done r))[k]? = s.phase[k]?
      rw [List.getElem?_set_ne (Ne.symm hk)]
    · show (s.phase.set i (Phase.done r))[i]? = some (Phase.done r)
      rw [List.getElem?_set, if_pos rfl, if_pos hip]
    · intro k hk hw m hm hmk
      have hb := not_in_block_of_div_ne m c.elementsPerPartition i (by rw [hmk]; exact hk)
      obtain ⟨h1, h2⟩ := hw m hm hmk
      simp only [stepPhase]
      rcases hb with hlt | hge
      · rw [writeFrom_getElem?_of_lt _ _ _ _ hlt, writeFrom_getElem?_of_lt _ _ _ _ hlt]
        exact ⟨h1, h2⟩
      · rw [writeFrom_getElem?_of_ge _ _ _ _ (by
            rw [List.length_map, localExclusiveScan_length, partitionElements_length]
            exact hge),
          writeFrom_getElem?_of_ge _ _ _ _ (by
            rw [List.length_map, localInclusiveScan_length, partitionElements_length]
            exact hge)]
        exact ⟨h1, h2⟩
    · refine ⟨hvis, hr, ?_⟩
      intro m hm hmk
      obtain ⟨hlo, hhi⟩ := div_eq_bounds m c.elementsPerPartition i hE hmk
      obtain ⟨t, rfl⟩ : ∃ t, m = i * c.elementsPerPartition + t := ⟨m - i * c.elementsPerPartition, by omega⟩
      have ht : t < c.elementsPerPartition := by omega
      obtain ⟨ho1, ho2⟩ := outputs_of_partition c input i t ht
      simp only [stepPhase]
      rw [hr]
      constructor
      · exact writeFrom_getElem?_written _ _ _ t _ ho1 (by rw [h.outExclusive_length]; exact hm)
      · exact writeFrom_getElem?_written _ _ _ t _ ho2 (by rw [h.outInclusive_length]; exact hm)
  | done r =>
    exact h

/-- Every action of every partition keeps the invariant. -/
theorem step_preserves_inv (c : ScanConfig) (input : List Nat) (s : ScanState)
    (h : Inv c input s) (i : Nat) : Inv c input (step c input s i) := by
  unfold step
  cases hd : s.table[i]? with
  | none => exact h
  | some d =>
    cases hph : s.phase[i]? with
    | none => exact h
    | some ph => exact stepPhase_preserves_inv c input s h i d ph hd hph

theorem initialState_inv (c : ScanConfig) (input : List Nat) :
    Inv c input (initialState c input) where
  table_length := by simp [initialState]
  phase_length := by simp [initialState]
  outExclusive_length := by simp [initialState]
  outInclusive_length := by simp [initialState]
  phase_ok := by
    intro i d ph hd hph
    have hi : i < partitionCount c input.length := by
      have := lt_length_of_getElem?_eq_some _ _ _ hd
      simpa [initialState] using this
    simp only [initialState, List.getElem?_replicate, if_pos hi] at hd hph
    cases hd
    cases hph
    rfl

theorem run_preserves_inv (c : ScanConfig) (input : List Nat) (schedule : List Nat) :
    ∀ s : ScanState, Inv c input s → Inv c input (run c input s schedule) := by
  induction schedule with
  | nil => intro s h; exact h
  | cons i rest ih => intro s h; exact ih _ (step_preserves_inv c input s h i)

theorem run_append (c : ScanConfig) (input : List Nat) (a b : List Nat) :
    ∀ s : ScanState, run c input s (a ++ b) = run c input (run c input s a) b := by
  induction a with
  | nil => intro s; rfl
  | cons i rest ih => intro s; exact ih _

/-- Every reachable state satisfies the invariant. -/
theorem reachable_inv (c : ScanConfig) (input : List Nat) (schedule : List Nat) :
    Inv c input (run c input (initialState c input) schedule) :=
  run_preserves_inv c input schedule _ (initialState_inv c input)

/-! ## Progress of the sequential schedule -/

theorem stepPhase_phase_other (c : ScanConfig) (input : List Nat) (s : ScanState) (k : Nat)
    (d : ProcessorDescriptor) (ph : Phase) (i : Nat) (hik : i ≠ k) :
    (stepPhase c input s k d ph).phase[i]? = s.phase[i]? := by
  cases ph with
  | start => simp only [stepPhase]; rw [List.getElem?_set_ne (Ne.symm hik)]
  | aggregateWritten =>
    simp only [stepPhase]
    split <;> simp only [] <;> rw [List.getElem?_set_ne (Ne.symm hik)]
  | lookBack j r =>
    simp only [stepPhase]
    cases lookBackStep s.table j r with
    | spin => rfl
    | moveBack j1 r1 => simp only []; rw [List.getElem?_set_ne (Ne.symm hik)]
    | exit r1 => simp only []; rw [List.getElem?_set_ne (Ne.symm hik)]
  | walked r => simp only [stepPhase]; rw [List.getElem?_set_ne (Ne.symm hik)]
  | inclusiveWritten r => simp only [stepPhase]; rw [List.getElem?_set_ne (Ne.symm hik)]
  | inclusivePublished r => simp only [stepPhase]; rw [List.getElem?_set_ne (Ne.symm hik)]
  | done r => rfl

/-- An action of partition `k` leaves the program positions of the others. -/
theorem step_phase_other (c : ScanConfig) (input : List Nat) (s : ScanState) (k i : Nat)
    (hik : i ≠ k) : (step c input s k).phase[i]? = s.phase[i]? := by
  unfold step
  cases s.table[k]? with
  | none => rfl
  | some d =>
    cases s.phase[k]? with
    | none => rfl
    | some ph => exact stepPhase_phase_other c input s k d ph i hik

theorem stepPhase_table_other (c : ScanConfig) (input : List Nat) (s : ScanState) (k : Nat)
    (d : ProcessorDescriptor) (ph : Phase) (i : Nat) (hik : i ≠ k) :
    (stepPhase c input s k d ph).table[i]? = s.table[i]? := by
  cases ph with
  | start => simp only [stepPhase]; rw [List.getElem?_set_ne (Ne.symm hik)]
  | aggregateWritten =>
    simp only [stepPhase]
    split
    · rfl
    · simp only []; rw [List.getElem?_set_ne (Ne.symm hik)]
  | lookBack j r =>
    simp only [stepPhase]
    cases lookBackStep s.table j r <;> rfl
  | walked r => simp only [stepPhase]; rw [List.getElem?_set_ne (Ne.symm hik)]
  | inclusiveWritten r => simp only [stepPhase]; rw [List.getElem?_set_ne (Ne.symm hik)]
  | inclusivePublished r => rfl
  | done r => rfl

/-- An action of partition `k` leaves the slots of the other partitions. -/
theorem step_table_other (c : ScanConfig) (input : List Nat) (s : ScanState) (k i : Nat)
    (hik : i ≠ k) : (step c input s k).table[i]? = s.table[i]? := by
  unfold step
  cases s.table[k]? with
  | none => rfl
  | some d =>
    cases s.phase[k]? with
    | none => rfl
    | some ph => exact stepPhase_table_other c input s k d ph i hik

theorem step_eq_stepPhase (c : ScanConfig) (input : List Nat) (s : ScanState) (i : Nat)
    (d : ProcessorDescriptor) (ph : Phase) (hd : s.table[i]? = some d)
    (hph : s.phase[i]? = some ph) : step c input s i = stepPhase c input s i d ph := by
  simp only [step, hd, hph]

/-- When all earlier partitions have finished, every action of partition `i`
brings it closer to the end of its program. -/
theorem step_progress (c : ScanConfig) (input : List Nat) (s : ScanState)
    (h : Inv c input s) (i : Nat)
    (hpred : ∀ j : Nat, j < i → ∃ r : Nat, s.phase[j]? = some (Phase.done r))
    (ph : Phase) (hph : s.phase[i]? = some ph) :
    ∃ ph1 : Phase, (step c input s i).phase[i]? = some ph1
      ∧ ph1.remaining ≤ ph.remaining - 1 := by
  have hip := lt_length_of_getElem?_eq_some _ _ _ hph
  have hit : i < s.table.length := by rw [h.table_length, ← h.phase_length]; exact hip
  obtain ⟨d, hd⟩ : ∃ d, s.table[i]? = some d := ⟨s.table[i], by simp [hit]⟩
  rw [step_eq_stepPhase c input s i d ph hd hph]
  have hset : ∀ ph1 : Phase, (s.phase.set i ph1)[i]? = some ph1 := by
    intro ph1
    rw [List.getElem?_set, if_pos rfl, if_pos hip]
  have hok := h.phase_ok i d ph hd hph
  cases ph with
  | start => exact ⟨_, hset _, by simp [Phase.remaining]⟩
  | aggregateWritten =>
    by_cases hz : i = 0 ∧ c.partitionZeroDirect = true
    · refine ⟨Phase.walked 0, ?_, by simp [Phase.remaining]⟩
      simp only [stepPhase, if_pos hz]
      exact hset _
    · refine ⟨Phase.lookBack ((i : Int) - 1) 0, ?_, by simp [Phase.remaining]⟩
      simp only [stepPhase, if_neg hz]
      exact hset _
  | lookBack j r =>
    obtain ⟨_, hj0, hji, _⟩ := hok
    have hexit : ∃ r1, lookBackStep s.table j r = LookBackOutcome.exit r1 := by
      by_cases hneg : j < 0
      · exact ⟨r, lookBackStep_neg s.table j r hneg⟩
      · have hjn : j.toNat < i := by omega
        obtain ⟨rj, hphj⟩ := hpred j.toNat hjn
        have hjt : j.toNat < s.table.length := by omega
        obtain ⟨dj, hdj⟩ : ∃ dj, s.table[j.toNat]? = some dj := ⟨s.table[j.toNat], by simp [hjt]⟩
        have hokj := h.phase_ok j.toNat dj _ hdj hphj
        have hst : dj.status = STATUS_PREFIX_AVAILABLE := hokj.1.1
        have hcast : ((j.toNat : Nat) : Int) = j := by omega
        have := lookBackStep_published s.table j.toNat r dj hdj hst
        rw [hcast] at this
        exact ⟨_, this⟩
    obtain ⟨r1, hr1⟩ := hexit
    refine ⟨Phase.walked r1, ?_, by simp [Phase.remaining]⟩
    simp only [stepPhase, hr1]
    exact hset _
  | walked r => exact ⟨_, hset _, by simp [Phase.remaining]⟩
  | inclusiveWritten r => exact ⟨_, hset _, by simp [Phase.remaining]⟩
  | inclusivePublished r => exact ⟨_, hset _, by simp [Phase.remaining]⟩
  | done r => exact ⟨Phase.done r, hph, by simp [Phase.remaining]⟩

theorem run_replicate_finishes (c : ScanConfig) (input : List Nat) (i : Nat) :
    ∀ (n : Nat) (s : ScanState) (ph : Phase), Inv c input s →
      (∀ j : Nat, j < i → ∃ r : Nat, s.phase[j]? = some (Phase.done r)) →
      s.phase[i]? = some ph → ph.remaining ≤ n →
      (∃ r : Nat, (run c input s (List.replicate n i)).phase[i]? = some (Phase.done r))
      ∧ ∀ j : Nat, j ≠ i → (run c input s (List.replicate n i)).phase[j]? = s.phase[j]? := by
  intro n
  induction n with
  | zero =>
    intro s ph _ _ hph hrem
    refine ⟨?_, fun j _ => rfl⟩
    cases ph with
    | done r => exact ⟨r, hph⟩
    | _ => simp [Phase.remaining] at hrem
  | succ n ih =>
    intro s ph h hpred hph hrem
    obtain ⟨ph1, hph1, hrem1⟩ := step_progress c input s h i hpred ph hph
    have hpred1 : ∀ j : Nat, j < i →
        ∃ r : Nat, (step c input s i).phase[j]? = some (Phase.done r) := by
      intro j hj
      rw [step_phase_other c input s i j (by omega)]
      exact hpred j hj
    obtain ⟨hdone, hother⟩ :=
      ih (step c input s i) ph1 (step_preserves_inv c input s h i) hpred1 hph1 (by omega)
    refine ⟨hdone, ?_⟩
    intro j hj
    show (run c input (step c input s i) (List.replicate n i)).phase[j]? = s.phase[j]?
    rw [hother j hj, step_phase_other c input s i j hj]

theorem Phase.remaining_le (ph : Phase) : ph.remaining ≤ 6 := by
  cases ph <;> simp [Phase.remaining]

theorem sequentialSchedule_succ (m : Nat) :
    sequentialSchedule (m + 1) = sequentialSchedule m ++ List.replicate 6 m := by
  simp [sequentialSchedule, List.range_succ]

/-- The sequential schedule finishes every partition. -/
theorem sequentialSchedule_finishes (c : ScanConfig) (input : List Nat) :
    ∀ m : Nat, m ≤ partitionCount c input.length → ∀ j : Nat, j < m →
      ∃ r : Nat,
        (run c input (initialState c input) (sequentialSchedule m)).phase[j]?
          = some (Phase.done r) := by
  intro m
  induction m with
  | zero => intro _ j hj; omega
  | succ m ih =>
    intro hm j hj
    have hinv := reachable_inv c input (sequentialSchedule m)
    have hpred := ih (by omega)
    have hlen : m < (run c input (initialState c input) (sequentialSchedule m)).phase.length := by
      rw [hinv.phase_length]; omega
    obtain ⟨ph, hph⟩ : ∃ ph,
        (run c input (initialState c input) (sequentialSchedule m)).phase[m]? = some ph :=
      ⟨_, List.getElem?_eq_getElem hlen⟩
    obtain ⟨hdone, hother⟩ := run_replicate_finishes c input m 6 _ ph hinv hpred hph
      (Phase.remaining_le ph)
    rw [sequentialSchedule_succ, run_append]
    by_cases hjm : j = m
    · subst hjm
      exact hdone
    · rw [hother j hjm]
      exact hpred j (by omega)

/-! ## The scan and the descriptor table -/

theorem partition_lt_partitionCount (c : ScanConfig) (n k : Nat)
    (hE : 0 < c.elementsPerPartition) (hk : k < n) :
    k / c.elementsPerPartition < partitionCount c n := by
  unfold partitionCount
  have h1 : k / c.elementsPerPartition * c.elementsPerPartition ≤ k := Nat.div_mul_le_self _ _
  have h2 : (k / c.elementsPerPartition + 1) * c.elementsPerPartition
      ≤ n + c.elementsPerPartition - 1 := by
    rw [Nat.succ_mul]
    omega
  exact (Nat.le_div_iff_mul_le hE).2 h2

/-- In a reachable state, the outputs of a finished partition are final. -/
theorem outputs_of_done (c : ScanConfig) (input : List Nat) (schedule : List Nat) (k r : Nat)
    (hk : k < input.length)
    (hdone : (run c input (initialState c input) schedule).phase[k / c.elementsPerPartition]?
      = some (Phase.done r)) :
    (run c input (initialState c input) schedule).outExclusive[k]?
        = some (wrapU32 ((input.take k).sum))
    ∧ (run c input (initialState c input) schedule).outInclusive[k]?
        = some (wrapU32 ((input.take (k + 1)).sum)) := by
  have hinv := reachable_inv c input schedule
  have hlt := lt_length_of_getElem?_eq_some _ _ _ hdone
  rw [hinv.phase_length, ← hinv.table_length] at hlt
  have hok := hinv.phase_ok _ _ _ (List.getElem?_eq_getElem hlt) hdone
  exact hok.2.2 k hk rfl

/-- C1: for every input sequence, split into partitions of
`elementsPerPartition > 0` elements, the scan built from the per-partition local
inclusive scans and the look-back exclusive prefix produces, for every `k < N`,
`output[k] = Σ input[0..k-1]` (exclusive scan) and `output[k] = Σ input[0..k]`
(inclusive scan), the sums taken modulo `2^32`; and in every interleaving of the
partitions, the outputs of a partition that has finished have these values. -/
theorem scan_correct (c : ScanConfig) (input : List Nat) (hE : 0 < c.elementsPerPartition) :
    exclusiveScan c input
        = (List.range input.length).map (fun k => wrapU32 ((input.take k).sum))
    ∧ inclusiveScan c input
        = (List.range input.length).map (fun k => wrapU32 ((input.take (k + 1)).sum))
    ∧ ∀ (schedule : List Nat) (k r : Nat), k < input.length →
        (run c input (initialState c input) schedule).phase[k / c.elementsPerPartition]?
          = some (Phase.done r) →
        (run c input (initialState c input) schedule).outExclusive[k]?
            = some (wrapU32 ((input.take k).sum))
        ∧ (run c input (initialState c input) schedule).outInclusive[k]?
            = some (wrapU32 ((input.take (k + 1)).sum)) := by
  have hinv := reachable_inv c input (sequentialSchedule (partitionCount c input.length))
  have hfin : ∀ k : Nat, k < input.length →
      (exclusiveScan c input)[k]? = some (wrapU32 ((input.take k).sum))
      ∧ (inclusiveScan c input)[k]? = some (wrapU32 ((input.take (k + 1)).sum)) := by
    intro k hk
    obtain ⟨r, hr⟩ := sequentialSchedule_finishes c input (partitionCount c input.length)
      (Nat.le_refl _) (k / c.elementsPerPartition) (partition_lt_partitionCount c _ k hE hk)
    exact outputs_of_done c input _ k r hk hr
  refine ⟨?_, ?_, fun schedule k r hk hdone => outputs_of_done c input schedule k r hk hdone⟩
  · apply List.ext_getElem?
    intro k
    rcases Nat.lt_or_ge k input.length with hk | hk
    · rw [(hfin k hk).1, List.getElem?_map, List.getElem?_range hk]
      rfl
    · rw [List.getElem?_eq_none (by
          show (exclusiveScan c input).length ≤ k
          unfold exclusiveScan
          rw [hinv.outExclusive_length]; exact hk),
        List.getElem?_eq_none (by simpa using hk)]
  · apply List.ext_getElem?
    intro k
    rcases Nat.lt_or_ge k input.length with hk | hk
    · rw [(hfin k hk).2, List.getElem?_map, List.getElem?_range hk]
      rfl
    · rw [List.getElem?_eq_none (by
          show (inclusiveScan c input).length ≤ k
          unfold inclusiveScan
          rw [hinv.outInclusive_length]; exact hk),
        List.getElem?_eq_none (by simpa using hk)]

/-- Witness for C1: the scenario of the specification, `elementsPerPartition = 2`
and input `[1, 2, 3, 4]`. -/
theorem scan_correct_witness :
    0 < (ScanConfig.mk 2 1 false).elementsPerPartition
    ∧ exclusiveScan (ScanConfig.mk 2 1 false) [1, 2, 3, 4] = [0, 1, 3, 6]
    ∧ inclusiveScan (ScanConfig.mk 2 1 false) [1, 2, 3, 4] = [1, 3, 6, 10] :=
  ⟨by decide,
    (scan_correct (ScanConfig.mk 2 1 false) [1, 2, 3, 4] (by decide)).1.trans (by decide),
    (scan_correct (ScanConfig.mk 2 1 false) [1, 2, 3, 4] (by decide)).2.1.trans (by decide)⟩

/-- A published slot is not written again: an action of any partition leaves a
`PrefixAvailable` slot as it is. -/
theorem step_keeps_published (c : ScanConfig) (input : List Nat) (s : ScanState)
    (h : Inv c input s) (i : Nat) (d : ProcessorDescriptor) (hd : s.table[i]? = some d)
    (hs : d.status = STATUS_PREFIX_AVAILABLE) (k : Nat) :
    (step c input s k).table[i]? = some d := by
  by_cases hik : i = k
  · subst hik
    obtain ⟨ph, hph⟩ := h.phase_exists i d hd
    have hok := h.phase_ok i d ph hd hph
    rw [step_eq_stepPhase c input s i d ph hd hph]
    have h02 : ¬ (STATUS_INVALID = STATUS_PREFIX_AVAILABLE) := by decide
    have h12 : ¬ (STATUS_AGGREGATE_AVAILABLE = STATUS_PREFIX_AVAILABLE) := by decide
    have hvis : AggregateVisible c input i d → False := by
      intro hv
      rcases hv.2 with h1 | ⟨_, _, h1⟩
      · rw [h1] at hs; exact h12 hs
      · rw [h1] at hs; exact h02 hs
    cases ph with
    | start =>
      have h0 : d.status = STATUS_INVALID := hok
      rw [h0] at hs; exact absurd hs h02
    | aggregateWritten =>
      have h0 : d.status = STATUS_INVALID := hok.1
      rw [h0] at hs; exact absurd hs h02
    | lookBack j r => exact absurd hok.1 hvis
    | walked r => exact absurd hok.1 hvis
    | inclusiveWritten r => exact absurd hok.1 hvis
    | inclusivePublished r => exact hd
    | done r => exact hd
  · rw [step_table_other c input s k i hik]
    exact hd

theorem run_keeps_published (c : ScanConfig) (input : List Nat) (i : Nat)
    (d : ProcessorDescriptor) (hs : d.status = STATUS_PREFIX_AVAILABLE) (later : List Nat) :
    ∀ s : ScanState, Inv c input s → s.table[i]? = some d →
      (run c input s later).table[i]? = some d := by
  induction later with
  | nil => intro s _ hd; exact hd
  | cons k rest ih =>
    intro s h hd
    exact ih _ (step_preserves_inv c input s h k) (step_keeps_published c input s h i d hd hs k)

/-- C4, as stated, fails: with one element per partition and input `[1, 1, 1]`,
partition 2 can publish its prefix 3 while partition 1 has only published its
aggregate; slot 2 is then `PrefixAvailable` (status 2) with
`blockInclusivePrefix = 3`, but slot 1 still has `blockInclusivePrefix = 0`, and
`3 ≠ 0 + 1`. -/
theorem published_prefix_recurrence_fails :
    (run (ScanConfig.mk 1 1 false) [1, 1, 1] (initialState (ScanConfig.mk 1 1 false) [1, 1, 1])
        [0, 0, 0, 0, 0, 1, 1, 2, 2, 2, 2, 2, 2]).table
      = [⟨STATUS_PREFIX_AVAILABLE, 1, 1, 0⟩, ⟨STATUS_AGGREGATE_AVAILABLE, 1, 0, 0⟩,
         ⟨STATUS_PREFIX_AVAILABLE, 1, 3, 0⟩]
    ∧ (3 : Nat) ≠ wrapU32 (0 + 1) := by
  decide

/-- C4 (amended): in every reachable state of the Descriptor Table, a slot `i`
whose status is `PrefixAvailable` holds in `blockInclusivePrefix` the sum modulo
`2^32` of the aggregates of the partitions `0..i`; it equals `blockAggregate[i]`
for `i = 0`, and `blockInclusivePrefix[i-1] + blockAggregate[i]` modulo `2^32`
whenever slot `i - 1` is `PrefixAvailable` as well; and no later step changes the
slot. -/
theorem published_prefix_invariant (c : ScanConfig) (input : List Nat) (schedule : List Nat)
    (i : Nat) (d : ProcessorDescriptor)
    (hd : (run c input (initialState c input) schedule).table[i]? = some d)
    (hs : d.status = STATUS_PREFIX_AVAILABLE) :
    d.blockInclusivePrefix
        = wrapU32 (((List.range (i + 1)).map (blockAggregateOf c input)).sum)
    ∧ d.blockAggregate = blockAggregateOf c input i
    ∧ (i = 0 → d.blockInclusivePrefix = wrapU32 (0 + d.blockAggregate))
    ∧ (∀ dp : ProcessorDescriptor, 0 < i →
        (run c input (initialState c input) schedule).table[i - 1]? = some dp →
        dp.status = STATUS_PREFIX_AVAILABLE →
        d.blockInclusivePrefix = wrapU32 (dp.blockInclusivePrefix + d.blockAggregate))
    ∧ ∀ later : List Nat,
        (run c input (run c input (initialState c input) schedule) later).table[i]?
          = some d := by
  have hinv := reachable_inv c input schedule
  have hpub := (hinv.slot_facts i d hd).2 hs
  obtain ⟨_, hagg, hpre⟩ := hpub
  have hsum : inclusivePrefixOf c input i
      = wrapU32 (((List.range (i + 1)).map (blockAggregateOf c input)).sum) := by
    simp [inclusivePrefixOf, aggregateSum, List.range_eq_range']
  refine ⟨by rw [hpre, hsum], hagg, ?_, ?_, ?_⟩
  · intro hi
    subst hi
    rw [hpre, hagg]
    simp [inclusivePrefixOf, aggregateSum, wrapU32]
  · intro dp hi hdp hsp
    have hpp := ((hinv.slot_facts (i - 1) dp hdp).2 hsp).2.2
    rw [hpre, hpp, hagg]
    unfold inclusivePrefixOf
    have hi1 : i - 1 + 1 = i := by omega
    rw [hi1, aggregateSum_succ, Nat.zero_add, wrapU32_add_wrap_left]
  · intro later
    exact run_keeps_published c input i d hs later _ hinv hd

/-- Witness for C4 (amended): the scenario of the specification after both
partitions have finished; slot 1 holds `blockInclusivePrefix = 10 = 3 + 7`. -/
theorem published_prefix_invariant_witness :
    (run (ScanConfig.mk 2 1 false) [1, 2, 3, 4]
        (initialState (ScanConfig.mk 2 1 false) [1, 2, 3, 4]) (sequentialSchedule 2)).table[1]?
      = some ⟨STATUS_PREFIX_AVAILABLE, 7, 10, 0⟩
    ∧ (10 : Nat) = wrapU32 (((List.range (1 + 1)).map
        (blockAggregateOf (ScanConfig.mk 2 1 false) [1, 2, 3, 4])).sum) :=
  ⟨by decide,
    (published_prefix_invariant (ScanConfig.mk 2 1 false) [1, 2, 3, 4] (sequentialSchedule 2) 1
      ⟨STATUS_PREFIX_AVAILABLE, 7, 10, 0⟩ (by decide) rfl).1⟩

/-- C6: for every partition `p < ceil(N / elementsPerPartition)`, whenever slot
`p` is seen as `AggregateAvailable` or `PrefixAvailable` its `blockAggregate` is
the sum modulo `2^32` of exactly the input elements with indices in
`[p * elementsPerPartition, min((p + 1) * elementsPerPartition, N))`, and the
sequential schedule does publish it; positions at or after `N` contribute 0. -/
theorem blockAggregate_partition_sum (c : ScanConfig) (input : List Nat) (p : Nat)
    (hp : p < partitionCount c input.length) :
    (∀ (schedule : List Nat) (d : ProcessorDescriptor),
        (run c input (initialState c input) schedule).table[p]? = some d →
        d.status = STATUS_AGGREGATE_AVAILABLE ∨ d.status = STATUS_PREFIX_AVAILABLE →
        d.blockAggregate = wrapU32 (((input.drop (p * c.elementsPerPartition)).take
          c.elementsPerPartition).sum))
    ∧ (∃ d : ProcessorDescriptor,
        (run c input (initialState c input)
          (sequentialSchedule (partitionCount c input.length))).table[p]? = some d
        ∧ d.status = STATUS_PREFIX_AVAILABLE
        ∧ d.blockAggregate = wrapU32 (((input.drop (p * c.elementsPerPartition)).take
          c.elementsPerPartition).sum))
    ∧ ((input.drop (p * c.elementsPerPartition)).take c.elementsPerPartition).length
        = min ((p + 1) * c.elementsPerPartition) input.length - p * c.elementsPerPartition
    ∧ ∀ k : Nat, input.length ≤ k → loadElement input k = 0 := by
  refine ⟨?_, ?_, ?_, ?_⟩
  · intro schedule d hd hs
    have hinv := reachable_inv c input schedule
    have hf := hinv.slot_facts p d hd
    rw [← blockAggregateOf_eq_slice]
    rcases hs with h1 | h2
    · exact hf.1 h1
    · exact (hf.2 h2).2.1
  · have hinv := reachable_inv c input (sequentialSchedule (partitionCount c input.length))
    obtain ⟨r, hr⟩ := sequentialSchedule_finishes c input (partitionCount c input.length)
      (Nat.le_refl _) p hp
    have hlt : p < (run c input (initialState c input)
        (sequentialSchedule (partitionCount c input.length))).table.length := by
      rw [hinv.table_length]; exact hp
    have hok := hinv.phase_ok _ _ _ (List.getElem?_eq_getElem hlt) hr
    refine ⟨_, List.getElem?_eq_getElem hlt, hok.1.1, ?_⟩
    rw [← blockAggregateOf_eq_slice]
    exact hok.1.2.1
  · rw [List.length_take, List.length_drop, Nat.succ_mul]
    omega
  · intro k hk
    simp [loadElement, List.getD_eq_getElem?_getD, List.getElem?_eq_none hk, wrapU32]

/-- Witness for C6: three inputs in partitions of two; the short final partition
1 has aggregate 3. -/
theorem blockAggregate_partition_sum_witness :
    1 < partitionCount (ScanConfig.mk 2 1 false) [1, 2, 3].length
    ∧ ∃ d : ProcessorDescriptor,
        (run (ScanConfig.mk 2 1 false) [1, 2, 3] (initialState (ScanConfig.mk 2 1 false) [1, 2, 3])
          (sequentialSchedule (partitionCount (ScanConfig.mk 2 1 false) [1, 2, 3].length))).table[1]?
          = some d
        ∧ d.status = STATUS_PREFIX_AVAILABLE
        ∧ d.blockAggregate = 3 := by
  refine ⟨by decide, ?_⟩
  obtain ⟨d, h1, h2, h3⟩ :=
    (blockAggregate_partition_sum (ScanConfig.mk 2 1 false) [1, 2, 3] 1 (by decide)).2.1
  exact ⟨d, h1, h2, h3.trans (by decide)⟩

/-! ## Partition count over the whole `int` range -/

/-- C15, as stated, fails: for `N = INT_MAX` the sum `N + 2048` leaves the range of
`int` and `divideRoundUp N 2048` is negative, while `ceil(N / 2048) = 1048576`. -/
theorem divideRoundUp_int_max_negative :
    (0 : Int) ≤ 2147483647 ∧ (2147483647 : Int) ≤ INT_MAX
    ∧ divideRoundUp 2147483647 2048 = -1048575
    ∧ divideRoundUp 2147483647 2048 < 0
    ∧ (2147483647 + 2048 - 1) / 2048 = (1048576 : Int) := by
  decide

/-- C15 (amended): for every `N` with `0 ≤ N ≤ INT_MAX - 2047`,
`divideRoundUp N 2048`, evaluated in 32-bit signed arithmetic as the code does,
equals `ceil(N / 2048)` (the least `q` with `q * 2048 ≥ N`) and is non-negative. -/
theorem divideRoundUp_2048 (N : Int) (hN : 0 ≤ N) (hmax : N ≤ INT_MAX - 2047) :
    divideRoundUp N 2048 = (N + 2047) / 2048
    ∧ 0 ≤ divideRoundUp N 2048
    ∧ N ≤ divideRoundUp N 2048 * 2048
    ∧ (∀ q : Int, N ≤ q * 2048 → divideRoundUp N 2048 ≤ q) := by
  have hov : N + 2048 - 1 ≤ INT_MAX := by omega
  have heq := divideRoundUp_eq_ediv N 2048 hN (by decide) hov
  have h1 : divideRoundUp N 2048 = (N + 2047) / 2048 := by
    rw [heq]
    congr 1
    omega
  rw [h1]
  refine ⟨rfl, by omega, by omega, ?_⟩
  intro q hq
  omega

/-- Witness for C15 (amended) at the largest admissible length,
`N = INT_MAX - 2047`. -/
theorem divideRoundUp_2048_witness :
    (0 : Int) ≤ 2147481600 ∧ (2147481600 : Int) ≤ INT_MAX - 2047
    ∧ divideRoundUp 2147481600 2048 = (2147481600 + 2047) / 2048
    ∧ 0 ≤ divideRoundUp 2147481600 2048 :=
  ⟨by decide, by decide,
    (divideRoundUp_2048 2147481600 (by decide) (by decide)).1,
    (divideRoundUp_2048 2147481600 (by decide) (by decide)).2.1⟩

/-! ## Partition geometry -/

/-- C16: `elementsPerPartition = NUM_THREADS_PER_BLOCK * NUM_VALUES_PER_THREAD =
128 * 16 = 2048`; `NUM_THREADS_PER_BLOCK` is a positive multiple of `WARP_SIZE`, a
partition splits into exactly `NUM_THREADS_PER_BLOCK / WARP_SIZE = 4` whole
groups, and 4 does not exceed `WARP_SIZE`. -/
theorem partition_geometry :
    NUM_THREADS_PER_BLOCK = 128 ∧ NUM_VALUES_PER_THREAD = 16
    ∧ NUM_THREADS_PER_BLOCK * NUM_VALUES_PER_THREAD = 2048
    ∧ (ScanConfig.mk NUM_THREADS_PER_BLOCK.toNat NUM_VALUES_PER_THREAD.toNat false).elementsPerPartition
        = 2048
    ∧ 0 < NUM_THREADS_PER_BLOCK
    ∧ Int.tmod NUM_THREADS_PER_BLOCK WARP_SIZE = 0
    ∧ Int.tdiv NUM_THREADS_PER_BLOCK WARP_SIZE = 4
    ∧ Int.tdiv NUM_THREADS_PER_BLOCK WARP_SIZE * WARP_SIZE = NUM_THREADS_PER_BLOCK
    ∧ Int.tdiv NUM_THREADS_PER_BLOCK WARP_SIZE ≤ WARP_SIZE := by
  decide

/-! ## Memory types -/

theorem and_two_pow_ne_zero_iff (m i : Nat) : m &&& 2 ^ i ≠ 0 ↔ m.testBit i = true := by
  constructor
  · intro h
    by_contra hb
    apply h
    apply Nat.eq_of_testBit_eq
    intro j
    rw [Nat.testBit_and, Nat.testBit_two_pow, Nat.zero_testBit]
    by_cases hij : i = j
    · subst hij
      simp [hb]
    · simp [hij]
  · intro hb h0
    have h1 : (m &&& 2 ^ i).testBit i = true := by
      rw [Nat.testBit_and, hb, Nat.testBit_two_pow_self]
      rfl
    rw [h0, Nat.zero_testBit] at h1
    cases h1

/-- The test `memoryTypeBits & (1 << i)` of the code reads bit `i` of the
32-bit mask. -/
theorem memoryTypeBits_test (m i : Nat) (hm : m < 4294967296) :
    m &&& wrapU32 (1 <<< i) ≠ 0 ↔ m.testBit i = true := by
  rw [Nat.one_shiftLeft]
  rcases Nat.lt_or_ge i 32 with hi | hi
  · have hlt : 2 ^ i < 4294967296 := by
      have : 2 ^ i < 2 ^ 32 := Nat.pow_lt_pow_right (by decide) hi
      simpa using this
    have hw : wrapU32 (2 ^ i) = 2 ^ i := by
      unfold wrapU32
      exact Nat.mod_eq_of_lt hlt
    rw [hw]
    exact and_two_pow_ne_zero_iff m i
  · have hdvd : 4294967296 ∣ 2 ^ i := by
      have : 2 ^ 32 ∣ 2 ^ i := Nat.pow_dvd_pow 2 hi
      simpa using this
    have hw : wrapU32 (2 ^ i) = 0 := by
      unfold wrapU32
      exact Nat.mod_eq_zero_of_dvd hdvd
    have hbit : m.testBit i = false := by
      apply Nat.testBit_lt_two_pow
      have : 2 ^ 32 ≤ 2 ^ i := Nat.pow_le_pow_right (by decide) hi
      omega
    rw [hw, hbit]
    simp

theorem findMemoryTypeFrom_eq_some (properties : Nat) (req : VkMemoryRequirements)
    (types : List VkMemoryType) :
    ∀ i k : Nat, findMemoryTypeFrom properties req i types = some k ↔
      ∃ (n : Nat) (t : VkMemoryType), k = i + n ∧ types[n]? = some t
        ∧ (req.memoryTypeBits &&& wrapU32 (1 <<< (i + n)) ≠ 0
            ∧ t.propertyFlags &&& properties = properties)
        ∧ ∀ (m : Nat) (u : VkMemoryType), m < n → types[m]? = some u →
            ¬ (req.memoryTypeBits &&& wrapU32 (1 <<< (i + m)) ≠ 0
                ∧ u.propertyFlags &&& properties = properties) := by
  induction types with
  | nil =>
    intro i k
    simp [findMemoryTypeFrom]
  | cons t rest ih =>
    intro i k
    unfold findMemoryTypeFrom
    by_cases hc : req.memoryTypeBits &&& wrapU32 (1 <<< i) ≠ 0
        ∧ t.propertyFlags &&& properties = properties
    · rw [if_pos hc]
      constructor
      · intro h
        injection h with h
        subst h
        exact ⟨0, t, rfl, List.getElem?_cons_zero, hc, fun m u hm => by omega⟩
      · rintro ⟨n, u, hk, hu, hcu, hmin⟩
        cases n with
        | zero => rw [hk]; rfl
        | succ n => exact absurd hc (hmin 0 t (by omega) List.getElem?_cons_zero)
    · rw [if_neg hc, ih (i + 1) k]
      constructor
      · rintro ⟨n, u, hk, hu, hcu, hmin⟩
        refine ⟨n + 1, u, by omega, by simpa using hu, ?_, ?_⟩
        · rw [show i + (n + 1) = i + 1 + n by omega]
          exact hcu
        · intro m v hm hv
          cases m with
          | zero =>
            simp at hv
            subst hv
            exact hc
          | succ m =>
            rw [show i + (m + 1) = i + 1 + m by omega]
            exact hmin m v (by omega) (by simpa using hv)
      · rintro ⟨n, u, hk, hu, hcu, hmin⟩
        cases n with
        | zero =>
          simp at hu
          subst hu
          exact absurd hcu hc
        | succ n =>
          refine ⟨n, u, by omega, by simpa using hu, ?_, ?_⟩
          · rw [show i + 1 + n = i + (n + 1) by omega]
            exact hcu
          · intro m v hm hv
            rw [show i + 1 + m = i + (m + 1) by omega]
            exact hmin (m + 1) v (by omega) (by simpa using hv)

theorem findMemoryTypeFrom_eq_none (properties : Nat) (req : VkMemoryRequirements)
    (types : List VkMemoryType) :
    ∀ i : Nat, findMemoryTypeFrom properties req i types = none ↔
      ∀ (n : Nat) (t : VkMemoryType), types[n]? = some t →
        ¬ (req.memoryTypeBits &&& wrapU32 (1 <<< (i + n)) ≠ 0
            ∧ t.propertyFlags &&& properties = properties) := by
  induction types with
  | nil =>
    intro i
    simp [findMemoryTypeFrom]
  | cons t rest ih =>
    intro i
    unfold findMemoryTypeFrom
    by_cases hc : req.memoryTypeBits &&& wrapU32 (1 <<< i) ≠ 0
        ∧ t.propertyFlags &&& properties = properties
    · rw [if_pos hc]
      constructor
      · intro h; cases h
      · intro h
        exact absurd hc (h 0 t List.getElem?_cons_zero)
    · rw [if_neg hc, ih (i + 1)]
      constructor
      · intro h n u hu
        cases n with
        | zero =>
          simp at hu
          subst hu
          exact hc
        | succ n =>
          rw [show i + (n + 1) = i + 1 + n by omega]
          exact h n u (by simpa using hu)
      · intro h n u hu
        rw [show i + 1 + n = i + (n + 1) by omega]
        exact h (n + 1) u (by simpa using hu)

/-- The result of `findMemoryType`: the least suitable index, or a panic when
there is none. -/
theorem findMemoryType_spec (drv : Driver) (properties : Nat) (req : VkMemoryRequirements)
    (hbits : req.memoryTypeBits < 4294967296) :
    (∀ k : Nat, findMemoryType drv properties req = some k ↔
      (k < drv.memoryTypes.length ∧ MemoryTypeSuitable drv.memoryTypes properties req k
        ∧ ∀ j : Nat, j < k → ¬ MemoryTypeSuitable drv.memoryTypes properties req j))
    ∧ (findMemoryType drv properties req = none ↔
        ∀ j : Nat, j < drv.memoryTypes.length →
          ¬ MemoryTypeSuitable drv.memoryTypes properties req j) := by
  have hsuit : ∀ (n : Nat) (t : VkMemoryType), drv.memoryTypes[n]? = some t →
      ((req.memoryTypeBits &&& wrapU32 (1 <<< (0 + n)) ≠ 0
          ∧ t.propertyFlags &&& properties = properties)
        ↔ MemoryTypeSuitable drv.memoryTypes properties req n) := by
    intro n t ht
    rw [Nat.zero_add, memoryTypeBits_test _ n hbits]
    unfold MemoryTypeSuitable
    constructor
    · rintro ⟨h1, h2⟩
      exact ⟨h1, t, ht, h2⟩
    · rintro ⟨h1, u, hu, h2⟩
      rw [ht] at hu
      cases hu
      exact ⟨h1, h2⟩
  constructor
  · intro k
    unfold findMemoryType
    rw [findMemoryTypeFrom_eq_some]
    constructor
    · rintro ⟨n, t, hk, ht, hc, hmin⟩
      rw [Nat.zero_add] at hk
      subst hk
      refine ⟨lt_length_of_getElem?_eq_some _ _ _ ht, (hsuit k t ht).1 hc, ?_⟩
      intro j hj hs
      obtain ⟨_, u, hu, _⟩ := hs
      exact hmin j u hj hu ((hsuit j u hu).2 ⟨‹_›, u, hu, ‹_›⟩)
    · rintro ⟨hlen, hs, hmin⟩
      obtain ⟨h1, t, ht, h2⟩ := hs
      refine ⟨k, t, by omega, ht, (hsuit k t ht).2 ⟨h1, t, ht, h2⟩, ?_⟩
      intro m u hm hu hc
      exact hmin m hm ((hsuit m u hu).1 hc)
  · unfold findMemoryType
    rw [findMemoryTypeFrom_eq_none]
    constructor
    · intro h j hj hs
      obtain ⟨h1, u, hu, h2⟩ := hs
      exact h j u hu ((hsuit j u hu).2 ⟨h1, u, hu, h2⟩)
    · intro h n t ht hc
      exact h n (lt_length_of_getElem?_eq_some _ _ _ ht) ((hsuit n t ht).1 hc)

theorem allocateBufferMemory_index (drv : Driver) (buffer : VkBuffer) (properties : Nat)
    (shouldExport : Bool) (mem : VkDeviceMemory)
    (h : allocateBufferMemory drv buffer properties shouldExport = some mem) :
    findMemoryType drv properties (drv.vkGetBufferMemoryRequirements buffer)
      = some mem.info.memoryTypeIndex := by
  unfold allocateBufferMemory at h
  simp only [] at h
  cases hf : findMemoryType drv properties (drv.vkGetBufferMemoryRequirements buffer) with
  | none => rw [hf] at h; cases h
  | some idx =>
    rw [hf] at h
    simp only [Option.some.injEq] at h
    subst h
    rfl

theorem testBit_of_and_eq (flags properties bit : Nat)
    (h : flags &&& properties = properties) (hb : properties.testBit bit = true) :
    flags.testBit bit = true := by
  have h1 : (flags &&& properties).testBit bit = true := by rw [h]; exact hb
  rw [Nat.testBit_and, hb, Bool.and_true] at h1
  exact h1

/-- C11: `findMemoryType` returns the least index `i < memoryTypeCount` whose bit is
set in `memoryTypeBits` and whose `propertyFlags` contain every requested bit, and
panics iff there is no such index; whenever `makeStagingBuffer` returns, the memory
type it chose is allowed for the buffer and is `HOST_VISIBLE` and `HOST_COHERENT`,
and whenever `makeDeviceBuffer` returns, the type it chose is allowed and
`DEVICE_LOCAL`. -/
theorem memory_type_honours_access_pattern (drv : Driver) (properties : Nat)
    (req : VkMemoryRequirements) (hbits : req.memoryTypeBits < 4294967296)
    (hreq : ∀ b : VkBuffer, (drv.vkGetBufferMemoryRequirements b).memoryTypeBits < 4294967296) :
    (∀ k : Nat, findMemoryType drv properties req = some k ↔
      (k < drv.memoryTypes.length ∧ MemoryTypeSuitable drv.memoryTypes properties req k
        ∧ ∀ j : Nat, j < k → ¬ MemoryTypeSuitable drv.memoryTypes properties req j))
    ∧ (findMemoryType drv properties req = none ↔
        ∀ j : Nat, j < drv.memoryTypes.length →
          ¬ MemoryTypeSuitable drv.memoryTypes properties req j)
    ∧ (∀ (size : Nat) (b : StagingBuffer), makeStagingBuffer drv size = some b →
        MemoryTypeSuitable drv.memoryTypes
          (VK_MEMORY_PROPERTY_HOST_VISIBLE_BIT ||| VK_MEMORY_PROPERTY_HOST_COHERENT_BIT)
          (drv.vkGetBufferMemoryRequirements b.hdl) b.mem.info.memoryTypeIndex
        ∧ ∃ t : VkMemoryType, drv.memoryTypes[b.mem.info.memoryTypeIndex]? = some t
            ∧ t.propertyFlags &&& VK_MEMORY_PROPERTY_HOST_VISIBLE_BIT
                = VK_MEMORY_PROPERTY_HOST_VISIBLE_BIT
            ∧ t.propertyFlags &&& VK_MEMORY_PROPERTY_HOST_COHERENT_BIT
                = VK_MEMORY_PROPERTY_HOST_COHERENT_BIT)
    ∧ (∀ (size : Nat) (shouldExport : Bool) (b : DeviceBuffer),
        makeDeviceBuffer drv size shouldExport = some b →
        MemoryTypeSuitable drv.memoryTypes VK_MEMORY_PROPERTY_DEVICE_LOCAL_BIT
          (drv.vkGetBufferMemoryRequirements b.hdl) b.mem.info.memoryTypeIndex
        ∧ ∃ t : VkMemoryType, drv.memoryTypes[b.mem.info.memoryTypeIndex]? = some t
            ∧ t.propertyFlags &&& VK_MEMORY_PROPERTY_DEVICE_LOCAL_BIT
                = VK_MEMORY_PROPERTY_DEVICE_LOCAL_BIT) := by
  have hbit : ∀ (flags bit : Nat), flags.testBit bit = true → flags &&& 2 ^ bit = 2 ^ bit := by
    intro flags bit hb
    apply Nat.eq_of_testBit_eq
    intro j
    rw [Nat.testBit_and, Nat.testBit_two_pow]
    by_cases hj : bit = j
    · subst hj
      simp [hb]
    · simp [hj]
  refine ⟨(findMemoryType_spec drv properties req hbits).1,
    (findMemoryType_spec drv properties req hbits).2, ?_, ?_⟩
  · intro size b hb
    unfold makeStagingBuffer at hb
    cases hmb : makeBuffer drv size VK_BUFFER_USAGE_TRANSFER_SRC_BIT false with
    | none => rw [hmb] at hb; cases hb
    | some hdl =>
      rw [hmb] at hb
      simp only [] at hb
      cases hmem : allocateBufferMemory drv hdl
          (VK_MEMORY_PROPERTY_HOST_VISIBLE_BIT ||| VK_MEMORY_PROPERTY_HOST_COHERENT_BIT) false with
      | none => rw [hmem] at hb; cases hb
      | some mem =>
        rw [hmem] at hb
        simp only [Option.some.injEq] at hb
        subst hb
        have hidx := allocateBufferMemory_index drv hdl _ false mem hmem
        have hs := ((findMemoryType_spec drv _ _ (hreq hdl)).1 _).1 hidx
        refine ⟨hs.2.1, ?_⟩
        obtain ⟨_, t, ht, hflags⟩ := hs.2.1
        refine ⟨t, ht, ?_, ?_⟩
        · exact hbit t.propertyFlags 1 (testBit_of_and_eq _ _ 1 hflags (by decide))
        · exact hbit t.propertyFlags 2 (testBit_of_and_eq _ _ 2 hflags (by decide))
  · intro size shouldExport b hb
    unfold makeDeviceBuffer at hb
    cases hmb : makeBuffer drv size VK_BUFFER_USAGE_TRANSFER_SRC_BIT shouldExport with
    | none => rw [hmb] at hb; cases hb
    | some hdl =>
      rw [hmb] at hb
      simp only [] at hb
      cases hmem : allocateBufferMemory drv hdl VK_MEMORY_PROPERTY_DEVICE_LOCAL_BIT
          shouldExport with
      | none => rw [hmem] at hb; cases hb
      | some mem =>
        rw [hmem] at hb
        simp only [Option.some.injEq] at hb
        subst hb
        have hidx := allocateBufferMemory_index drv hdl _ shouldExport mem hmem
        have hs := ((findMemoryType_spec drv _ _ (hreq hdl)).1 _).1 hidx
        refine ⟨hs.2.1, ?_⟩
        obtain ⟨_, t, ht, hflags⟩ := hs.2.1
        exact ⟨t, ht, hflags⟩

/-- Witness for C11: a device with one memory type carrying all three property
bits; a staging-buffer request for a buffer allowed in type 0 selects index 0. -/
theorem memory_type_honours_access_pattern_witness :
    (VkMemoryRequirements.mk 16 1).memoryTypeBits < 4294967296
    ∧ findMemoryType healthyDriver 6 (VkMemoryRequirements.mk 16 1) = some 0
    ∧ MemoryTypeSuitable healthyDriver.memoryTypes 6 (VkMemoryRequirements.mk 16 1) 0 := by
  have h := memory_type_honours_access_pattern healthyDriver 6 (VkMemoryRequirements.mk 16 1)
    (by decide) (by intro b; show (1 : Nat) < 4294967296; decide)
  have h0 : findMemoryType healthyDriver 6 (VkMemoryRequirements.mk 16 1) = some 0 := by decide
  exact ⟨by decide, h0, ((h.1 0).1 h0).2.1⟩

/-! ## Unique queue families -/

theorem scanFamilyBits_eq (finder count : Nat) (hcount : count < 4294967296) :
    ∀ (fuel bit setBits : Nat) (acc : List Nat), bit ≤ 32 → setBits ≤ count →
      scanFamilyBits finder count fuel bit setBits acc
        = acc ++ (((List.range' bit (min fuel (32 - bit))).filter
            (fun i => decide (finder &&& wrapU32 (1 <<< i) ≠ 0))).take (count - setBits)) := by
  intro fuel
  induction fuel with
  | zero =>
    intro bit setBits acc _ _
    simp [scanFamilyBits]
  | succ fuel ih =>
    intro bit setBits acc hbit hset
    unfold scanFamilyBits
    by_cases hc : bit < 32 ∧ setBits < count
    · rw [if_pos hc]
      have hwb : wrapU32 (bit + 1) = bit + 1 := by unfold wrapU32; omega
      have hws : wrapU32 (setBits + 1) = setBits + 1 := by unfold wrapU32; omega
      have hmin : min (fuel + 1) (32 - bit) = min fuel (32 - (bit + 1)) + 1 := by omega
      have htake : count - setBits = (count - (setBits + 1)) + 1 := by omega
      rw [hmin, List.range'_succ]
      by_cases hp : finder &&& wrapU32 (1 <<< bit) ≠ 0
      · rw [if_pos hp, hwb, hws, ih (bit + 1) (setBits + 1) _ (by omega) (by omega)]
        rw [List.filter_cons_of_pos (by simpa using hp), htake, List.take_succ_cons]
        simp
      · rw [if_neg hp, hwb, ih (bit + 1) setBits _ (by omega) (by omega)]
        rw [List.filter_cons_of_neg (by simpa using hp)]
    · rw [if_neg hc]
      rcases Nat.lt_or_ge bit 32 with hb | hb
      · have hz : count - setBits = 0 := by omega
        rw [hz]
        simp
      · have hz : min (fuel + 1) (32 - bit) = 0 := by omega
        rw [hz]
        simp

/-- For every 32-bit mask the bit-scan loop collects exactly the set bits, in
ascending order, and their number is `popCount`. -/
theorem scanFamilyBits_popCount (finder : Nat) (hf : finder < 4294967296) :
    scanFamilyBits finder (popCount finder) 32 0 0 []
      = (List.range 32).filter (fun i => finder.testBit i) := by
  have hcount : popCount finder < 4294967296 := by
    have h1 : popCount finder ≤ (List.range 32).length := List.length_filter_le _ _
    simp at h1
    omega
  rw [scanFamilyBits_eq finder (popCount finder) hcount 32 0 0 [] (by omega) (by omega)]
  have hpred : (fun i => decide (finder &&& wrapU32 (1 <<< i) ≠ 0))
      = (fun i => finder.testBit i) := by
    funext i
    by_cases hb : finder.testBit i = true
    · rw [hb]
      exact decide_eq_true ((memoryTypeBits_test finder i hf).2 hb)
    · have hb2 : finder.testBit i = false := by simpa using hb
      rw [hb2]
      exact decide_eq_false (fun h => hb ((memoryTypeBits_test finder i hf).1 h))
  rw [hpred]
  have hrange : List.range' 0 (min 32 (32 - 0)) = List.range 32 := by
    rw [List.range_eq_range']
    rfl
  rw [hrange, List.nil_append, Nat.sub_zero]
  exact List.take_of_length_le (Nat.le_refl _)

theorem filter_range_eq_single (g : Nat) :
    ∀ n : Nat, (List.range n).filter (fun i => decide (g = i)) = if g < n then [g] else [] := by
  intro n
  induction n with
  | zero => simp
  | succ n ih =>
    rw [List.range_succ, List.filter_append, ih]
    by_cases hgn : g = n
    · subst hgn
      simp
    · have hf : List.filter (fun i => decide (g = i)) [n] = [] := by simp [hgn]
      rw [hf, List.append_nil]
      have hiff : g < n + 1 ↔ g < n := by omega
      simp only [hiff]

theorem filter_range_eq_pair (g p : Nat) (hgp : g < p) :
    ∀ n : Nat, (List.range n).filter (fun i => decide (g = i) || decide (p = i))
      = (if g < n then [g] else []) ++ (if p < n then [p] else []) := by
  intro n
  induction n with
  | zero => simp
  | succ n ih =>
    rw [List.range_succ, List.filter_append, ih]
    by_cases hgn : g = n
    · subst hgn
      have h1 : ¬ p < g := by omega
      have h2 : ¬ p < g + 1 := by omega
      simp [h1, h2]
    · by_cases hpn : p = n
      · subst hpn
        have h1 : g < p + 1 := by omega
        simp [hgp, h1]
      · have hf : List.filter (fun i => decide (g = i) || decide (p = i)) [n] = [] := by
          simp [hgn, hpn]
        have hiff1 : g < n + 1 ↔ g < n := by omega
        have hiff2 : p < n + 1 ↔ p < n := by omega
        rw [hf, List.append_nil]
        simp only [hiff1, hiff2]

theorem uniqueQueueFamilyFinder_testBit (g p : Nat) (hg : g < 32) (hp : p < 32) :
    uniqueQueueFamilyFinder g p < 4294967296
    ∧ ∀ i : Nat, (uniqueQueueFamilyFinder g p).testBit i = (decide (g = i) || decide (p = i)) := by
  have hpow : ∀ k : Nat, k < 32 → wrapU32 (1 <<< k) = 2 ^ k := by
    intro k hk
    rw [Nat.one_shiftLeft]
    unfold wrapU32
    apply Nat.mod_eq_of_lt
    have : 2 ^ k < 2 ^ 32 := Nat.pow_lt_pow_right (by decide) hk
    simpa using this
  have hbits : ∀ i : Nat,
      (uniqueQueueFamilyFinder g p).testBit i = (decide (g = i) || decide (p = i)) := by
    intro i
    unfold uniqueQueueFamilyFinder
    rw [hpow g hg, hpow p hp, Nat.testBit_or, Nat.testBit_or, Nat.zero_testBit,
      Nat.testBit_two_pow, Nat.testBit_two_pow]
    simp
  refine ⟨?_, hbits⟩
  have h32 : (4294967296 : Nat) = 2 ^ 32 := by decide
  rw [h32]
  apply Nat.lt_pow_two_of_testBit
  intro i hi
  rw [hbits i]
  have h1 : g ≠ i := by omega
  have h2 : p ≠ i := by omega
  simp [h1, h2]

/-- The set bits of the mask of `makeDevice`, in ascending order. -/
theorem uniqueQueueFamilyFinder_bits (g p : Nat) (hg : g < 32) (hp : p < 32) :
    (List.range 32).filter (fun i => (uniqueQueueFamilyFinder g p).testBit i)
      = if g = p then [g] else [min g p, max g p] := by
  have hpred : (fun i => (uniqueQueueFamilyFinder g p).testBit i)
      = (fun i => decide (g = i) || decide (p = i)) := by
    funext i
    exact (uniqueQueueFamilyFinder_testBit g p hg hp).2 i
  rw [hpred]
  by_cases hgp : g = p
  · subst hgp
    rw [if_pos rfl]
    have : (fun i => decide (g = i) || decide (g = i)) = (fun i => decide (g = i)) := by
      funext i
      simp
    rw [this, filter_range_eq_single g 32, if_pos hg]
  · rw [if_neg hgp]
    rcases Nat.lt_or_gt_of_ne hgp with hlt | hgt
    · rw [filter_range_eq_pair g p hlt 32, if_pos hg, if_pos hp,
        Nat.min_eq_left (by omega), Nat.max_eq_right (by omega)]
      rfl
    · have hcomm : (fun i => decide (g = i) || decide (p = i))
          = (fun i => decide (p = i) || decide (g = i)) := by
        funext i
        exact Bool.or_comm _ _
      rw [hcomm, filter_range_eq_pair p g hgt 32, if_pos hg, if_pos hp,
        Nat.min_eq_right (by omega), Nat.max_eq_left (by omega)]
      rfl

/-- C20: in `makeDevice`, for `graphicsFamily = g` and `presentFamily = p` in
`[0, 31]` with `mask = (1 << g) | (1 << p)`, `uniqueQueueFamilyCount =
popCount(mask)` is 1 if `g = p` and 2 otherwise; the bit-scan loop fills
`uniqueFamilyIndices` with exactly that many entries, the distinct values among
`g`, `p` in strictly ascending order; and the queue create infos name these
families, one info each. -/
theorem unique_queue_families (g p : Nat) (hg : g < 32) (hp : p < 32) :
    uniqueQueueFamilyFinder g p = (1 <<< g) ||| (1 <<< p)
    ∧ (selectQueueFamilies g p).uniqueQueueFamilyCount = popCount ((1 <<< g) ||| (1 <<< p))
    ∧ (selectQueueFamilies g p).uniqueQueueFamilyCount = (if g = p then 1 else 2)
    ∧ (selectQueueFamilies g p).uniqueFamilyIndices
        = (if g = p then [g] else [min g p, max g p])
    ∧ (selectQueueFamilies g p).uniqueFamilyIndices.length
        = (selectQueueFamilies g p).uniqueQueueFamilyCount
    ∧ List.Pairwise (fun a b => a < b) (selectQueueFamilies g p).uniqueFamilyIndices
    ∧ (selectQueueFamilies g p).uniqueFamilyInfos.map (fun info => info.queueFamilyIndex)
        = (selectQueueFamilies g p).uniqueFamilyIndices
    ∧ (selectQueueFamilies g p).uniqueFamilyInfos.map (fun info => info.queueCount)
        = List.replicate (selectQueueFamilies g p).uniqueQueueFamilyCount 1 := by
  have hpow : ∀ k : Nat, k < 32 → wrapU32 (1 <<< k) = 1 <<< k := by
    intro k hk
    rw [Nat.one_shiftLeft]
    unfold wrapU32
    apply Nat.mod_eq_of_lt
    have : 2 ^ k < 2 ^ 32 := Nat.pow_lt_pow_right (by decide) hk
    simpa using this
  have hmask : uniqueQueueFamilyFinder g p = (1 <<< g) ||| (1 <<< p) := by
    unfold uniqueQueueFamilyFinder
    rw [hpow g hg, hpow p hp, Nat.zero_or]
  have hlt := (uniqueQueueFamilyFinder_testBit g p hg hp).1
  have hbits := uniqueQueueFamilyFinder_bits g p hg hp
  have hcount : popCount (uniqueQueueFamilyFinder g p) = (if g = p then 1 else 2) := by
    unfold popCount
    rw [hbits]
    by_cases hgp : g = p
    · rw [if_pos hgp, if_pos hgp]; rfl
    · rw [if_neg hgp, if_neg hgp]; rfl
  have hidx : scanFamilyBits (uniqueQueueFamilyFinder g p)
      (popCount (uniqueQueueFamilyFinder g p)) 32 0 0 []
      = (if g = p then [g] else [min g p, max g p]) := by
    rw [scanFamilyBits_popCount _ hlt, hbits]
  refine ⟨hmask, by rw [← hmask]; rfl, hcount, hidx, ?_, ?_, ?_, ?_⟩
  · show (scanFamilyBits _ _ 32 0 0 []).length = popCount _
    rw [hidx, hcount]
    by_cases hgp : g = p
    · rw [if_pos hgp, if_pos hgp]; rfl
    · rw [if_neg hgp, if_neg hgp]; rfl
  · show List.Pairwise _ (scanFamilyBits _ _ 32 0 0 [])
    rw [hidx]
    by_cases hgp : g = p
    · rw [if_pos hgp]
      simp
    · rw [if_neg hgp]
      simp
      omega
  · show ((List.range (popCount _)).map _).map _ = scanFamilyBits _ _ 32 0 0 []
    rw [hidx, hcount]
    by_cases hgp : g = p
    · rw [if_pos hgp, if_pos hgp]
      rfl
    · rw [if_neg hgp, if_neg hgp]
      rfl
  · show ((List.range (popCount _)).map _).map _ = List.replicate (popCount _) 1
    rw [hcount]
    by_cases hgp : g = p
    · rw [if_pos hgp]
      rfl
    · rw [if_neg hgp]
      rfl

/-- Witness for C20: graphics family 2 and present family 0. -/
theorem unique_queue_families_witness :
    (2 : Nat) < 32 ∧ (0 : Nat) < 32
    ∧ (selectQueueFamilies 2 0).uniqueQueueFamilyCount = 2
    ∧ (selectQueueFamilies 2 0).uniqueFamilyIndices = [0, 2] :=
  ⟨by decide, by decide,
    (unique_queue_families 2 0 (by decide) (by decide)).2.2.1,
    (unique_queue_families 2 0 (by decide) (by decide)).2.2.2.1⟩

/-! ## `CappedArray` -/

theorem Heap.read_write_same {T : Type} (h : Heap T) (p i : Nat) (e : T)
    (b : List (Option T)) (hb : h.blocks[p]? = some b) (hi : i < b.length) :
    (h.write p i e).read p i = some e := by
  have hp := lt_length_of_getElem?_eq_some _ _ _ hb
  simp [Heap.write, Heap.read, List.getD_eq_getElem?_getD, hb, hp, hi]

theorem Heap.read_write_ne {T : Type} (h : Heap T) (p i j : Nat) (e : T) (hij : j ≠ i) :
    (h.write p i e).read p j = h.read p j := by
  unfold Heap.write Heap.read
  simp only [List.getD_eq_getElem?_getD]
  rcases Nat.lt_or_ge p h.blocks.length with hp | hp
  · rw [List.getElem?_set, if_pos rfl, if_pos hp]
    simp only [Option.getD_some]
    rw [List.getElem?_set_ne (Ne.symm hij)]
  · have h1 : (h.blocks.set p ((h.blocks[p]?.getD []).set i (some e)))[p]? = none :=
      List.getElem?_eq_none (by rw [List.length_set]; exact hp)
    rw [h1, List.getElem?_eq_none hp]

theorem Heap.write_block {T : Type} (h : Heap T) (p i : Nat) (e : T)
    (b : List (Option T)) (hb : h.blocks[p]? = some b) :
    (h.write p i e).blocks[p]? = some (b.set i (some e)) := by
  have hp := lt_length_of_getElem?_eq_some _ _ _ hb
  simp [Heap.write, List.getD_eq_getElem?_getD, hb, hp]

/-- When its `malloc` succeeds and `sizeof(T) * max` does not wrap, `alloc(max)`
leaves the array with storage for `max` elements. -/
theorem CappedArray.alloc_storageOk {T : Type} (h : Heap T) (a : CappedArray) (max : Nat)
    (hmalloc : h.mallocSucceeds (h.elementSize * max) = true)
    (hsize : 0 < h.elementSize)
    (hwrap : h.elementSize * max < 18446744073709551616) :
    CappedArray.StorageOk (CappedArray.alloc h a max).1 (CappedArray.alloc h a max).2 := by
  have hw : wrapU64 (h.elementSize * max) = h.elementSize * max := by
    unfold wrapU64
    exact Nat.mod_eq_of_lt hwrap
  have hcells : h.elementSize * max / h.elementSize = max := Nat.mul_div_cancel_left max hsize
  refine ⟨List.replicate max none, ?_, by simp [CappedArray.alloc]⟩
  simp [CappedArray.alloc, Heap.malloc, hw, hmalloc, hcells]

theorem CappedArray.push_eq {T : Type} (h : Heap T) (a : CappedArray) (e : T)
    (hlt : a.mSize < a.mCapacity) :
    CappedArray.push h a e
      = some (h.write a.mElements a.mSize e, { a with mSize := a.mSize + 1 }, a.mSize) := by
  simp [CappedArray.push, hlt]

theorem CappedArray.push_storageOk {T : Type} (h : Heap T) (a : CappedArray) (e : T)
    (hok : CappedArray.StorageOk h a) :
    CappedArray.StorageOk (h.write a.mElements a.mSize e) { a with mSize := a.mSize + 1 } := by
  obtain ⟨b, hb, hcap⟩ := hok
  exact ⟨b.set a.mSize (some e), Heap.write_block h _ _ e b hb, by simpa using hcap⟩

theorem CappedArray.pushAll_spec {T : Type} (es : List T) :
    ∀ (h : Heap T) (a : CappedArray), CappedArray.StorageOk h a →
      a.mSize + es.length ≤ a.mCapacity →
      ∃ (h1 : Heap T) (a1 : CappedArray), CappedArray.pushAll h a es = some (h1, a1)
        ∧ a1.mSize = a.mSize + es.length ∧ a1.mElements = a.mElements
        ∧ a1.mCapacity = a.mCapacity ∧ a1.mAllocated = a.mAllocated
        ∧ (∀ i : Nat, i < a.mSize → h1.read a.mElements i = h.read a.mElements i)
        ∧ (∀ i : Nat, i < es.length → h1.read a.mElements (a.mSize + i) = es[i]?) := by
  induction es with
  | nil =>
    intro h a _ _
    exact ⟨h, a, rfl, rfl, rfl, rfl, rfl, fun _ _ => rfl, fun i hi => by simp at hi⟩
  | cons e rest ih =>
    intro h a hok hcap
    simp only [List.length_cons] at hcap
    have hlt : a.mSize < a.mCapacity := by omega
    obtain ⟨h1, a1, hrun, hsize, hptr, hc, hal, hold, hnew⟩ :=
      ih (h.write a.mElements a.mSize e) { a with mSize := a.mSize + 1 }
        (CappedArray.push_storageOk h a e hok) (by simp only []; omega)
    obtain ⟨b, hb, hbl⟩ := hok
    refine ⟨h1, a1, ?_, ?_, hptr, hc, hal, ?_, ?_⟩
    · simp only [CappedArray.pushAll, CappedArray.push_eq h a e hlt]
      exact hrun
    · rw [hsize]
      simp only [List.length_cons]
      omega
    · intro i hi
      have h1i := hold i (by simp only []; omega)
      simp only [] at h1i
      rw [h1i, Heap.read_write_ne h _ _ _ e (by omega)]
    · intro i hi
      cases i with
      | zero =>
        have h1i := hold a.mSize (by simp only []; omega)
        simp only [] at h1i
        rw [Nat.add_zero, h1i, Heap.read_write_same h _ _ e b hb (by omega)]
        exact List.getElem?_cons_zero.symm
      | succ n =>
        have h1n := hnew n (by simp only [List.length_cons] at hi; omega)
        simp only [] at h1n
        rw [show a.mSize + (n + 1) = a.mSize + 1 + n by omega, h1n]
        exact List.getElem?_cons_succ.symm

/-- C17, as stated, fails: `alloc` stores the result of `malloc(sizeof(T) * max)`
unchecked. After `alloc(4)` on a heap whose `malloc` fails, and after
`alloc(2^62)` of 4-byte elements (the byte count wraps to 0), the array has
`size() = 0 < capacity()` and `push(7)` returns 0 and makes `size() = 1`, but
there is no storage behind `mElements` and element 0 is not 7. -/
theorem push_without_storage :
    ((CappedArray.alloc exhaustedHeap ⟨0, 0, 0, false⟩ 4).2 = ⟨NULL, 0, 4, true⟩
      ∧ (CappedArray.push (CappedArray.alloc exhaustedHeap ⟨0, 0, 0, false⟩ 4).1
            (CappedArray.alloc exhaustedHeap ⟨0, 0, 0, false⟩ 4).2 7).map
          (fun r => (r.2.1.size, r.2.2, r.1.read r.2.1.mElements 0))
          = some (1, 0, none)
      ∧ (CappedArray.pushAll (CappedArray.alloc exhaustedHeap ⟨0, 0, 0, false⟩ 4).1
            (CappedArray.alloc exhaustedHeap ⟨0, 0, 0, false⟩ 4).2 [7]).map
          (fun r => (r.2.size, r.1.read r.2.mElements 0))
          = some (1, none))
    ∧ ((CappedArray.alloc emptyHeap ⟨0, 0, 0, false⟩ 4611686018427387904).2
        = ⟨0, 0, 4611686018427387904, true⟩
      ∧ (CappedArray.alloc emptyHeap ⟨0, 0, 0, false⟩ 4611686018427387904).1.blocks = [[]]
      ∧ (CappedArray.pushAll (CappedArray.alloc emptyHeap ⟨0, 0, 0, false⟩ 4611686018427387904).1
            (CappedArray.alloc emptyHeap ⟨0, 0, 0, false⟩ 4611686018427387904).2 [7]).map
          (fun r => (r.2.size, r.1.read r.2.mElements 0))
          = some (1, none)) := by
  decide

/-- C17 (amended): for every `CappedArray` with `size() < capacity()` whose
`mElements` points to storage with room for `capacity()` elements, and every
element `e`, `push(e)` returns the old size `n`; afterwards `size() = n + 1`,
element `n` is `e`, the elements below `n` and `capacity()` are unchanged; and
after an `alloc(c)` whose `malloc` succeeds and whose byte count `sizeof(T) * c`
does not wrap, followed by `k ≤ c` pushes of `e_0..e_(k-1)`, `size() = k` and
element `i` is `e_i` for every `i < k`. -/
theorem push_appends {T : Type} (h : Heap T) (a : CappedArray) (e : T)
    (hlt : a.size < a.capacity) (hok : CappedArray.StorageOk h a) :
    (∃ (h1 : Heap T) (a1 : CappedArray), CappedArray.push h a e = some (h1, a1, a.size)
      ∧ a1.size = a.size + 1
      ∧ h1.read a1.mElements a.size = some e
      ∧ (a.size < 4294967296 → CappedArray.get h1 a1 a.size = some e)
      ∧ (∀ i : Nat, i < a.size → h1.read a1.mElements i = h.read a.mElements i)
      ∧ a1.capacity = a.capacity)
    ∧ ∀ (h0 : Heap T) (a0 : CappedArray) (c : Nat) (es : List T),
        h0.mallocSucceeds (h0.elementSize * c) = true → 0 < h0.elementSize →
        h0.elementSize * c < 18446744073709551616 → es.length ≤ c →
        ∃ (h1 : Heap T) (a1 : CappedArray),
          CappedArray.pushAll (CappedArray.alloc h0 a0 c).1 (CappedArray.alloc h0 a0 c).2 es
            = some (h1, a1)
          ∧ a1.size = es.length
          ∧ ∀ i : Nat, i < es.length → h1.read a1.mElements i = es[i]? := by
  constructor
  · obtain ⟨b, hb, hbl⟩ := hok
    have hlt1 : a.mSize < a.mCapacity := hlt
    have hsame := Heap.read_write_same h a.mElements a.mSize e b hb (by omega)
    refine ⟨h.write a.mElements a.mSize e, { a with mSize := a.mSize + 1 },
      CappedArray.push_eq h a e hlt, rfl, hsame, ?_, ?_, rfl⟩
    · intro h32
      have hw : wrapU32 a.size = a.mSize := by
        unfold wrapU32
        exact Nat.mod_eq_of_lt h32
      show (h.write a.mElements a.mSize e).read a.mElements (wrapU32 a.size) = some e
      rw [hw]
      exact hsame
    · intro i hi
      have hi1 : i < a.mSize := hi
      exact Heap.read_write_ne h _ _ _ e (by omega)
  · intro h0 a0 c es hmalloc hsize hwrap hk
    obtain ⟨h1, a1, hrun, hsz, hptr, _, _, _, hnew⟩ :=
      CappedArray.pushAll_spec es (CappedArray.alloc h0 a0 c).1 (CappedArray.alloc h0 a0 c).2
        (CappedArray.alloc_storageOk h0 a0 c hmalloc hsize hwrap)
        (by simpa [CappedArray.alloc] using hk)
    refine ⟨h1, a1, hrun, ?_, ?_⟩
    · show a1.mSize = es.length
      rw [hsz]
      simp [CappedArray.alloc]
    · intro i hi
      have := hnew i hi
      rw [hptr]
      simpa [CappedArray.alloc] using this

/-- Witness for C17 (amended): pushing 7 onto the fresh array `ownedArray` of
capacity 4, and three pushes after `alloc(4)`. -/
theorem push_appends_witness :
    ownedArray.2.size < ownedArray.2.capacity
    ∧ CappedArray.StorageOk ownedArray.1 ownedArray.2
    ∧ (∃ (h1 : Heap Nat) (a1 : CappedArray),
        CappedArray.push ownedArray.1 ownedArray.2 7 = some (h1, a1, 0) ∧ a1.size = 0 + 1
        ∧ h1.read a1.mElements 0 = some 7)
    ∧ ∃ (h1 : Heap Nat) (a1 : CappedArray),
        CappedArray.pushAll (CappedArray.alloc ownedArray.1 ownedArray.2 4).1
          (CappedArray.alloc ownedArray.1 ownedArray.2 4).2 [7, 8, 9] = some (h1, a1)
        ∧ a1.size = 3 ∧ h1.read a1.mElements 2 = some 9 := by
  have hok : CappedArray.StorageOk ownedArray.1 ownedArray.2 :=
    CappedArray.alloc_storageOk emptyHeap ⟨0, 0, 0, false⟩ 4 rfl (by decide) (by decide)
  have h := push_appends ownedArray.1 ownedArray.2 7 (by decide) hok
  refine ⟨by decide, hok, ?_, ?_⟩
  · obtain ⟨h1, a1, hp, hs, hr, _⟩ := h.1
    exact ⟨h1, a1, hp, hs, hr⟩
  · obtain ⟨h1, a1, hp, hs, hr⟩ :=
      h.2 ownedArray.1 ownedArray.2 4 [7, 8, 9] (by decide) (by decide) (by decide) (by decide)
    exact ⟨h1, a1, hp, hs, hr 2 (by decide)⟩

/-- C18: `size() ≤ capacity()` holds after `alloc(max)` and `setPtr(ptr, max)`
(size 0, capacity `max`), is preserved by `clear()` (size 0, capacity unchanged)
and by every `push` whose assertion `size() < capacity()` holds; a `push` on a
full array fails its assertion, and a `push` fails only then. -/
theorem size_le_capacity_invariant {T : Type} (h : Heap T) (a : CappedArray) (e : T)
    (max ptr : Nat) (hinv : a.size ≤ a.capacity) :
    ((CappedArray.alloc h a max).2.size = 0 ∧ (CappedArray.alloc h a max).2.capacity = max
      ∧ (CappedArray.alloc h a max).2.size ≤ (CappedArray.alloc h a max).2.capacity)
    ∧ ((a.setPtr ptr max).size = 0 ∧ (a.setPtr ptr max).capacity = max
      ∧ (a.setPtr ptr max).size ≤ (a.setPtr ptr max).capacity)
    ∧ (a.clear.size = 0 ∧ a.clear.capacity = a.capacity ∧ a.clear.size ≤ a.clear.capacity)
    ∧ (a.size < a.capacity →
        ∃ (h1 : Heap T) (a1 : CappedArray) (idx : Nat),
          CappedArray.push h a e = some (h1, a1, idx) ∧ a1.size ≤ a1.capacity)
    ∧ (a.size = a.capacity → CappedArray.push h a e = none)
    ∧ (CappedArray.push h a e = none ↔ a.size = a.capacity) := by
  have hinv1 : a.mSize ≤ a.mCapacity := hinv
  refine ⟨⟨rfl, rfl, Nat.zero_le _⟩, ⟨rfl, rfl, Nat.zero_le _⟩, ⟨rfl, rfl, Nat.zero_le _⟩,
    ?_, ?_, ?_⟩
  · intro hlt
    have hlt1 : a.mSize < a.mCapacity := hlt
    refine ⟨_, _, _, CappedArray.push_eq h a e hlt, ?_⟩
    show a.mSize + 1 ≤ a.mCapacity
    omega
  · intro heq
    have heq1 : a.mSize = a.mCapacity := heq
    simp [CappedArray.push, heq1]
  · unfold CappedArray.push CappedArray.size CappedArray.capacity
    constructor
    · intro hnone
      by_cases hlt : a.mSize < a.mCapacity
      · rw [if_pos hlt] at hnone
        cases hnone
      · omega
    · intro heq
      rw [if_neg (by omega)]

/-- Witness for C18: the fresh array `ownedArray` (size 0, capacity 4). -/
theorem size_le_capacity_invariant_witness :
    ownedArray.2.size ≤ ownedArray.2.capacity
    ∧ ownedArray.2.clear.size ≤ ownedArray.2.clear.capacity
    ∧ (CappedArray.push ownedArray.1 ownedArray.2 7 = none
        ↔ ownedArray.2.size = ownedArray.2.capacity) :=
  ⟨by decide,
    (size_le_capacity_invariant ownedArray.1 ownedArray.2 7 4 0 (by decide)).2.2.1.2.2,
    (size_le_capacity_invariant ownedArray.1 ownedArray.2 7 4 0 (by decide)).2.2.2.2.2⟩

/-- The destination of a move never owns the storage: both the move constructor
and the move assignment copy `mAllocated` after clearing it in the source. -/
theorem CappedArray.move_not_allocated (self other : CappedArray) :
    (CappedArray.moveConstruct other).1.mAllocated = false
    ∧ (CappedArray.moveAssign self other).1.mAllocated = false :=
  ⟨rfl, rfl⟩

/-- C19 fails on the code: after move construction or move assignment from the
array `ownedArray`, which owns its storage (`mAllocated = true`), the destination
has the source's pointer, size and capacity but `mAllocated = false`, as has the
source, and destroying both frees nothing. -/
theorem move_loses_ownership :
    ownedArray.2 = ⟨0, 0, 4, true⟩
    ∧ (CappedArray.moveConstruct ownedArray.2).1 = ⟨0, 0, 4, false⟩
    ∧ (CappedArray.moveConstruct ownedArray.2).2 = ⟨0, 0, 4, false⟩
    ∧ (CappedArray.destroy
        (CappedArray.destroy ownedArray.1 (CappedArray.moveConstruct ownedArray.2).1)
        (CappedArray.moveConstruct ownedArray.2).2).freed = []
    ∧ (CappedArray.moveAssign ⟨9, 0, 0, false⟩ ownedArray.2).1 = ⟨0, 0, 4, false⟩
    ∧ (CappedArray.moveAssign ⟨9, 0, 0, false⟩ ownedArray.2).2 = ⟨0, 0, 4, false⟩
    ∧ (CappedArray.destroy
        (CappedArray.destroy ownedArray.1 (CappedArray.moveAssign ⟨9, 0, 0, false⟩ ownedArray.2).1)
        (CappedArray.moveAssign ⟨9, 0, 0, false⟩ ownedArray.2).2).freed = [] := by
  decide

/-! ## Monotonic status -/

theorem Inv.status_values {c : ScanConfig} {input : List Nat} {s : ScanState}
    (h : Inv c input s) (i : Nat) (d : ProcessorDescriptor) (hd : s.table[i]? = some d) :
    d.status = STATUS_INVALID ∨ d.status = STATUS_AGGREGATE_AVAILABLE
      ∨ d.status = STATUS_PREFIX_AVAILABLE := by
  obtain ⟨ph, hph⟩ := h.phase_exists i d hd
  have hok := h.phase_ok i d ph hd hph
  have hvis : AggregateVisible c input i d →
      d.status = STATUS_INVALID ∨ d.status = STATUS_AGGREGATE_AVAILABLE
        ∨ d.status = STATUS_PREFIX_AVAILABLE := by
    intro hv
    rcases hv.2 with h1 | ⟨_, _, h1⟩
    · exact Or.inr (Or.inl h1)
    · exact Or.inl h1
  cases ph with
  | start => exact Or.inl hok
  | aggregateWritten => exact Or.inl hok.1
  | lookBack j r => exact hvis hok.1
  | walked r => exact hvis hok.1
  | inclusiveWritten r => exact hvis hok.1
  | inclusivePublished r => exact Or.inr (Or.inr hok.1.1)
  | done r => exact Or.inr (Or.inr hok.1.1)

/-- The status of a slot changes only along `Invalid → AggregateAvailable →
PrefixAvailable`, or `Invalid → PrefixAvailable` for slot 0. -/
theorem step_status_transition (c : ScanConfig) (input : List Nat) (s : ScanState)
    (h : Inv c input s) (i k : Nat) (d d1 : ProcessorDescriptor)
    (hd : s.table[i]? = some d) (hd1 : (step c input s k).table[i]? = some d1) :
    d1.status = d.status
    ∨ (d.status = STATUS_INVALID ∧ d1.status = STATUS_AGGREGATE_AVAILABLE)
    ∨ (d.status = STATUS_AGGREGATE_AVAILABLE ∧ d1.status = STATUS_PREFIX_AVAILABLE)
    ∨ (i = 0 ∧ d.status = STATUS_INVALID ∧ d1.status = STATUS_PREFIX_AVAILABLE) := by
  by_cases hik : i = k
  · subst hik
    have hlen := lt_length_of_getElem?_eq_some _ _ _ hd
    obtain ⟨ph, hph⟩ := h.phase_exists i d hd
    have hok := h.phase_ok i d ph hd hph
    rw [step_eq_stepPhase c input s i d ph hd hph] at hd1
    have hset : ∀ x : ProcessorDescriptor, (s.table.set i x)[i]? = some d1 → d1 = x := by
      intro x hx
      rw [List.getElem?_set, if_pos rfl, if_pos hlen] at hx
      injection hx with hx
      exact hx.symm
    have hsame : s.table[i]? = some d1 → d1.status = d.status := by
      intro hx
      rw [hd] at hx
      injection hx with hx
      rw [hx]
    cases ph with
    | start =>
      have := hset _ hd1
      subst this
      exact Or.inl rfl
    | aggregateWritten =>
      by_cases hz : i = 0 ∧ c.partitionZeroDirect = true
      · simp only [stepPhase, if_pos hz] at hd1
        exact Or.inl (hsame hd1)
      · simp only [stepPhase, if_neg hz] at hd1
        have := hset _ hd1
        subst this
        exact Or.inr (Or.inl ⟨hok.1, rfl⟩)
    | lookBack j r =>
      simp only [stepPhase] at hd1
      cases hout : lookBackStep s.table j r with
      | spin => rw [hout] at hd1; exact Or.inl (hsame hd1)
      | moveBack j1 r1 => rw [hout] at hd1; exact Or.inl (hsame hd1)
      | exit r1 => rw [hout] at hd1; exact Or.inl (hsame hd1)
    | walked r =>
      have := hset _ hd1
      subst this
      exact Or.inl rfl
    | inclusiveWritten r =>
      have := hset _ hd1
      subst this
      rcases hok.1.2 with h1 | ⟨h0, _, h1⟩
      · exact Or.inr (Or.inr (Or.inl ⟨h1, rfl⟩))
      · exact Or.inr (Or.inr (Or.inr ⟨h0, h1, rfl⟩))
    | inclusivePublished r => exact Or.inl (hsame hd1)
    | done r => exact Or.inl (hsame hd1)
  · rw [step_table_other c input s k i hik, hd] at hd1
    injection hd1 with hd1
    rw [hd1]
    exact Or.inl rfl

theorem status_le_of_transition (d d1 : ProcessorDescriptor) (i : Nat)
    (h : d1.status = d.status
      ∨ (d.status = STATUS_INVALID ∧ d1.status = STATUS_AGGREGATE_AVAILABLE)
      ∨ (d.status = STATUS_AGGREGATE_AVAILABLE ∧ d1.status = STATUS_PREFIX_AVAILABLE)
      ∨ (i = 0 ∧ d.status = STATUS_INVALID ∧ d1.status = STATUS_PREFIX_AVAILABLE)) :
    d.status ≤ d1.status := by
  rcases h with h | ⟨h1, h2⟩ | ⟨h1, h2⟩ | ⟨_, h1, h2⟩
  · rw [h]
  · rw [h1, h2]; decide
  · rw [h1, h2]; decide
  · rw [h1, h2]; decide

theorem run_status_monotone (c : ScanConfig) (input : List Nat) (i : Nat) (later : List Nat) :
    ∀ (s : ScanState) (d : ProcessorDescriptor), Inv c input s → s.table[i]? = some d →
      ∃ d1 : ProcessorDescriptor, (run c input s later).table[i]? = some d1
        ∧ d.status ≤ d1.status := by
  induction later with
  | nil => intro s d _ hd; exact ⟨d, hd, Int.le_refl _⟩
  | cons k rest ih =>
    intro s d h hd
    have hinv1 := step_preserves_inv c input s h k
    have hlen : i < (step c input s k).table.length := by
      rw [hinv1.table_length, ← h.table_length]
      exact lt_length_of_getElem?_eq_some _ _ _ hd
    have hd' : (step c input s k).table[i]? = some (step c input s k).table[i] :=
      List.getElem?_eq_getElem hlen
    obtain ⟨d1, hd1, hle⟩ := ih _ _ hinv1 hd'
    refine ⟨d1, hd1, Int.le_trans ?_ hle⟩
    exact status_le_of_transition d _ i (step_status_transition c input s h i k d _ hd hd')

theorem inclusivePrefixOf_eq_take (c : ScanConfig) (input : List Nat) (i : Nat) :
    inclusivePrefixOf c input i
      = wrapU32 ((input.take ((i + 1) * c.elementsPerPartition)).sum) := by
  have h1 : inclusivePrefixOf c input i = exclusivePrefixOf c input (i + 1) := rfl
  rw [h1, exclusivePrefixOf_loadSum, loadSum_take]

theorem exclusivePrefixOf_eq_take (c : ScanConfig) (input : List Nat) (i : Nat) :
    exclusivePrefixOf c input i = wrapU32 ((input.take (i * c.elementsPerPartition)).sum) := by
  rw [exclusivePrefixOf_loadSum, loadSum_take]

/-- C12: along every execution of the descriptor protocol the status of a slot is
one of the three states and changes only by `Invalid → AggregateAvailable →
PrefixAvailable` (slot 0 may go from `Invalid` straight to `PrefixAvailable`); no
step and no later execution lowers it, a `PrefixAvailable` slot never changes
again; a slot that is at least `AggregateAvailable` holds its partition's sum in
`blockAggregate`, and a `PrefixAvailable` slot the sum of all inputs up to the
end of its partition in `blockInclusivePrefix` (modulo `2^32`). -/
theorem status_monotonic (c : ScanConfig) (input : List Nat) (schedule : List Nat) (i : Nat)
    (d : ProcessorDescriptor)
    (hd : (run c input (initialState c input) schedule).table[i]? = some d) :
    (d.status = STATUS_INVALID ∨ d.status = STATUS_AGGREGATE_AVAILABLE
      ∨ d.status = STATUS_PREFIX_AVAILABLE)
    ∧ (∀ (k : Nat) (d1 : ProcessorDescriptor),
        (step c input (run c input (initialState c input) schedule) k).table[i]? = some d1 →
        (d1.status = d.status
          ∨ (d.status = STATUS_INVALID ∧ d1.status = STATUS_AGGREGATE_AVAILABLE)
          ∨ (d.status = STATUS_AGGREGATE_AVAILABLE ∧ d1.status = STATUS_PREFIX_AVAILABLE)
          ∨ (i = 0 ∧ d.status = STATUS_INVALID ∧ d1.status = STATUS_PREFIX_AVAILABLE))
        ∧ d.status ≤ d1.status)
    ∧ (∀ later : List Nat, ∃ d1 : ProcessorDescriptor,
        (run c input (run c input (initialState c input) schedule) later).table[i]? = some d1
        ∧ d.status ≤ d1.status
        ∧ (d.status = STATUS_PREFIX_AVAILABLE → d1 = d))
    ∧ (d.status = STATUS_AGGREGATE_AVAILABLE ∨ d.status = STATUS_PREFIX_AVAILABLE →
        d.blockAggregate = wrapU32 (((input.drop (i * c.elementsPerPartition)).take
          c.elementsPerPartition).sum))
    ∧ (d.status = STATUS_PREFIX_AVAILABLE →
        d.blockInclusivePrefix
          = wrapU32 ((input.take ((i + 1) * c.elementsPerPartition)).sum)) := by
  have hinv := reachable_inv c input schedule
  have hf := hinv.slot_facts i d hd
  refine ⟨hinv.status_values i d hd, ?_, ?_, ?_, ?_⟩
  · intro k d1 hd1
    have ht := step_status_transition c input _ hinv i k d d1 hd hd1
    exact ⟨ht, status_le_of_transition d d1 i ht⟩
  · intro later
    obtain ⟨d1, hd1, hle⟩ := run_status_monotone c input i later _ d hinv hd
    refine ⟨d1, hd1, hle, ?_⟩
    intro hs
    have hkeep := run_keeps_published c input i d hs later _ hinv hd
    rw [hd1] at hkeep
    injection hkeep
  · intro hs
    rw [← blockAggregateOf_eq_slice]
    rcases hs with h1 | h2
    · exact hf.1 h1
    · exact (hf.2 h2).2.1
  · intro hs
    rw [← inclusivePrefixOf_eq_take]
    exact (hf.2 hs).2.2

/-- Witness for C12: slot 1 of the specification's scenario once partition 1 has
published its aggregate (status 1, aggregate 7); it is later published with
status 2. -/
theorem status_monotonic_witness :
    (run (ScanConfig.mk 2 1 false) [1, 2, 3, 4]
        (initialState (ScanConfig.mk 2 1 false) [1, 2, 3, 4]) [1, 1]).table[1]?
      = some ⟨STATUS_AGGREGATE_AVAILABLE, 7, 0, 0⟩
    ∧ ∃ d1 : ProcessorDescriptor,
        (run (ScanConfig.mk 2 1 false) [1, 2, 3, 4]
          (run (ScanConfig.mk 2 1 false) [1, 2, 3, 4]
            (initialState (ScanConfig.mk 2 1 false) [1, 2, 3, 4]) [1, 1])
          (sequentialSchedule 2)).table[1]? = some d1
        ∧ STATUS_AGGREGATE_AVAILABLE ≤ d1.status := by
  have h := status_monotonic (ScanConfig.mk 2 1 false) [1, 2, 3, 4] [1, 1] 1
    ⟨STATUS_AGGREGATE_AVAILABLE, 7, 0, 0⟩ (by decide)
  obtain ⟨d1, h1, h2, _⟩ := h.2.2.1 (sequentialSchedule 2)
  exact ⟨by decide, d1, h1, h2⟩

/-! ## Wrap-around -/

theorem loadElement_drop (input : List Nat) (b u : Nat) :
    loadElement input (b + u) = loadElement (input.drop b) u := by
  simp [loadElement, List.getD_eq_getElem?_getD, List.getElem?_drop]

theorem shifted_sum_eq_loadSum_drop (input : List Nat) (b t : Nat) :
    ((List.range t).map (fun u => loadElement input (b + u))).sum
      = loadSum (input.drop b) t := by
  unfold loadSum
  congr 1
  apply List.map_congr_left
  intro u _
  exact loadElement_drop input b u

theorem take_partitionElements_slice (c : ScanConfig) (input : List Nat) (p n : Nat)
    (hn : n ≤ c.elementsPerPartition) :
    wrapU32 (((partitionElements c input p).take n).sum)
      = wrapU32 (((input.drop (p * c.elementsPerPartition)).take n).sum) := by
  unfold partitionElements
  rw [← List.map_take, List.take_range, Nat.min_eq_left hn, shifted_sum_eq_loadSum_drop,
    loadSum_take]

theorem aggregateSum_slice (c : ScanConfig) (input : List Nat) (lo n : Nat) :
    wrapU32 (aggregateSum c input lo n)
      = wrapU32 (((input.drop (lo * c.elementsPerPartition)).take
          (n * c.elementsPerPartition)).sum) := by
  have happ := aggregateSum_append c input 0 lo n
  rw [Nat.zero_add] at happ
  have h1 := exclusivePrefixOf_loadSum c input lo
  have h2 := exclusivePrefixOf_loadSum c input (n + lo)
  have h3 := shifted_sum_add_loadSum input (lo * c.elementsPerPartition)
    (n * c.elementsPerPartition)
  rw [shifted_sum_eq_loadSum_drop] at h3
  have h4 := loadSum_take (input.drop (lo * c.elementsPerPartition)) (n * c.elementsPerPartition)
  have h5 : (n + lo) * c.elementsPerPartition
      = lo * c.elementsPerPartition + n * c.elementsPerPartition := by
    rw [Nat.add_mul, Nat.add_comm]
  rw [h5, ← h3] at h2
  unfold exclusivePrefixOf at h1 h2
  rw [← happ] at h2
  rw [← h4]
  unfold wrapU32 at *
  omega

/-- The outputs of a dispatch are the prefix sums of the input modulo `2^32`. -/
theorem scan_outputs_eq (c : ScanConfig) (input : List Nat) (hE : 0 < c.elementsPerPartition) :
    exclusiveScan c input
        = (List.range input.length).map (fun k => (input.take k).sum % 4294967296)
    ∧ inclusiveScan c input
        = (List.range input.length).map (fun k => (input.take (k + 1)).sum % 4294967296) := by
  have hinv := reachable_inv c input (sequentialSchedule (partitionCount c input.length))
  have hfin : ∀ k : Nat, k < input.length →
      (exclusiveScan c input)[k]? = some (wrapU32 ((input.take k).sum))
      ∧ (inclusiveScan c input)[k]? = some (wrapU32 ((input.take (k + 1)).sum)) := by
    intro k hk
    obtain ⟨r, hr⟩ := sequentialSchedule_finishes c input (partitionCount c input.length)
      (Nat.le_refl _) (k / c.elementsPerPartition) (partition_lt_partitionCount c _ k hE hk)
    exact outputs_of_done c input _ k r hk hr
  have hle : (exclusiveScan c input).length = input.length := hinv.outExclusive_length
  have hli : (inclusiveScan c input).length = input.length := hinv.outInclusive_length
  constructor
  · apply List.ext_getElem?
    intro k
    rcases Nat.lt_or_ge k input.length with hk | hk
    · rw [(hfin k hk).1, List.getElem?_map, List.getElem?_range hk]
      rfl
    · rw [List.getElem?_eq_none (by rw [hle]; exact hk),
        List.getElem?_eq_none (by simpa using hk)]
  · apply List.ext_getElem?
    intro k
    rcases Nat.lt_or_ge k input.length with hk | hk
    · rw [(hfin k hk).2, List.getElem?_map, List.getElem?_range hk]
      rfl
    · rw [List.getElem?_eq_none (by rw [hli]; exact hk),
        List.getElem?_eq_none (by simpa using hk)]

/-- C13: `ELEMT` is an unsigned 32-bit integer and every sum the scan forms is the
mathematical sum modulo `2^32`: the local scan values, `blockAggregate`,
`blockInclusivePrefix`, `runningExclusivePrefix` (inside and after the look-back
loop) and the final outputs; no sum is an error, and the outputs do not depend on
how the input is partitioned. -/
theorem overflow_wraps (c : ScanConfig) (input : List Nat) (hE : 0 < c.elementsPerPartition) :
    (∀ p t : Nat, t < c.elementsPerPartition →
      (localInclusiveScan (partitionElements c input p))[t]?
        = some (((input.drop (p * c.elementsPerPartition)).take (t + 1)).sum % 4294967296))
    ∧ (∀ p : Nat, blockAggregateOf c input p
        = ((input.drop (p * c.elementsPerPartition)).take c.elementsPerPartition).sum
            % 4294967296)
    ∧ (∀ (schedule : List Nat) (i : Nat) (d : ProcessorDescriptor),
        (run c input (initialState c input) schedule).table[i]? = some d →
        (d.status = STATUS_AGGREGATE_AVAILABLE ∨ d.status = STATUS_PREFIX_AVAILABLE →
          d.blockAggregate
            = ((input.drop (i * c.elementsPerPartition)).take c.elementsPerPartition).sum
                % 4294967296)
        ∧ (d.status = STATUS_PREFIX_AVAILABLE →
          d.blockInclusivePrefix
            = (input.take ((i + 1) * c.elementsPerPartition)).sum % 4294967296))
    ∧ (∀ (schedule : List Nat) (i : Nat) (j : Int) (r : Nat),
        (run c input (initialState c input) schedule).phase[i]? = some (Phase.lookBack j r) →
        r = ((input.drop ((j + 1).toNat * c.elementsPerPartition)).take
              ((i - (j + 1).toNat) * c.elementsPerPartition)).sum % 4294967296)
    ∧ (∀ (schedule : List Nat) (i r : Nat),
        (run c input (initialState c input) schedule).phase[i]? = some (Phase.walked r)
        ∨ (run c input (initialState c input) schedule).phase[i]?
            = some (Phase.inclusiveWritten r)
        ∨ (run c input (initialState c input) schedule).phase[i]?
            = some (Phase.inclusivePublished r)
        ∨ (run c input (initialState c input) schedule).phase[i]? = some (Phase.done r) →
        r = (input.take (i * c.elementsPerPartition)).sum % 4294967296)
    ∧ exclusiveScan c input
        = (List.range input.length).map (fun k => (input.take k).sum % 4294967296)
    ∧ inclusiveScan c input
        = (List.range input.length).map (fun k => (input.take (k + 1)).sum % 4294967296)
    ∧ (∀ c1 : ScanConfig, 0 < c1.elementsPerPartition →
        exclusiveScan c1 input = exclusiveScan c input
        ∧ inclusiveScan c1 input = inclusiveScan c input) := by
  have hslot : ∀ (schedule : List Nat) (i : Nat) (ph : Phase),
      (run c input (initialState c input) schedule).phase[i]? = some ph →
      ∃ d, (run c input (initialState c input) schedule).table[i]? = some d
        ∧ PhaseOk c input (run c input (initialState c input) schedule) i d ph := by
    intro schedule i ph hph
    have hinv := reachable_inv c input schedule
    have hlt := lt_length_of_getElem?_eq_some _ _ _ hph
    rw [hinv.phase_length, ← hinv.table_length] at hlt
    exact ⟨_, List.getElem?_eq_getElem hlt,
      hinv.phase_ok _ _ _ (List.getElem?_eq_getElem hlt) hph⟩
  refine ⟨?_, ?_, ?_, ?_, ?_, (scan_outputs_eq c input hE).1, (scan_outputs_eq c input hE).2, ?_⟩
  · intro p t ht
    rw [localInclusiveScan_getElem? _ t (by rw [partitionElements_length]; exact ht)]
    congr 1
    exact take_partitionElements_slice c input p (t + 1) (by omega)
  · intro p
    exact blockAggregateOf_eq_slice c input p
  · intro schedule i d hd
    have hf := (reachable_inv c input schedule).slot_facts i d hd
    constructor
    · intro hs
      show d.blockAggregate = wrapU32 _
      rw [← blockAggregateOf_eq_slice]
      rcases hs with h1 | h2
      · exact hf.1 h1
      · exact (hf.2 h2).2.1
    · intro hs
      show d.blockInclusivePrefix = wrapU32 _
      rw [← inclusivePrefixOf_eq_take]
      exact (hf.2 hs).2.2
  · intro schedule i j r hph
    obtain ⟨d, _, hok⟩ := hslot schedule i _ hph
    show r = wrapU32 _
    rw [← aggregateSum_slice]
    exact hok.2.2.2
  · intro schedule i r hph
    show r = wrapU32 _
    rw [← exclusivePrefixOf_eq_take]
    rcases hph with h | h | h | h
    · obtain ⟨d, _, hok⟩ := hslot schedule i _ h
      exact hok.2
    · obtain ⟨d, _, hok⟩ := hslot schedule i _ h
      exact hok.2.1
    · obtain ⟨d, _, hok⟩ := hslot schedule i _ h
      exact hok.2
    · obtain ⟨d, _, hok⟩ := hslot schedule i _ h
      exact hok.2.1
  · intro c1 hE1
    rw [(scan_outputs_eq c1 input hE1).1, (scan_outputs_eq c1 input hE1).2,
      (scan_outputs_eq c input hE).1, (scan_outputs_eq c input hE).2]
    exact ⟨rfl, rfl⟩

/-- Witness for C13: an input whose true sums exceed `2^32 - 1`; the inclusive
scan of `[4294967295, 7, 4294967295]` is `[4294967295, 6, 5]`, the same with one
and with two elements per partition. -/
theorem overflow_wraps_witness :
    0 < (ScanConfig.mk 1 1 false).elementsPerPartition
    ∧ inclusiveScan (ScanConfig.mk 1 1 false) [4294967295, 7, 4294967295]
        = [4294967295, 6, 5]
    ∧ inclusiveScan (ScanConfig.mk 2 1 false) [4294967295, 7, 4294967295]
        = inclusiveScan (ScanConfig.mk 1 1 false) [4294967295, 7, 4294967295] := by
  have h := overflow_wraps (ScanConfig.mk 1 1 false) [4294967295, 7, 4294967295] (by decide)
  exact ⟨by decide, h.2.2.2.2.2.2.1.trans (by decide),
    (h.2.2.2.2.2.2.2 (ScanConfig.mk 2 1 false) (by decide)).2⟩

/-! ## Single writer per slot -/

theorem lookBackStep_congr (table table1 : List ProcessorDescriptor) (j : Int) (r : Nat)
    (h : ∀ t : Nat, (Phase.lookBack j r).readTarget = some t → table[t]? = table1[t]?) :
    lookBackStep table j r = lookBackStep table1 j r := by
  unfold lookBackStep
  by_cases hj : j < 0
  · rw [if_pos hj, if_pos hj]
  · rw [if_neg hj, if_neg hj, h j.toNat (by simp [Phase.readTarget, hj])]

theorem getElem?_set_self_of_some {α : Type} (l : List α) (k : Nat) (a x : α)
    (h : l[k]? = some a) : (l.set k x)[k]? = some x := by
  rw [List.getElem?_set, if_pos rfl, if_pos (lt_length_of_getElem?_eq_some _ _ _ h)]

/-- The next action of partition `k` depends on the table only through its own
slot and the slot under its look-back cursor. -/
theorem step_reads_only (c : ScanConfig) (input : List Nat) (s s1 : ScanState) (k : Nat)
    (ph : Phase) (hphase : s.phase = s1.phase) (hph : s.phase[k]? = some ph)
    (hown : s.table[k]? = s1.table[k]?)
    (hread : ∀ j : Nat, ph.readTarget = some j → s.table[j]? = s1.table[j]?)
    (he : s.outExclusive = s1.outExclusive) (hi : s.outInclusive = s1.outInclusive) :
    (step c input s k).phase = (step c input s1 k).phase
    ∧ (step c input s k).table[k]? = (step c input s1 k).table[k]?
    ∧ (step c input s k).outExclusive = (step c input s1 k).outExclusive
    ∧ (step c input s k).outInclusive = (step c input s1 k).outInclusive := by
  have hph1 : s1.phase[k]? = some ph := by rw [← hphase]; exact hph
  cases hd : s.table[k]? with
  | none =>
    have hd1 : s1.table[k]? = none := by rw [← hown]; exact hd
    have e1 : step c input s k = s := by simp only [step, hd]
    have e2 : step c input s1 k = s1 := by simp only [step, hd1]
    rw [e1, e2]
    exact ⟨hphase, hown, he, hi⟩
  | some d =>
    have hd1 : s1.table[k]? = some d := by rw [← hown]; exact hd
    rw [step_eq_stepPhase c input s k d ph hd hph, step_eq_stepPhase c input s1 k d ph hd1 hph1]
    have hset : ∀ x : ProcessorDescriptor, (s.table.set k x)[k]? = (s1.table.set k x)[k]? := by
      intro x
      rw [getElem?_set_self_of_some _ _ _ x hd, getElem?_set_self_of_some _ _ _ x hd1]
    cases ph with
    | start =>
      simp only [stepPhase]
      exact ⟨by rw [hphase], hset _, he, hi⟩
    | aggregateWritten =>
      by_cases hz : k = 0 ∧ c.partitionZeroDirect = true
      · simp only [stepPhase, if_pos hz]
        exact ⟨by rw [hphase], by rw [hd, hd1], he, hi⟩
      · simp only [stepPhase, if_neg hz]
        exact ⟨by rw [hphase], hset _, he, hi⟩
    | lookBack j r =>
      have hcongr := lookBackStep_congr s.table s1.table j r hread
      simp only [stepPhase]
      rw [← hcongr]
      cases lookBackStep s.table j r with
      | spin => exact ⟨hphase, by rw [hd, hd1], he, hi⟩
      | moveBack j1 r1 => exact ⟨by simp only []; rw [hphase], by rw [hd, hd1], he, hi⟩
      | exit r1 => exact ⟨by simp only []; rw [hphase], by rw [hd, hd1], he, hi⟩
    | walked r =>
      simp only [stepPhase]
      exact ⟨by rw [hphase], hset _, he, hi⟩
    | inclusiveWritten r =>
      simp only [stepPhase]
      exact ⟨by rw [hphase], hset _, he, hi⟩
    | inclusivePublished r =>
      simp only [stepPhase]
      exact ⟨by rw [hphase], by rw [hd, hd1], by rw [he], by rw [hi]⟩
    | done r =>
      simp only [stepPhase]
      exact ⟨hphase, by rw [hd, hd1], he, hi⟩

/-- C14: in every interleaving, an action of partition `k` changes no slot of the
Descriptor Table but slot `k`, so a slot changed by the actions of two partitions
is the slot of both and the two are the same partition; the only other slot an
action of partition `k` reads is the one under its look-back cursor, which in
every reachable state is a slot `j < k`. -/
theorem single_writer (c : ScanConfig) (input : List Nat) (k : Nat) :
    (∀ (s : ScanState) (i : Nat), i ≠ k → (step c input s k).table[i]? = s.table[i]?)
    ∧ (∀ (s s1 : ScanState) (k1 : Nat) (i : Nat),
        (step c input s k).table[i]? ≠ s.table[i]? →
        (step c input s1 k1).table[i]? ≠ s1.table[i]? → k = i ∧ k1 = i)
    ∧ (∀ (schedule : List Nat) (ph : Phase) (j : Nat),
        (run c input (initialState c input) schedule).phase[k]? = some ph →
        ph.readTarget = some j → j < k)
    ∧ (∀ (s s1 : ScanState) (ph : Phase), s.phase = s1.phase → s.phase[k]? = some ph →
        s.table[k]? = s1.table[k]? →
        (∀ j : Nat, ph.readTarget = some j → s.table[j]? = s1.table[j]?) →
        s.outExclusive = s1.outExclusive → s.outInclusive = s1.outInclusive →
        (step c input s k).phase = (step c input s1 k).phase
        ∧ (step c input s k).table[k]? = (step c input s1 k).table[k]?
        ∧ (step c input s k).outExclusive = (step c input s1 k).outExclusive
        ∧ (step c input s k).outInclusive = (step c input s1 k).outInclusive) := by
  refine ⟨fun s i hik => step_table_other c input s k i hik, ?_, ?_,
    fun s s1 ph h1 h2 h3 h4 h5 h6 => step_reads_only c input s s1 k ph h1 h2 h3 h4 h5 h6⟩
  · intro s s1 k1 i h1 h2
    constructor
    · by_contra hne
      exact h1 (step_table_other c input s k i (fun h => hne h.symm))
    · by_contra hne
      exact h2 (step_table_other c input s1 k1 i (fun h => hne h.symm))
  · intro schedule ph j hph hread
    have hinv := reachable_inv c input schedule
    have hlt := lt_length_of_getElem?_eq_some _ _ _ hph
    rw [hinv.phase_length, ← hinv.table_length] at hlt
    have hok := hinv.phase_ok _ _ _ (List.getElem?_eq_getElem hlt) hph
    cases ph with
    | lookBack j1 r =>
      obtain ⟨_, _, hj, _⟩ := hok
      simp only [Phase.readTarget] at hread
      split at hread
      · cases hread
      · injection hread with hread
        omega
    | _ => simp [Phase.readTarget] at hread

/-- Witness for C14: in the specification's scenario, after partition 0 has
written its aggregate and partition 1 has entered look-back, an action of
partition 1 leaves slot 0 as it is, and the slot partition 1 reads is slot 0. -/
theorem single_writer_witness :
    (step (ScanConfig.mk 2 1 false) [1, 2, 3, 4]
        (run (ScanConfig.mk 2 1 false) [1, 2, 3, 4]
          (initialState (ScanConfig.mk 2 1 false) [1, 2, 3, 4]) [0, 1, 1]) 1).table[0]?
      = (run (ScanConfig.mk 2 1 false) [1, 2, 3, 4]
          (initialState (ScanConfig.mk 2 1 false) [1, 2, 3, 4]) [0, 1, 1]).table[0]?
    ∧ (run (ScanConfig.mk 2 1 false) [1, 2, 3, 4]
          (initialState (ScanConfig.mk 2 1 false) [1, 2, 3, 4]) [0, 1, 1]).phase[1]?
        = some (Phase.lookBack 0 0)
    ∧ (0 : Nat) < 1 :=
  ⟨(single_writer (ScanConfig.mk 2 1 false) [1, 2, 3, 4] 1).1 _ 0 (by decide), by decide,
    (single_writer (ScanConfig.mk 2 1 false) [1, 2, 3, 4] 1).2.2.1 [0, 1, 1]
      (Phase.lookBack 0 0) 0 (by decide) (by decide)⟩

/-! ## `roundUp` -/

/-- Without overflow of `x + b - 1` in `T`, `roundUp` is `b` times the floor of
`(x + b - 1) / b`. -/
theorem roundUp_eq_mul_ediv (T : Int → Int) (M x b : Int)
    (hT : ∀ v : Int, 0 ≤ v → v ≤ M → T v = v)
    (hx : 0 ≤ x) (hb : 1 ≤ b) (hov : x + b - 1 ≤ M) :
    roundUp T x b = b * ((x + b - 1) / b)
    ∧ ∃ r : Int, 0 ≤ r ∧ r < b ∧ b * ((x + b - 1) / b) + r = x + b - 1 := by
  have hr0 : 0 ≤ (x + b - 1) % b := Int.emod_nonneg _ (by omega)
  have hr1 : (x + b - 1) % b < b := Int.emod_lt_of_pos _ (by omega)
  have hdiv : b * ((x + b - 1) / b) + (x + b - 1) % b = x + b - 1 :=
    Int.ediv_add_emod (x + b - 1) b
  have hq0 : 0 ≤ (x + b - 1) / b := Int.ediv_nonneg (by omega) (by omega)
  have hq1 : (x + b - 1) / b ≤ x + b - 1 := Int.ediv_le_self _ (by omega)
  refine ⟨?_, (x + b - 1) % b, hr0, hr1, hdiv⟩
  unfold roundUp
  rw [hT (b - 1) (by omega) (by omega),
    show x + (b - 1) = x + b - 1 by omega,
    hT (x + b - 1) (by omega) hov,
    Int.tdiv_eq_ediv (by omega) (by omega),
    hT ((x + b - 1) / b) hq0 (by omega)]
  apply hT
  · exact Int.mul_nonneg (by omega) hq0
  · omega

/-- The smallest multiple of `b` that is at least `x`. -/
theorem roundUp_least_multiple (T : Int → Int) (M x b : Int)
    (hT : ∀ v : Int, 0 ≤ v → v ≤ M → T v = v)
    (hx : 0 ≤ x) (hb : 1 ≤ b) (hov : x + b - 1 ≤ M) :
    b ∣ roundUp T x b ∧ x ≤ roundUp T x b ∧ roundUp T x b < x + b
    ∧ ∀ m : Int, b ∣ m → x ≤ m → roundUp T x b ≤ m := by
  obtain ⟨heq, r, hr0, hr1, hdiv⟩ := roundUp_eq_mul_ediv T M x b hT hx hb hov
  rw [heq]
  refine ⟨Dvd.intro _ rfl, by omega, by omega, ?_⟩
  rintro m ⟨k, rfl⟩ hxm
  by_contra hlt
  have hlt1 : b * k < b * ((x + b - 1) / b) := by omega
  have hk : k < (x + b - 1) / b := by
    by_contra hge
    have : b * ((x + b - 1) / b) ≤ b * k :=
      Int.mul_le_mul_of_nonneg_left (by omega) (by omega)
    omega
  have h1 : b * (k + 1) ≤ b * ((x + b - 1) / b) :=
    Int.mul_le_mul_of_nonneg_left (by omega) (by omega)
  have h2 : b * (k + 1) = b * k + b := by ring
  omega

/-- C21, as stated, fails: idempotence needs `roundUp(x, b) + b - 1` to stay in
range as well. For `T = int`, `x = 2147483645` and `b = 3`, `x + b - 1 = INT_MAX`
does not overflow and `roundUp(x, b) = 2147483646`, but rounding that up again
overflows and yields `-2147483646`. -/
theorem roundUp_not_idempotent_at_boundary :
    (0 : Int) ≤ 2147483645 ∧ (1 : Int) ≤ 3 ∧ (2147483645 : Int) + 3 - 1 ≤ INT_MAX
    ∧ roundUp wrapInt 2147483645 3 = 2147483646
    ∧ roundUp wrapInt (roundUp wrapInt 2147483645 3) 3 = -2147483646
    ∧ roundUp wrapInt (roundUp wrapInt 2147483645 3) 3 ≠ roundUp wrapInt 2147483645 3 := by
  decide

/-- C21 (amended): for an integer type `T` with non-negative values up to `M`,
every `x ≥ 0` and `b ≥ 1` with `x + b - 1 ≤ M`: `roundUp(x, b)` is the smallest
multiple of `b` that is at least `x`; `b` divides it, `x ≤ roundUp(x, b) < x + b`,
`roundUp(x, b) = x` iff `b` divides `x`; `roundUp` is monotone in `x`, and
idempotent whenever `roundUp(x, b) + b - 1 ≤ M` too; and for `int` arguments
`roundUp(x, b) = b * divideRoundUp(x, b)`. -/
theorem roundUp_smallest_multiple (T : Int → Int) (M x b : Int)
    (hT : ∀ v : Int, 0 ≤ v → v ≤ M → T v = v)
    (hx : 0 ≤ x) (hb : 1 ≤ b) (hov : x + b - 1 ≤ M) :
    b ∣ roundUp T x b
    ∧ (x ≤ roundUp T x b ∧ roundUp T x b < x + b)
    ∧ (∀ m : Int, b ∣ m → x ≤ m → roundUp T x b ≤ m)
    ∧ (roundUp T x b = x ↔ b ∣ x)
    ∧ (roundUp T x b + b - 1 ≤ M → roundUp T (roundUp T x b) b = roundUp T x b)
    ∧ (∀ y : Int, x ≤ y → y + b - 1 ≤ M → roundUp T x b ≤ roundUp T y b)
    ∧ (x + b - 1 ≤ INT_MAX → roundUp wrapInt x b = b * divideRoundUp x b) := by
  obtain ⟨hdvd, hle, hlt, hmin⟩ := roundUp_least_multiple T M x b hT hx hb hov
  have hfix : ∀ z : Int, 0 ≤ z → z + b - 1 ≤ M → b ∣ z → roundUp T z b = z := by
    intro z hz hzov hbz
    obtain ⟨_, hzle, _, hzmin⟩ := roundUp_least_multiple T M z b hT hz hb hzov
    have := hzmin z hbz (Int.le_refl _)
    omega
  refine ⟨hdvd, ⟨hle, hlt⟩, hmin, ?_, ?_, ?_, ?_⟩
  · constructor
    · intro h
      rw [← h]
      exact hdvd
    · intro hbx
      exact hfix x hx hov hbx
  · intro hov2
    exact hfix _ (by omega) hov2 hdvd
  · intro y hxy hyov
    obtain ⟨hydvd, hyle, _, _⟩ := roundUp_least_multiple T M y b hT (by omega) hb hyov
    exact hmin _ hydvd (by omega)
  · intro hint
    have hw : ∀ v : Int, 0 ≤ v → v ≤ INT_MAX → wrapInt v = v := by
      intro v hv0 hv1
      unfold INT_MAX at hv1
      exact wrapInt_of_range v (by omega) hv1
    rw [(roundUp_eq_mul_ediv wrapInt INT_MAX x b hw hx hb hint).1,
      divideRoundUp_eq_ediv x b hx hb hint]

/-- Witness for C21 (amended): `T = int`, `x = 12`, `b = 16`, the rounding of
the 12 payload bytes of a descriptor to the 16-byte boundary. -/
theorem roundUp_smallest_multiple_witness :
    (0 : Int) ≤ 12 ∧ (1 : Int) ≤ 16 ∧ (12 : Int) + 16 - 1 ≤ INT_MAX
    ∧ (16 : Int) ∣ roundUp wrapInt 12 16
    ∧ (12 : Int) ≤ roundUp wrapInt 12 16 ∧ roundUp wrapInt 12 16 < 12 + 16
    ∧ roundUp wrapInt (roundUp wrapInt 12 16) 16 = roundUp wrapInt 12 16
    ∧ roundUp wrapInt 12 16 = 16 * divideRoundUp 12 16 := by
  have h := roundUp_smallest_multiple wrapInt INT_MAX 12 16
    (by
      intro v hv0 hv1
      unfold INT_MAX at hv1
      exact wrapInt_of_range v (by omega) hv1)
    (by decide) (by decide) (by decide)
  exact ⟨by decide, by decide, by decide, h.1, h.2.1.1, h.2.1.2, h.2.2.2.2.1 (by decide),
    h.2.2.2.2.2.2 (by decide)⟩

/-! ## Image barriers -/

/-- Whatever `levelCount` and `layerCount` are passed, a returned image barrier
covers one mip level and one array layer; its other fields are as requested. -/
theorem makeBarrier_fields (image aspect : Nat) (oldLayout newLayout : Int)
    (levelCount layerCount : Nat) (barrier : VkImageMemoryBarrier)
    (h : makeBarrier image aspect oldLayout newLayout levelCount layerCount = some barrier) :
    barrier.subresourceRange = ⟨aspect, 0, 1, 0, 1⟩
    ∧ barrier.oldLayout = oldLayout ∧ barrier.newLayout = newLayout
    ∧ barrier.image = image
    ∧ findAccessFlagsFor oldLayout = some barrier.srcAccessMask
    ∧ findAccessFlagsFor newLayout = some barrier.dstAccessMask := by
  unfold makeBarrier at h
  simp only [] at h
  cases hs : findAccessFlagsFor oldLayout with
  | none => rw [hs] at h; cases h
  | some src =>
    cases hd : findAccessFlagsFor newLayout with
    | none => rw [hs, hd] at h; cases h
    | some dst =>
      rw [hs, hd] at h
      simp only [Option.some.injEq] at h
      subst h
      exact ⟨rfl, rfl, rfl, rfl, rfl, rfl⟩

/-- C22 fails on the code: `makeBarrier(image, aspect, VK_IMAGE_LAYOUT_UNDEFINED,
VK_IMAGE_LAYOUT_GENERAL, 4, 6)` returns a barrier whose `subresourceRange` has
`levelCount = 1` and `layerCount = 1`, not 4 and 6; the aspect mask, the base
level and layer, the layouts and the access masks are as requested. -/
theorem makeBarrier_ignores_counts :
    makeBarrier 7 1 VK_IMAGE_LAYOUT_UNDEFINED VK_IMAGE_LAYOUT_GENERAL 4 6
      = some { srcAccessMask := 0
               dstAccessMask := VK_ACCESS_MEMORY_WRITE_BIT ||| VK_ACCESS_MEMORY_READ_BIT
               oldLayout := VK_IMAGE_LAYOUT_UNDEFINED
               newLayout := VK_IMAGE_LAYOUT_GENERAL
               image := 7
               subresourceRange :=
                 { aspectMask := 1, baseMipLevel := 0, levelCount := 1,
                   baseArrayLayer := 0, layerCount := 1 } }
    ∧ (1 : Nat) ≠ 4 ∧ (1 : Nat) ≠ 6 := by
  decide

end Vub
